import Mathlib

/-!
# FASTSolver: sparse CSC matrices and dense factorizations

A shallow embedding of `src/Obj/SparseObj.hpp` (`SparseMatrixCSC`) and of the
factorizations of `src/LinearAlgebra/Factorized/basic.hpp`, with the scalar type
`TObj` read as an exact ring or field (no rounding).

Conventions.
* C++ containers are lists; an index beyond the end (undefined in C++) reads the
  default value and writes nothing.
* Indices are natural numbers, so the statements concern indices that are not
  negative; `addValue_int` keeps the `int` arguments of the source.
* Thrown exceptions are the `error` side of `Except Error`.
-/

namespace FASTSolver

/-- The exceptions thrown by the library: `std::out_of_range`,
`std::invalid_argument` and `std::runtime_error`, each with its message. -/
inductive Error where
  | out_of_range (what : String)
  | invalid_argument (what : String)
  | runtime_error (what : String)
  deriving DecidableEq, Repr

/-! ## `SparseObj.hpp` -/

/-- Staged triplet of `SparseObj.hpp` (`struct row_col_idx`): the position of a
non-zero and the slot of `values` that held it when it was inserted. -/
structure row_col_idx where
  row : Nat
  col : Nat
  index : Nat
  deriving DecidableEq, Repr

/-- The comparison `row_col_idx::operator<` exactly as written in the source:
`return row < other.col;`. -/
def row_col_idx.lt (a other : row_col_idx) : Bool :=
  decide (a.row < other.col)

/-- Inner loop of an insertion sort (`__unguarded_linear_insert`): `val` travels
towards the front past every element `y` with `comp val y`; the list argument is
the already ordered prefix, nearest element first (that is, reversed). -/
def linear_insert {β : Type} (comp : β → β → Bool) (val : β) : List β → List β
  | [] => [val]
  | y :: ys => if comp val y then y :: linear_insert comp val ys else val :: y :: ys

/-- One step of the insertion sort on the ordered prefix `pre` (kept in order):
an element smaller than the first goes to the front, any other is inserted
from the right. -/
def insertion_step {β : Type} (comp : β → β → Bool) (pre : List β) (val : β) : List β :=
  match pre with
  | [] => [val]
  | first :: _ =>
    if comp val first then val :: pre
    else (linear_insert comp val pre.reverse).reverse

/-- The call `std::sort(first, last)` with comparison `comp` on a range of at most
sixteen elements, as libstdc++ runs it: `__introsort_loop` returns at once and
`__final_insertion_sort` is `__insertion_sort`, which never reads outside the
range. A longer range first goes through `unguarded_partition_pivot` (below),
where the struct's comparison, not being a strict weak order, can send a scan
outside the vector; no result is defined for it then. What is stated below
about the order left by `finalize()` is stated for, or evaluated on, ranges of at
most sixteen triplets. -/
def std_sort {β : Type} (comp : β → β → Bool) (xs : List β) : List β :=
  xs.foldl (insertion_step comp) []

/-- The call `std::iter_swap(a + i, a + j)`. -/
def iter_swap {β : Type} (a : List β) (i j : Nat) : List β :=
  match a[i]?, a[j]? with
  | some x, some y => (a.set i y).set j x
  | _, _ => a

/-- Helper `__move_median_to_first(result, a, b, c, comp)` of libstdc++: the
median of the elements at `x`, `y`, `z` under `comp` is swapped to `result`;
`none` if a position lies outside the vector. -/
def move_median_to_first {β : Type} (comp : β → β → Bool) (a : List β) (result x y z : Nat) :
    Option (List β) :=
  match a[result]?, a[x]?, a[y]?, a[z]? with
  | some _, some ax, some ay, some az =>
    if comp ax ay then
      if comp ay az then some (iter_swap a result y)
      else if comp ax az then some (iter_swap a result z)
      else some (iter_swap a result x)
    else if comp ax az then some (iter_swap a result x)
    else if comp ay az then some (iter_swap a result z)
    else some (iter_swap a result y)
  | _, _, _, _ => none

/-- The loop `while (comp(first, pivot)) ++first;` of `__unguarded_partition`: the
position where it stops, or `none` when it reads past the end of the vector;
`fuel` bounds the iterations and is started above the length of the vector. -/
def scan_up {β : Type} (comp : β → β → Bool) (a : List β) (pivot : β) : Nat → Nat → Option Nat
  | 0, _ => none
  | fuel + 1, first =>
    match a[first]? with
    | none => none
    | some x => if comp x pivot then scan_up comp a pivot fuel (first + 1) else some first

/-- The loop `while (comp(pivot, last)) --last;` of `__unguarded_partition`: the
position where it stops, or `none` when it reads before the start of the vector. -/
def scan_down {β : Type} (comp : β → β → Bool) (a : List β) (pivot : β) : Nat → Option Nat
  | 0 =>
    match a[0]? with
    | none => none
    | some x => if comp pivot x then none else some 0
  | last + 1 =>
    match a[last + 1]? with
    | none => none
    | some x => if comp pivot x then scan_down comp a pivot last else some (last + 1)

/-- Helper `__unguarded_partition(first, last, pivot, comp)` of libstdc++: the two
scans, the test `!(first < last)`, the swap; the cut position and the vector, or
`none` when a scan leaves the vector. Every turn advances `first`, and `fuel` is
started above the length of the vector. -/
def unguarded_partition {β : Type} (comp : β → β → Bool) :
    Nat → List β → Nat → Nat → Nat → Option (Nat × List β)
  | 0, _, _, _, _ => none
  | fuel + 1, a, first, last, pivot =>
    match a[pivot]? with
    | none => none
    | some p =>
      match scan_up comp a p (a.length + 1) first with
      | none => none
      | some first =>
        if last = 0 then none
        else
          match scan_down comp a p (last - 1) with
          | none => none
          | some last =>
            if ¬ first < last then some (first, a)
            else unguarded_partition comp fuel (iter_swap a first last) (first + 1) last pivot

/-- Helper `__unguarded_partition_pivot(first, last, comp)` of libstdc++, the
first thing `std::sort` does with a range `[first, last)` of more than sixteen
elements: the median of `first + 1`, the middle and `last - 1` goes to `first`,
then the range after it is partitioned around it. -/
def unguarded_partition_pivot {β : Type} (comp : β → β → Bool) (a : List β) (first last : Nat) :
    Option (Nat × List β) :=
  match move_median_to_first comp a first (first + 1) (first + (last - first) / 2) (last - 1) with
  | none => none
  | some a => unguarded_partition comp (a.length + 1) a (first + 1) last first

/-- Running sums `std::partial_sum`, starting from the accumulator `acc`. -/
def partial_sum_from : Nat → List Nat → List Nat
  | _, [] => []
  | acc, x :: xs => (acc + x) :: partial_sum_from (acc + x) xs

/-- The call `std::partial_sum(first, last, out)` as a list of running sums. -/
def partial_sum (xs : List Nat) : List Nat := partial_sum_from 0 xs

/-- Writing the range `src` over the beginning of `dst` (output iterator
`dst.begin()`). -/
def write_prefix {β : Type} (src dst : List β) : List β :=
  src ++ dst.drop src.length

/-- The loop of `std::lower_bound`: `len` halves until it is zero; `fuel` bounds
the number of iterations and is started at `len`. -/
def lower_bound_loop (xs : List Nat) (val : Nat) : Nat → Nat → Nat → Nat
  | 0, first, _ => first
  | fuel + 1, first, len =>
    if len = 0 then first
    else
      let half := len / 2
      let mid := first + half
      if xs.getD mid 0 < val then
        lower_bound_loop xs val fuel (mid + 1) (len - half - 1)
      else
        lower_bound_loop xs val fuel first half

/-- The call `std::lower_bound(xs.begin() + start, xs.begin() + stop, val)`,
returned as an index into `xs`. -/
def lower_bound (xs : List Nat) (start stop val : Nat) : Nat :=
  lower_bound_loop xs val (stop - start) start (stop - start)

/-- The class `SparseMatrixCSC<TObj>`; `_n` is the number of rows and `_m` the
number of columns, as in the source. -/
structure SparseMatrixCSC (α : Type) where
  _n : Nat
  _m : Nat
  values : List α
  row_indices_idx : List row_col_idx
  row_indices : List Nat
  col_ptr : List Nat
  col_t_ptr : List Nat

namespace SparseMatrixCSC

variable {α : Type}

/-- Constructor `SparseMatrixCSC(int rows, int cols)`. -/
def new (rows cols : Nat) : SparseMatrixCSC α where
  _n := rows
  _m := cols
  values := []
  row_indices_idx := []
  row_indices := []
  col_ptr := List.replicate (cols + 1) 0
  col_t_ptr := List.replicate (cols + 1) 0

/-- Member `getRows`. -/
def getRows (A : SparseMatrixCSC α) : Nat := A._n

/-- Member `getCols`. -/
def getCols (A : SparseMatrixCSC α) : Nat := A._m

/-- Member `addValue(row, col, value)`: range check, zero values skipped, else
the value and its triplet are appended and the count of column `col` bumped. -/
def addValue [Zero α] [DecidableEq α] (A : SparseMatrixCSC α) (row col : Nat) (value : α) :
    Except Error (SparseMatrixCSC α) :=
  if col ≥ A._m ∨ row ≥ A._n then .error (.out_of_range "Row or column index out of range.")
  else if value = 0 then .ok A
  else .ok { A with
    values := A.values ++ [value]
    row_indices_idx := A.row_indices_idx ++ [⟨row, col, A.values.length⟩]
    col_t_ptr := A.col_t_ptr.modify (· + 1) (col + 1) }

/-- The copy loop of `finalize`: `values[i] = temp_values[row_indices_idx[i].index]`
for `i` from the given position on. -/
def finalize_values [Zero α] (temp : List α) : List row_col_idx → Nat → List α → List α
  | [], _, vs => vs
  | t :: ts, i, vs => finalize_values temp ts (i + 1) (vs.set i (temp.getD t.index 0))

/-- Member `finalize()`: sort the triplets with the struct's comparison (`std_sort`,
which covers at most sixteen staged triplets), permute the values accordingly,
append the rows to `row_indices`, and write the running sums of the column
counts into `col_ptr`. -/
def finalize [Zero α] (A : SparseMatrixCSC α) : SparseMatrixCSC α :=
  let sorted := std_sort row_col_idx.lt A.row_indices_idx
  { A with
    row_indices_idx := sorted
    values := finalize_values A.values sorted 0 A.values
    row_indices := A.row_indices ++ sorted.map row_col_idx.row
    col_ptr := write_prefix (partial_sum A.col_t_ptr) A.col_ptr }

/-- Element access `operator()(row, col)`: range check, then binary search for
`row` among the rows of column `col`. -/
def get [Zero α] (A : SparseMatrixCSC α) (row col : Nat) : Except Error α :=
  if row ≥ A._n ∨ col ≥ A._m then .error (.out_of_range "Index out of range.")
  else
    let start := A.col_ptr.getD col 0
    let stop := A.col_ptr.getD (col + 1) 0
    let it := lower_bound A.row_indices start stop row
    if it ≠ stop ∧ A.row_indices.getD it 0 = row then .ok (A.values.getD it 0)
    else .ok 0

/-- Dense vector times sparse matrix, `operator*(const VectorObj&)`: the size
check, then `result[row] += (*this)(row, col) * vector[col]` over all positions. -/
def mulVec [CommRing α] [DecidableEq α] (A : SparseMatrixCSC α) (vector : List α) :
    Except Error (List α) :=
  if A._m ≠ vector.length then
    .error (.invalid_argument "Sparse matrix columns must match vector size.")
  else
    (List.range A._n).foldlM (fun result row =>
      (List.range A._m).foldlM (fun result col => do
        let a ← A.get row col
        pure (result.set row (result.getD row 0 + a * vector.getD col 0))) result)
      (List.replicate A._n 0)

/-- Value of `m[key]` for a `std::unordered_map<int, TObj>` kept as a list of
entries: the stored value, or the default `TObj()` that `operator[]` inserts. -/
def umap_at [Zero α] (m : List (Nat × α)) (key : Nat) : α :=
  match m.find? (fun p => p.1 == key) with
  | some p => p.2
  | none => 0

/-- The assignment `m[key] = v` on a `std::unordered_map<int, TObj>`: an existing
entry is overwritten in place, a new key gets a new entry. The list is the order
in which the map is iterated. libstdc++ links the node of a new key in front of
all others when the bucket of the key is empty, which is the case while the keys
are distinct modulo 13 (the number of buckets from the first insertion up to the
fourteenth key); a key that shares a bucket, and the rehash at the fourteenth
key, are not modelled. The inputs evaluated below never hold two entries in one
map, and the general statements below hold for every order. -/
def umap_set (m : List (Nat × α)) (key : Nat) (v : α) : List (Nat × α) :=
  if m.any (fun p => p.1 == key) then m.map (fun p => if p.1 = key then (key, v) else p)
  else (key, v) :: m

/-- One `while` loop of `Operator`:
`col_data[row_indices[pos++]] = operation(col_data[row_indices[pos]], values[pos])`
for `pos` from `col_ptr[col]` up to `col_ptr[col + 1]`. The right operand of the
assignment is evaluated before the left one (C++17), so the slot read and the slot
written are the same `row_indices[pos]`, read before `pos` is incremented. -/
def Operator_accumulate [Zero α] (M : SparseMatrixCSC α) (operation : α → α → α) (col : Nat)
    (col_data : List (Nat × α)) : List (Nat × α) :=
  (List.range' (M.col_ptr.getD col 0) (M.col_ptr.getD (col + 1) 0 - M.col_ptr.getD col 0)).foldl
    (fun col_data pos =>
      umap_set col_data (M.row_indices.getD pos 0)
        (operation (umap_at col_data (M.row_indices.getD pos 0)) (M.values.getD pos 0)))
    col_data

/-- Member template `Operator(other, operation)`: shape check, per column the two
accumulation loops into `col_data`, `addValue` of every non-zero entry, and a
final `finalize()`. -/
def Operator [Zero α] [DecidableEq α] (A other : SparseMatrixCSC α) (operation : α → α → α) :
    Except Error (SparseMatrixCSC α) :=
  if A._n ≠ other._n ∨ A._m ≠ other._m then
    .error (.invalid_argument "Matrices must be the same size for addition.")
  else do
    let result ← (List.range A._m).foldlM (fun result col =>
      let col_data := Operator_accumulate other operation col
        (Operator_accumulate A operation col [])
      col_data.foldlM (fun (result : SparseMatrixCSC α) entry =>
        if entry.2 ≠ 0 then result.addValue entry.1 col entry.2 else pure result) result)
      (new A._n A._m)
    pure result.finalize

/-- Member `operator+`: `Operator(other, std::plus<TObj>())`. -/
def add [CommRing α] [DecidableEq α] (A other : SparseMatrixCSC α) :
    Except Error (SparseMatrixCSC α) :=
  A.Operator other (fun x y => x + y)

/-- Member `operator-`: `Operator(other, std::minus<TObj>())`. -/
def sub [CommRing α] [DecidableEq α] (A other : SparseMatrixCSC α) :
    Except Error (SparseMatrixCSC α) :=
  A.Operator other (fun x y => x - y)

/-- First phase of `operator*(const SparseMatrixCSC&)`: for every stored entry
`(row_b, col)` of `other` and every stored entry `p` of column `row_b` of `A`,
`rows[row_indices[p]].emplace_back(col, values[p] * value_b)`. -/
def mul_rows [CommRing α] (A other : SparseMatrixCSC α) : List (List (Nat × α)) :=
  (List.range other._m).foldl (fun rows col =>
    (List.range' (other.col_ptr.getD col 0)
        (other.col_ptr.getD (col + 1) 0 - other.col_ptr.getD col 0)).foldl (fun rows k =>
      let row_b := other.row_indices.getD k 0
      let value_b := other.values.getD k 0
      (List.range' (A.col_ptr.getD row_b 0)
          (A.col_ptr.getD (row_b + 1) 0 - A.col_ptr.getD row_b 0)).foldl (fun rows p =>
        rows.modify (fun r => r ++ [(col, A.values.getD p 0 * value_b)])
          (A.row_indices.getD p 0)) rows) rows)
    (List.replicate A._n [])

/-- Member `operator*(const SparseMatrixCSC&)`: dimension check, the products
gathered per row, summed per column in `temp_map`, the non-zero sums passed to
`addValue`, and a final `finalize()`. -/
def mul [CommRing α] [DecidableEq α] (A other : SparseMatrixCSC α) :
    Except Error (SparseMatrixCSC α) :=
  if A._m ≠ other._n then
    .error (.invalid_argument "Matrix dimensions incompatible for multiplication.")
  else do
    let rows := mul_rows A other
    let result ← (List.range A._n).foldlM (fun result row =>
      let temp_map := (rows.getD row []).foldl (fun temp_map entry =>
        umap_set temp_map entry.1 (umap_at temp_map entry.1 + entry.2)) []
      temp_map.foldlM (fun (result : SparseMatrixCSC α) entry =>
        if entry.2 ≠ 0 then result.addValue row entry.1 entry.2 else pure result) result)
      (new A._n other._m)
    pure result.finalize

/-- The call `v.resize(n)` resp. `v.resize(n, d)` of `std::vector`. -/
def resize {β : Type} (v : List β) (n : Nat) (d : β) : List β :=
  v.take n ++ List.replicate (n - v.length) d

/-- The scatter loop of `Transpose`: for every column `col` and every slot `idx`
of that column, the entry goes to slot `col_ptr[row]` of the result, which is
then advanced. The state is the result's `(col_ptr, row_indices, values)`. -/
def Transpose_scatter [Zero α] (A : SparseMatrixCSC α)
    (init : List Nat × List Nat × List α) : List Nat × List Nat × List α :=
  (List.range A._m).foldl (fun st col =>
    (List.range' (A.col_ptr.getD col 0)
        (A.col_ptr.getD (col + 1) 0 - A.col_ptr.getD col 0)).foldl (fun st idx =>
      let row := A.row_indices.getD idx 0
      let dest_idx := st.1.getD row 0
      (st.1.set row (dest_idx + 1), st.2.1.set dest_idx col,
        st.2.2.set dest_idx (A.values.getD idx 0))) st) init

/-- The last loop of `Transpose`: `col_ptr[i] = col_ptr[i - 1]` for `i` from `_n`
down to `1`, then `col_ptr[0] = 0`. -/
def Transpose_shift (n : Nat) (cp : List Nat) : List Nat :=
  ((List.range' 1 n).reverse.foldl (fun cp i => cp.set i (cp.getD (i - 1) 0)) cp).set 0 0

/-- Member `Transpose()`: count the entries of every row, turn the counts into
running sums, scatter the entries, shift the pointers back. -/
def Transpose [Zero α] (A : SparseMatrixCSC α) : SparseMatrixCSC α :=
  let result : SparseMatrixCSC α := new A._m A._n
  let col_ptr := resize result.col_ptr (A._n + 1) 0
  let row_indices := resize result.row_indices A.values.length 0
  let values := resize result.values A.values.length 0
  let col_ptr := (List.range A.row_indices.length).foldl (fun cp i =>
    cp.modify (· + 1) (A.row_indices.getD i 0 + 1)) col_ptr
  let col_ptr := partial_sum col_ptr
  let st := Transpose_scatter A (col_ptr, row_indices, values)
  { result with
    col_ptr := Transpose_shift A._n st.1
    row_indices := st.2.1
    values := st.2.2 }

end SparseMatrixCSC

/-- The matrix built by a list of `addValue(row, col, value)` calls on a fresh
`rows x cols` matrix (the first failing call aborts). -/
def addValues {α : Type} [Zero α] [DecidableEq α] (rows cols : Nat)
    (calls : List (Nat × Nat × α)) : Except Error (SparseMatrixCSC α) :=
  calls.foldlM (fun A c => A.addValue c.1 c.2.1 c.2.2) (SparseMatrixCSC.new rows cols)

/-- A fresh matrix, a list of `addValue` calls, then one `finalize()`. -/
def build {α : Type} [Zero α] [DecidableEq α] (rows cols : Nat)
    (calls : List (Nat × Nat × α)) : Except Error (SparseMatrixCSC α) :=
  (addValues rows cols calls).map SparseMatrixCSC.finalize


/-- The storage invariants of a finalized compressed-column matrix: `col_ptr` has
one entry per column plus one, starts at zero, never decreases and ends at the
number of stored values; every stored value has a row index, inside the shape;
inside each column the row indices increase strictly. -/
def CSC {α : Type} (A : SparseMatrixCSC α) : Prop :=
  A.col_ptr.length = A._m + 1 ∧
  A.col_ptr.getD 0 0 = 0 ∧
  (∀ j, j < A._m → A.col_ptr.getD j 0 ≤ A.col_ptr.getD (j + 1) 0) ∧
  A.col_ptr.getD A._m 0 = A.values.length ∧
  A.row_indices.length = A.values.length ∧
  (∀ k, k < A.values.length → A.row_indices.getD k 0 < A._n) ∧
  (∀ j, j < A._m → ∀ k, k < A.col_ptr.getD (j + 1) 0 → A.col_ptr.getD j 0 ≤ k →
    k + 1 < A.col_ptr.getD (j + 1) 0 →
    A.row_indices.getD k 0 < A.row_indices.getD (k + 1) 0)

instance {α : Type} (A : SparseMatrixCSC α) : Decidable (CSC A) := by
  unfold CSC; infer_instance

/-- The sum, over the inserted triplets `(i, j, a)` of row `i`, of `a * v[j]`:
the product of the inserted matrix with `v`, read off the list of calls. -/
def triplet_mulVec {α : Type} [CommRing α] (rows : Nat) (calls : List (Nat × Nat × α))
    (v : List α) : List α :=
  (List.range rows).map (fun i =>
    ((calls.filter (fun c => c.1 = i)).map (fun c => c.2.2 * v.getD c.2.1 0)).sum)

/-- The element `(row, col)` of a finalized matrix, `0` when the access throws. -/
def entry {α : Type} [Zero α] (A : Except Error (SparseMatrixCSC α)) (row col : Nat) : α :=
  match A with
  | .ok M => match M.get row col with
    | .ok v => v
    | .error _ => 0
  | .error _ => 0

/-- Storage of a finalized matrix given by its three arrays; the staging fields
are left empty, no operation below reads them on its operands. -/
def of_storage {α : Type} (rows cols : Nat) (values : List α) (row_indices col_ptr : List Nat) :
    SparseMatrixCSC α where
  _n := rows
  _m := cols
  values := values
  row_indices_idx := []
  row_indices := row_indices
  col_ptr := col_ptr
  col_t_ptr := List.replicate (cols + 1) 0

/-- The element `(row, col)` of a raw matrix, `0` when the access throws. -/
def SparseMatrixCSC.at {α : Type} [Zero α] (A : SparseMatrixCSC α) (row col : Nat) : α :=
  entry (.ok A) row col


/-- The value most recently inserted at `(i, j)` by a list of `addValue` calls, or
`0` if no call names that position. -/
def inserted {α : Type} [Zero α] (calls : List (Nat × Nat × α)) (i j : Nat) : α :=
  match calls.reverse.find? (fun c => decide (c.1 = i ∧ c.2.1 = j)) with
  | some c => c.2.2
  | none => 0

/-- State of a matrix of shape `rows x cols` after the `addValue` calls `calls`
and before `finalize()`: the triplets and the values they point to are those of
the non-zero calls, and `col_t_ptr` counts the triplets of every column. -/
structure Staged {α : Type} [Zero α] (rows cols : Nat) (calls : List (Nat × Nat × α))
    (A : SparseMatrixCSC α) : Prop where
  n_eq : A._n = rows
  m_eq : A._m = cols
  len : A.values.length = A.row_indices_idx.length
  rows_nil : A.row_indices = []
  col_ptr_len : A.col_ptr.length = cols + 1
  col_t_len : A.col_t_ptr.length = cols + 1
  col_t_zero : A.col_t_ptr.getD 0 0 = 0
  col_t_count : ∀ c, c < cols →
    A.col_t_ptr.getD (c + 1) 0 = A.row_indices_idx.countP (fun t => decide (t.col = c))
  idx_lt : ∀ t ∈ A.row_indices_idx, t.row < rows ∧ t.col < cols ∧ t.index < A.values.length
  of_call : ∀ c ∈ calls, c.2.2 ≠ 0 →
    ∃ t ∈ A.row_indices_idx, t.row = c.1 ∧ t.col = c.2.1 ∧ A.values.getD t.index 0 = c.2.2
  to_call : ∀ t ∈ A.row_indices_idx,
    ∃ c ∈ calls, c.2.2 ≠ 0 ∧ t.row = c.1 ∧ t.col = c.2.1 ∧ A.values.getD t.index 0 = c.2.2

/-- Number of stored entries whose row is smaller than `r`: where the block of
row `r` begins in the transposed storage. -/
def row_start (R : List Nat) (r : Nat) : Nat := R.countP (fun x => decide (x < r))

/-- Number of entries before slot `i` that share its row. -/
def row_rank (R : List Nat) (i : Nat) : Nat := (R.take i).count (R.getD i 0)

/-- Slot of the transposed storage that receives entry `i`. -/
def transpose_pos (R : List Nat) (i : Nat) : Nat := row_start R (R.getD i 0) + row_rank R i

/-- State of the scatter loop of `Transpose` after the first `T` stored entries of
`A`: every row pointer has advanced by the number of entries of its row seen so
far, and every entry seen sits in its slot with its column and value. -/
structure ScatterInv {α : Type} [Zero α] (A : SparseMatrixCSC α) (T : Nat)
    (st : List Nat × List Nat × List α) : Prop where
  len1 : st.1.length = A._n + 1
  len2 : st.2.1.length = A.values.length
  len3 : st.2.2.length = A.values.length
  ptr : ∀ r, r ≤ A._n →
    st.1.getD r 0 = row_start A.row_indices r + (A.row_indices.take T).count r
  placed : ∀ i, i < T → ∀ c, c < A._m → A.col_ptr.getD c 0 ≤ i → i < A.col_ptr.getD (c + 1) 0 →
    st.2.1.getD (transpose_pos A.row_indices i) 0 = c ∧
    st.2.2.getD (transpose_pos A.row_indices i) 0 = A.values.getD i 0
  bound : ∀ p, 0 < A._m → st.2.1.getD p 0 < A._m


/-! ## Dense matrices and `basic.hpp` -/

/-- Modelled from the spec: the dense matrix class `DenseObj<T>` (its header is
not among the sources). Per the specification it is a `rows x cols` grid of
scalars with shape fixed at construction, indexed read and write, and an
in-place row swap. -/
structure DenseObj (K : Type) where
  rows : Nat
  cols : Nat
  data : Nat → Nat → K

namespace DenseObj

variable {K : Type}

/-- Modelled from the spec: constructor `DenseObj(m, n)`, a grid of zeros. -/
def new [Zero K] (m n : Nat) : DenseObj K := ⟨m, n, fun _ _ => 0⟩

/-- Modelled from the spec: `getRows`. -/
def getRows (A : DenseObj K) : Nat := A.rows

/-- Modelled from the spec: `getCols`. -/
def getCols (A : DenseObj K) : Nat := A.cols

/-- Modelled from the spec: indexed read `A(i, j)`. -/
def get (A : DenseObj K) (i j : Nat) : K := A.data i j

/-- Modelled from the spec: indexed write `A(i, j) = v`. -/
def set (A : DenseObj K) (i j : Nat) (v : K) : DenseObj K :=
  { A with data := fun r c => if r = i ∧ c = j then v else A.data r c }

/-- Modelled from the spec: `swapRows(i, j)`, exchange of two rows in place. -/
def swapRows (A : DenseObj K) (i j : Nat) : DenseObj K :=
  { A with data := fun r c => if r = i then A.data j c else if r = j then A.data i c
      else A.data r c }

end DenseObj

/-- The dense branch of `utils::setMatrixValue(H, i, j, value)`: `H(i, j) = value`. -/
def setMatrixValue {K : Type} (H : DenseObj K) (i j : Nat) (value : K) : DenseObj K :=
  H.set i j value

/-- The call `std::swap(P[a], P[b])` on a vector. -/
def swap_entries (P : List Nat) (a b : Nat) : List Nat :=
  (P.set a (P.getD b 0)).set b (P.getD a 0)

section PivotLU

variable {K : Type} [LinearOrderedField K]

/-- Pivot search of `PivotLU` for column `j`: `(maxIndex, maxVal)` starts at
`(j, |A(j,j)|)` and moves to row `i` whenever `|A(i,j)|` is strictly larger. -/
def PivotLU_pivot (A : DenseObj K) (n j : Nat) : Nat × K :=
  (List.range' (j + 1) (n - (j + 1))).foldl (fun mx i =>
    if |A.get i j| > mx.2 then (i, |A.get i j|) else mx) (j, |A.get j j|)

/-- Elimination of row `i` against pivot row `j` in `PivotLU`: the multiplier
`factor = A(i,j) / A(j,j)` is stored at `(i, j)`, then
`A(i,k) = A(i,k) - factor * A(j,k)` for `k` from `j + 1` to `n - 1`. -/
def PivotLU_row (n j : Nat) (A : DenseObj K) (i : Nat) : DenseObj K :=
  let factor := A.get i j / A.get j j
  (List.range' (j + 1) (n - (j + 1))).foldl (fun A k =>
    setMatrixValue A i k (A.get i k - factor * A.get j k)) (setMatrixValue A i j factor)

/-- Body of the column loop of `PivotLU`: pivot search, row swap in `A` and `P`,
the singularity test against `1e-12`, elimination of the rows below. -/
def PivotLU_column (n : Nat) (st : DenseObj K × List Nat) (j : Nat) :
    Except Error (DenseObj K × List Nat) :=
  let maxIndex := (PivotLU_pivot st.1 n j).1
  let st := if maxIndex ≠ j then (st.1.swapRows j maxIndex, swap_entries st.2 j maxIndex) else st
  if |st.1.get j j| < 1 / 10 ^ 12 then
    .error (.runtime_error "Matrix is singular or nearly singular and cannot be decomposed.")
  else .ok ((List.range' (j + 1) (n - (j + 1))).foldl (PivotLU_row n j) st.1, st.2)

/-- Function `basic::PivotLU(A, P)` on a dense matrix: square check, `P` set to
the identity `0, 1, ..., n - 1` (the vector passed in is resized and overwritten),
then the column loop. Returns the final `A` and `P`. -/
def PivotLU (A : DenseObj K) : Except Error (DenseObj K × List Nat) :=
  if A.getRows ≠ A.getCols then
    .error (.invalid_argument "Matrix must be square for LU decomposition.")
  else (List.range A.getRows).foldlM (PivotLU_column A.getRows) (A, List.range A.getRows)

/-- The factor `L` read off the stored matrix: strictly lower part, unit diagonal. -/
def lower_unit (A : DenseObj K) (i t : Nat) : K :=
  if t < i then A.get i t else if t = i then 1 else 0

/-- The factor `U` read off the stored matrix: diagonal and upper part. -/
def upper (A : DenseObj K) (t k : Nat) : K :=
  if t ≤ k then A.get t k else 0

end PivotLU

/-- A dense matrix given by its rows. -/
def DenseObj.of_rows {K : Type} [Zero K] (m n : Nat) (rows : List (List K)) : DenseObj K :=
  ⟨m, n, fun i j => (rows.getD i []).getD j 0⟩

/-- Row `r` of the matrix after elimination against pivot row `j`: the multiplier
in column `j`, the updated entries to its right, the entries to its left kept. -/
def eliminated {K : Type} [LinearOrderedField K] (n j : Nat) (B : DenseObj K) (r c : Nat) : K :=
  if c = j then B.get r j / B.get j j
  else if j + 1 ≤ c ∧ c < n then B.get r c - B.get r j / B.get j j * B.get j c
  else B.get r c

/-- State of `PivotLU` on the original matrix `A0` when columns `0 .. j - 1` are
done: `P` lists distinct rows of `A0`, and every row `i` of the permuted original
is the product of the multipliers stored so far with the rows above, plus the
part of row `i` still to be eliminated. -/
structure LUInv {K : Type} [LinearOrderedField K] (n : Nat) (A0 : DenseObj K) (j : Nat)
    (st : DenseObj K × List Nat) : Prop where
  plen : st.2.length = n
  plt : ∀ i, i < n → st.2.getD i 0 < n
  pinj : ∀ i i', i < n → i' < n → st.2.getD i 0 = st.2.getD i' 0 → i = i'
  eq : ∀ i k, i < n → k < n →
    A0.get (st.2.getD i 0) k =
      (Finset.sum (Finset.range (min i j)) fun t =>
        if t ≤ k then st.1.get i t * st.1.get t k else 0) +
      (if min i j ≤ k then st.1.get i k else 0)

/-- Modelled from the spec: the dense class, whose header is not among the
sources, is a grid with an indexed write and no staged state. The template
`Cholesky` calls `addValue(i, j, v)` on its matrix type; for the dense type that
member is described neither by the sources nor by the specification, and it is
read here as the indexed write. Nothing below rests on this reading: of the
dense instantiation of `Cholesky` only the shape check is used, which precedes
every such call; the factorization itself is studied on `SparseMatrixCSC`, whose
`addValue` and `finalize` are in the sources (`Cholesky_sparse`). -/
def DenseObj.addValue {K : Type} (L : DenseObj K) (i j : Nat) (v : K) : DenseObj K :=
  L.set i j v

/-- Modelled from the spec: the dense class has no staged state. The member
`finalize()` that `Cholesky` calls on its matrix type is, for the dense type,
described neither by the sources nor by the specification; it is read here as
leaving the matrix as it is, and nothing below rests on this reading (see
`DenseObj.addValue`). -/
def DenseObj.finalize {K : Type} (L : DenseObj K) : DenseObj K := L

section Cholesky

variable {K : Type} [LinearOrderedField K]

/-- Body of the inner loop of `Cholesky` for row `i` of column `j`: the sum of
`L(i,k) * L(j,k)` over `k < j`, the guard on `|L(j,j)|` against the machine
epsilon `eps` of the scalar type, then `L(i,j) = (A(i,j) - sum) / L(j,j)`. -/
def Cholesky_entry (eps : K) (A : DenseObj K) (j : Nat) (L : DenseObj K) (i : Nat) :
    Except Error (DenseObj K) :=
  let sum := (List.range j).foldl (fun sum k => sum + L.get i k * L.get j k) 0
  if |L.get j j| < eps then
    .error (.runtime_error "Division by zero in Cholesky decomposition")
  else .ok ((L.addValue i j ((A.get i j - sum) / L.get j j)).finalize)

/-- Body of the column loop of `Cholesky`: the pivot `A(j,j) - sum of L(j,k)^2`
must be positive, its square root becomes `L(j,j)`, then the rows below. -/
def Cholesky_column (sqrt : K → K) (eps : K) (A : DenseObj K) (n : Nat) (L : DenseObj K)
    (j : Nat) : Except Error (DenseObj K) :=
  let sum := (List.range j).foldl (fun sum k => sum + L.get j k * L.get j k) 0
  if A.get j j - sum ≤ 0 then .error (.runtime_error "Matrix is not positive definite")
  else
    (List.range' (j + 1) (n - (j + 1))).foldlM (Cholesky_entry eps A j)
      ((L.addValue j j (sqrt (A.get j j - sum))).finalize)

/-- Function `basic::Cholesky(A, L)` for the default dense matrix type; `sqrt` is
`std::sqrt` and `eps` is `std::numeric_limits<TNum>::epsilon()`. Returns `L`. -/
def Cholesky (sqrt : K → K) (eps : K) (A : DenseObj K) : Except Error (DenseObj K) :=
  if A.getRows ≠ A.getCols then
    .error (.invalid_argument "Matrix must be square for Cholesky decomposition")
  else
    ((List.range A.getRows).foldlM (Cholesky_column sqrt eps A A.getRows)
      (DenseObj.new A.getRows A.getRows)).map DenseObj.finalize

/-- The quadratic form `x^T D x` over indices below `n`. -/
def quad_form (n : Nat) (D : Nat → Nat → K) (x : Nat → K) : K :=
  Finset.sum (Finset.range n) fun a => Finset.sum (Finset.range n) fun b => x a * D a b * x b

/-- The matrix is symmetric on its `n x n` part. -/
def symmetric (n : Nat) (A : DenseObj K) : Prop :=
  ∀ i j, i < n → j < n → A.get i j = A.get j i

/-- The matrix is positive definite on its `n x n` part: `x^T A x > 0` for every
vector `x` with a non-zero component. -/
def positive_definite (n : Nat) (A : DenseObj K) : Prop :=
  ∀ x : Nat → K, (∃ i, i < n ∧ x i ≠ 0) → 0 < quad_form n A.get x

end Cholesky


/-! ## Dense vectors and the remaining dense matrix operations -/

section Vector

variable {K : Type} [LinearOrderedField K]

/-- Modelled from the spec: the vector class `VectorObj<T>` (its header is not among
the sources) is an ordered sequence of scalars, here a list; this is the
elementwise sum `u + v`. -/
def vadd (u v : List K) : List K := List.zipWith (fun a b => a + b) u v

/-- Modelled from the spec: the elementwise difference `u - v` of `VectorObj`. -/
def vsub (u v : List K) : List K := List.zipWith (fun a b => a - b) u v

/-- Modelled from the spec: the scalar multiple `v * s` of `VectorObj`. -/
def vscale (v : List K) (s : K) : List K := v.map (fun a => a * s)

/-- Modelled from the spec: the dot product `u * v` of `VectorObj`. -/
def dot (u v : List K) : K := (List.zipWith (fun a b => a * b) u v).sum

/-- Modelled from the spec: `L2norm()` of `VectorObj`, the square root of the sum
of the squares; `sqrt` is `std::sqrt`. -/
def L2norm (sqrt : K → K) (v : List K) : K := sqrt (dot v v)

/-- Modelled from the spec: `normalize()` of `VectorObj`, division by the norm,
and no operation on the zero vector (norm zero). -/
def normalize (sqrt : K → K) (v : List K) : List K :=
  if L2norm sqrt v = 0 then v else v.map (fun a => a / L2norm sqrt v)

/-- Modelled from the spec: matrix times vector `A * v` of the dense class. -/
def DenseObj.mulVec (A : DenseObj K) (v : List K) : List K :=
  (List.range A.rows).map fun i =>
    Finset.sum (Finset.range A.cols) fun j => A.get i j * v.getD j 0

/-- Modelled from the spec: matrix times matrix `A * B` of the dense class (the
calls below always have `A.cols = B.rows`). -/
def DenseObj.mul (A B : DenseObj K) : DenseObj K :=
  ⟨A.rows, B.cols, fun i j => Finset.sum (Finset.range A.cols) fun k => A.get i k * B.get k j⟩

/-- Modelled from the spec: `Transpose()` of the dense class. -/
def DenseObj.Transpose (A : DenseObj K) : DenseObj K :=
  ⟨A.cols, A.rows, fun i j => A.get j i⟩

/-- Modelled from the spec: the elementwise difference `A - B` of the dense class. -/
def DenseObj.sub (A B : DenseObj K) : DenseObj K :=
  ⟨A.rows, A.cols, fun i j => A.get i j - B.get i j⟩

/-- Modelled from the spec: the scalar multiple `A * s` of the dense class. -/
def DenseObj.scale (A : DenseObj K) (s : K) : DenseObj K :=
  ⟨A.rows, A.cols, fun i j => A.get i j * s⟩

/-- Modelled from the spec: `getColumn(j)` of the dense class. -/
def DenseObj.getColumn (A : DenseObj K) (j : Nat) : List K :=
  (List.range A.rows).map fun i => A.get i j

/-- Modelled from the spec: the constructor `MatrixType(v, n, 1)` of the dense
class, the `n x 1` matrix whose column is the vector `v`. -/
def DenseObj.of_vector (v : List K) (n : Nat) : DenseObj K :=
  ⟨n, 1, fun i j => if j = 0 then v.getD i 0 else 0⟩

/-- Modelled from the spec: the constructor `MatrixType(columns, m, n)` of the
dense class from a list of column vectors. -/
def DenseObj.of_columns (columns : List (List K)) (m n : Nat) : DenseObj K :=
  ⟨m, n, fun i j => (columns.getD j []).getD i 0⟩

/-- Modelled from the spec: `zero()` of the dense class, all entries set to zero. -/
def DenseObj.zero (A : DenseObj K) : DenseObj K :=
  ⟨A.rows, A.cols, fun _ _ => 0⟩

end Vector

section Substitution

variable {K : Type} [LinearOrderedField K]

/-- Body of the outer loop of `Substitution` for row `i`: the inner sum of
`L(i,j) * x[j]` over `j = 0 .. i - 1` (forward) or `j = n - 1` down to `i + 1`
(backward), the test of the diagonal entry, then `x[i] = (b[i] - sum) / L(i,i)`. -/
def Substitution_row (b : List K) (L : DenseObj K) (forward : Bool) (n : Nat) (x : List K)
    (i : Nat) : Except Error (List K) :=
  let sum := (if forward then List.range i
      else (List.range' (i + 1) (n - (i + 1))).reverse).foldl
    (fun sum j => sum + L.get i j * x.getD j 0) 0
  if L.get i i = 0 then .error (.runtime_error "Division by zero during substitution.")
  else .ok (x.set i ((b.getD i 0 - sum) / L.get i i))

/-- Function `basic::Substitution(b, L, forward)`: rows `0 .. n - 1` in the forward
direction, `n - 1` down to `0` in the backward one, where `n = b.size()`. -/
def Substitution (b : List K) (L : DenseObj K) (forward : Bool) : Except Error (List K) :=
  (if forward then List.range b.length else (List.range b.length).reverse).foldlM
    (Substitution_row b L forward b.length) (List.replicate b.length 0)

/-- Component `i` of the product `L * x` for an `n x n` matrix. -/
def mat_vec (n : Nat) (L : DenseObj K) (x : List K) (i : Nat) : K :=
  Finset.sum (Finset.range n) fun j => L.get i j * x.getD j 0

end Substitution

section Rayleigh

variable {K : Type} [LinearOrderedField K]

/-- Function `basic::rayleighQuotient(A, b)` on a dense matrix: the two shape
checks, the test of the norm against the machine epsilon `eps`, then
`(b * (A * b)) / (b * b)`. -/
def rayleighQuotient (sqrt : K → K) (eps : K) (A : DenseObj K) (b : List K) : Except Error K :=
  if A.getRows ≠ A.getCols then
    .error (.invalid_argument "Matrix must be square for Rayleigh quotient")
  else if b.length ≠ A.getCols then
    .error (.invalid_argument "Vector dimension must match matrix dimension")
  else if L2norm sqrt b < eps then .error (.runtime_error "Vector norm is too close to zero")
  else .ok (dot b (A.mulVec b) / dot b b)

end Rayleigh

/-! ## `RungeKutta` -/

namespace RungeKutta

section Defs

variable {K : Type} [LinearOrderedField K]

/-- The private `validateParameters`: the state must be non-empty, the step size
positive and the number of steps non-zero, checked in this order. -/
def validateParameters (y : List K) (h : K) (n : Nat) : Except Error Unit :=
  if y.length = 0 then .error (.invalid_argument "State vector must not be empty")
  else if h ≤ 0 then .error (.invalid_argument "Step size must be positive")
  else if n = 0 then .error (.invalid_argument "Number of steps must be positive")
  else .ok ()

/-- One pass of the loop body of `solve`: the four stages and the update of `y`.
The callback, when given, only observes `(i, y)` and is left out. -/
def solve_step (f : List K → List K) (h : K) (y : List K) : List K :=
  let one_sixth : K := 1 / 6
  let one_half : K := 1 / 2
  let two : K := 2
  let k1 := f y
  let temp := vadd y (vscale k1 (h * one_half))
  let k2 := f temp
  let temp := vadd y (vscale k2 (h * one_half))
  let k3 := f temp
  let temp := vadd y (vscale k3 h)
  let k4 := f temp
  vadd y (vscale (vadd (vadd (vadd k1 (vscale k2 two)) (vscale k3 two)) k4) (h * one_sixth))

/-- The method `solve(y, f, h, n)`: validation, then `n` passes of the loop body;
the result is the final content of the in-out argument `y`. -/
def solve (y : List K) (f : List K → List K) (h : K) (n : Nat) : Except Error (List K) :=
  match validateParameters y h n with
  | .error e => .error e
  | .ok _ => .ok ((List.range n).foldl (fun y _ => solve_step f h y) y)

/-- The map of the specification, written as in its statement:
`y -> y + (h/6) * (k1 + 2*k2 + 2*k3 + k4)` with `k1 = f(y)`,
`k2 = f(y + (h/2)*k1)`, `k3 = f(y + (h/2)*k2)`, `k4 = f(y + h*k3)`. -/
def rk4_map (f : List K → List K) (h : K) (y : List K) : List K :=
  let smul : K → List K → List K := fun s v => v.map (fun a => s * a)
  let k1 := f y
  let k2 := f (vadd y (smul (h / 2) k1))
  let k3 := f (vadd y (smul (h / 2) k2))
  let k4 := f (vadd y (smul h k3))
  vadd y (smul (h / 6) (vadd (vadd (vadd k1 (smul 2 k2)) (smul 2 k3)) k4))

/-- The local variables of `solveAdaptive` that live across loop iterations. -/
structure AdaptiveState (K : Type) where
  y : List K
  y_temp : List K
  current_h : K
  steps_taken : Nat

/-- One pass of the `while` loop of `solveAdaptive`: two half steps on `y_temp`,
one full step on a copy of `y`, the error estimate, and the accept/reject
branch. `pow` stands for `std::pow`; the exponents `0.2` and `0.25` are taken
exactly. -/
def solveAdaptive_attempt (sqrt : K → K) (pow : K → K → K) (f : List K → List K) (tol : K)
    (safety_factor min_scale max_scale : K) (s : AdaptiveState K) :
    Except Error (AdaptiveState K) :=
  match solve s.y_temp f (s.current_h / 2) 2 with
  | .error e => .error e
  | .ok y_temp =>
    match solve s.y f s.current_h 1 with
    | .error e => .error e
    | .ok y_full =>
      let error := L2norm sqrt (vsub y_temp y_full)
      let scale := L2norm sqrt y_temp
      let error := if scale > 0 then error / scale else error
      if error < tol then
        let factor := safety_factor * pow (tol / error) (1 / 5)
        let factor := min max_scale (max min_scale factor)
        .ok ⟨y_temp, y_temp, s.current_h * factor, s.steps_taken + 1⟩
      else
        let factor := safety_factor * pow (tol / error) (1 / 4)
        let factor := min max_scale (max min_scale factor)
        .ok ⟨s.y, s.y, s.current_h * factor, s.steps_taken⟩

/-- The `while (steps_taken < max_steps)` loop of `solveAdaptive`, run for at most
`fuel` passes; `none` when the loop is still running after `fuel` passes. -/
def solveAdaptive_loop (sqrt : K → K) (pow : K → K → K) (f : List K → List K) (tol : K)
    (max_steps : Nat) (safety_factor min_scale max_scale : K) :
    Nat → AdaptiveState K → Option (Except Error (AdaptiveState K))
  | 0, s => if s.steps_taken < max_steps then none else some (.ok s)
  | fuel + 1, s =>
    if s.steps_taken < max_steps then
      match solveAdaptive_attempt sqrt pow f tol safety_factor min_scale max_scale s with
      | .error e => some (.error e)
      | .ok s1 => solveAdaptive_loop sqrt pow f tol max_steps safety_factor min_scale max_scale
          fuel s1
    else some (.ok s)

/-- The method `solveAdaptive(y, f, h, tol, max_steps, safety_factor, min_scale,
max_scale)`: the result is the final `y` together with the returned
`steps_taken`. -/
def solveAdaptive (sqrt : K → K) (pow : K → K → K) (y : List K) (f : List K → List K)
    (h tol : K) (max_steps : Nat) (safety_factor min_scale max_scale : K) (fuel : Nat) :
    Option (Except Error (List K × Nat)) :=
  match validateParameters y h max_steps with
  | .error e => some (.error e)
  | .ok _ =>
    if tol ≤ 0 then some (.error (.invalid_argument "Tolerance must be positive"))
    else
      (solveAdaptive_loop sqrt pow f tol max_steps safety_factor min_scale max_scale fuel
        ⟨y, y, h, 0⟩).map fun r => r.map fun s => (s.y, s.steps_taken)

end Defs

end RungeKutta

/-! ## `basic.hpp`: Householder QR, power iteration and SVD -/

section QR

variable {K : Type} [LinearOrderedField K]

/-- The function `genUnitVec(i, n)`: a zero vector of size `n` with entry `i` set
to one. -/
def genUnitVec (i n : Nat) : List K := (List.replicate n 0).set i 1

/-- The function `genUnitMat(n)`: an `n x n` grid of zeros whose diagonal entries
are set to one in turn. -/
def genUnitMat (n : Nat) : DenseObj K :=
  (List.range n).foldl (fun identity i => identity.set i i 1) (DenseObj.new n n)

/-- The function `sign(x)`: `1` when `x >= 0`, otherwise `-1`. -/
def sign (x : K) : K := if x ≥ 0 then 1 else -1

/-- The function `householderTransform(A, H, index)`, returning the output `H`:
the vector `x` is the whole column `index` of `A`. -/
def householderTransform (sqrt : K → K) (A : DenseObj K) (index : Nat) : DenseObj K :=
  let n := A.getRows
  let x := A.getColumn index
  let e : List K := genUnitVec index n
  let factor := L2norm sqrt x * sign (x.getD index 0)
  let e := vscale e factor
  let v := vadd x e
  let v := normalize sqrt v
  let vMat := DenseObj.of_vector v n
  (genUnitMat n).sub ((vMat.mul vMat.Transpose).scale 2)

/-- The function `QR(A, Q, R)`, returning the outputs `(Q, R)`: `R` starts as `A`
and `Q` as the identity; pass `i` builds `H` from the current `R`, then sets
`R = H * R` and `Q = Q * H^T`. -/
def QR (sqrt : K → K) (A : DenseObj K) : DenseObj K × DenseObj K :=
  (List.range (min A.getRows A.getCols)).foldl (fun st i =>
    let H := householderTransform sqrt st.2 i
    (st.1.mul H.Transpose, H.mul st.2)) (genUnitMat A.getRows, A)

/-- The loop of `powerIter` with `k` passes left: a pass returns at once when the
norm of `b` is zero, otherwise normalises `b` and multiplies by `A`; after the
last pass `b` is normalised once more. -/
def powerIter_loop (sqrt : K → K) (A : DenseObj K) : Nat → List K → List K
  | 0, b => normalize sqrt b
  | k + 1, b =>
    if L2norm sqrt b = 0 then b
    else powerIter_loop sqrt A k (A.mulVec (normalize sqrt b))

/-- The function `powerIter(A, b, max_iter_num)`, returning the final content of
the in-out argument `b`. -/
def powerIter (sqrt : K → K) (A : DenseObj K) (b : List K) (max_iter_num : Int) :
    Except Error (List K) :=
  if max_iter_num < 0 then
    .error (.invalid_argument "Maximum iterations must be non-negative")
  else if A.getRows ≠ A.getCols then
    .error (.invalid_argument "Matrix must be square for power iteration")
  else if b.length ≠ A.getCols then
    .error (.invalid_argument "Vector dimension must match matrix dimension")
  else if max_iter_num = 0 then .ok b
  else .ok (powerIter_loop sqrt A max_iter_num.toNat b)

/-- The function `subtProj(u, v)`: `u` itself when the norm of `v` is zero,
otherwise `u - v * ((u . v) / (v . v))`. -/
def subtProj (sqrt : K → K) (u v : List K) : List K :=
  if L2norm sqrt v = 0 then u
  else
    let factor := dot u v / dot v v
    vsub u (vscale v factor)

/-- The entries of a dense matrix inside the shape `n x m`, as a matrix over
finite index types. -/
def DenseObj.toMatrix (A : DenseObj K) (n m : Nat) : Matrix (Fin n) (Fin m) K :=
  Matrix.of fun i j => A.get i j

/-- The first `n` entries of a vector, as a function on a finite index type. -/
def toVec (v : List K) (n : Nat) : Fin n → K := fun i => v.getD i 0

end QR

section SVD

variable {K : Type} [LinearOrderedField K]

/-- The zero test at the start of `SVD`: no entry of `A` has absolute value above
the machine epsilon. -/
def SVD_isZeroMatrix (eps : K) (A : DenseObj K) (m n : Nat) : Bool :=
  (List.range m).all fun i => (List.range n).all fun j => !decide (|A.get i j| > eps)

/-- The Gram-Schmidt loop inside `SVD`: for `j` below `i` in turn, the projection
on `eigenVectors[j]` is subtracted and the vector normalised. -/
def SVD_orthogonalize (sqrt : K → K) (eigenVectors : List (List K)) (i : Nat) (v : List K) :
    List K :=
  (List.range i).foldl (fun v j => normalize sqrt (subtProj sqrt v (eigenVectors.getD j []))) v

/-- Pass `i` of the first loop of `SVD` (right singular vectors) on the state
`(AtA, eigenVectorsV, singularValues)`. A write to `singularValues[i]` with `i`
past its size `min(m, n)` is dropped. -/
def SVD_right_step (sqrt : K → K) (eps : K) (n : Nat)
    (st : DenseObj K × List (List K) × List K) (i : Nat) :
    Except Error (DenseObj K × List (List K) × List K) :=
  match powerIter sqrt st.1 ((List.replicate n 0).set i 1) 300 with
  | .error e => .error e
  | .ok v =>
    let v := SVD_orthogonalize sqrt st.2.1 i v
    match rayleighQuotient sqrt eps st.1 v with
    | .error e => .error e
    | .ok lambda =>
      let eigenVectorsV := st.2.1.set i v
      let AtA :=
        if i < n - 1 then
          st.1.sub (((DenseObj.of_vector v n).mul (DenseObj.of_vector v n).Transpose).scale lambda)
        else st.1
      .ok (AtA, eigenVectorsV, st.2.2.set i (sqrt |lambda|))

/-- Pass `i` of the second loop of `SVD` (left singular vectors) on the state
`(AAt, eigenVectorsU)`: the stored vector is `u`, negated when `u[0] < 0`. -/
def SVD_left_step (sqrt : K → K) (eps : K) (m : Nat) (singularValues : List K)
    (st : DenseObj K × List (List K)) (i : Nat) :
    Except Error (DenseObj K × List (List K)) :=
  match powerIter sqrt st.1 ((List.replicate m 0).set i 1) 300 with
  | .error e => .error e
  | .ok u =>
    let u := SVD_orthogonalize sqrt st.2 i u
    match rayleighQuotient sqrt eps st.1 u with
    | .error e => .error e
    | .ok _ =>
      let eigenVectorsU := st.2.set i (if u.getD 0 0 < 0 then vscale u (-1) else u)
      let AAt :=
        if i < m - 1 then
          st.1.sub (((DenseObj.of_vector u m).mul (DenseObj.of_vector u m).Transpose).scale
            (if i < singularValues.length then
              singularValues.getD i 0 * singularValues.getD i 0 else 0))
        else st.1
      .ok (AAt, eigenVectorsU)

/-- The function `SVD(A, U, S, V)`, returning the outputs `(U, S, V)`. -/
def SVD (sqrt : K → K) (eps : K) (A : DenseObj K) :
    Except Error (DenseObj K × DenseObj K × DenseObj K) :=
  let m := A.getRows
  let n := A.getCols
  if m = 0 ∨ n = 0 then .error (.invalid_argument "Matrix dimensions must be positive")
  else if SVD_isZeroMatrix eps A m n then
    .ok (genUnitMat m, DenseObj.new m n, genUnitMat n)
  else
    let At := A.Transpose
    let AtA := At.mul A
    let AAt := A.mul At
    match (List.range n).foldlM (SVD_right_step sqrt eps n)
        (AtA, List.replicate n [], List.replicate (min m n) 0) with
    | .error e => .error e
    | .ok (_, eigenVectorsV, singularValues) =>
      match (List.range m).foldlM (SVD_left_step sqrt eps m singularValues)
          (AAt, List.replicate m []) with
      | .error e => .error e
      | .ok (_, eigenVectorsU) =>
        let U := DenseObj.of_columns eigenVectorsU m m
        let V := DenseObj.of_columns eigenVectorsV n n
        let S := (DenseObj.new m n).zero
        let epsilon := eps * 100
        let S := (List.range singularValues.length).foldl (fun S i =>
          S.set i i (if singularValues.getD i 0 > epsilon then singularValues.getD i 0 else 0)) S
        .ok (U, S, V)

end SVD

/-! ## Conjugate Gradient -/

/-- Modelled from the spec: how a run of the class `ConjugateGrad` ends (its
header is not among the sources, only its test is): the residual tolerance was
met, the iteration budget was exhausted without meeting it (`NotConverged`), or
a non-positive denominator `p^T A p` was detected (`Indefinite`). -/
inductive CGStatus where
  | converged
  | exhausted
  | indefinite

/-- Modelled from the spec: the quantities a run of `ConjugateGrad` maintains, the
iterate `x`, the residual `r` and the preconditioned direction `p`. -/
structure CGState (K : Type) where
  x : List K
  r : List K
  p : List K

section CG

variable {K : Type} [LinearOrderedField K]

/-- Modelled from the spec: one iteration of `ConjugateGrad` with left
preconditioner `P`: with `z = P r`, the step length is `(r . z) / (p^T A p)`,
`x` and `r` are updated along `p`, and the new direction is `z + beta * p` with
`beta` the ratio of the new `r . z` to the old one, which keeps the directions
`A`-orthogonal; `none` when `p^T A p` is not positive. -/
def ConjugateGrad_step (P A : DenseObj K) (s : CGState K) : Option (CGState K) :=
  let Ap := A.mulVec s.p
  let denom := dot s.p Ap
  if denom ≤ 0 then none
  else
    let rz := dot s.r (P.mulVec s.r)
    let alpha := rz / denom
    let x := vadd s.x (vscale s.p alpha)
    let r := vsub s.r (vscale Ap alpha)
    let z := P.mulVec r
    let beta := dot r z / rz
    some ⟨x, r, vadd z (vscale s.p beta)⟩

/-- Modelled from the spec: the iteration of `ConjugateGrad` with `k` iterations
of budget left: it terminates when `||r|| <= tol` or when the budget is
exhausted, and reports a non-positive `p^T A p`; the final iterate `x` is
returned in every case. -/
def ConjugateGrad_loop (sqrt : K → K) (P A : DenseObj K) (tol : K) :
    Nat → CGState K → List K × CGStatus
  | 0, s => (s.x, if L2norm sqrt s.r ≤ tol then .converged else .exhausted)
  | k + 1, s =>
    if L2norm sqrt s.r ≤ tol then (s.x, .converged)
    else
      match ConjugateGrad_step P A s with
      | none => (s.x, .indefinite)
      | some s1 => ConjugateGrad_loop sqrt P A tol k s1

/-- Modelled from the spec: `ConjugateGrad(P, A, b, maxIter, tol).callUpdate()`,
returning the final `x` and how the run ended. The matrix must be square and
`b` of its dimension (`InvalidArgument` otherwise; the spec does not give the
text of the message). The initial guess is zero, the initial residual is
`b - A x` and the initial direction is `P r`. -/
def ConjugateGrad_callUpdate (sqrt : K → K) (P A : DenseObj K) (b : List K) (maxIter : Nat)
    (tol : K) : Except Error (List K × CGStatus) :=
  if A.getRows ≠ A.getCols then .error (.invalid_argument "")
  else if b.length ≠ A.getCols then .error (.invalid_argument "")
  else
    let x : List K := List.replicate b.length 0
    let r := vsub b (A.mulVec x)
    .ok (ConjugateGrad_loop sqrt P A tol maxIter ⟨x, r, P.mulVec r⟩)

/-- The iterates `(x, r, p)` of the Conjugate Gradient recurrence for the matrix
`M` and right-hand side `b`, without stopping test, over a finite index type. -/
def cg_iterates {n : Nat} (M : Matrix (Fin n) (Fin n) K) (b : Fin n → K) :
    Nat → (Fin n → K) × (Fin n → K) × (Fin n → K)
  | 0 => (0, b, b)
  | k + 1 =>
    let x := (cg_iterates M b k).1
    let r := (cg_iterates M b k).2.1
    let p := (cg_iterates M b k).2.2
    let alpha := Matrix.dotProduct r r / Matrix.dotProduct p (Matrix.mulVec M p)
    let r1 := r - alpha • Matrix.mulVec M p
    (x + alpha • p, r1, r1 + (Matrix.dotProduct r1 r1 / Matrix.dotProduct r r) • p)

end CG

/-! ## Effects of `RungeKutta::solve` -/

namespace RungeKutta

/-- What a call of `solve` leaves behind: the in-out argument `y`, the number of
evaluations of `f`, and the arguments of the calls made to the callback, in
order. -/
structure SolveTrace (K : Type) where
  y : List K
  f_calls : Nat
  callbacks : List (Nat × List K)

section Trace

variable {K : Type} [LinearOrderedField K]

/-- Pass `i` of the loop of `solve` with its effects: four evaluations of `f`
(`k1` to `k4`), the update of `y`, and the call `callback(i, y)` when a callback
is given (`callback = true`; `false` is the default `nullptr`). -/
def solve_pass (f : List K → List K) (h : K) (callback : Bool) (t : SolveTrace K) (i : Nat) :
    SolveTrace K :=
  ⟨solve_step f h t.y, t.f_calls + 4,
    if callback then t.callbacks ++ [(i, solve_step f h t.y)] else t.callbacks⟩

/-- The method `solve(y, f, h, n, callback)` with its effects: the outcome, and
`y`, the evaluations of `f` and the callback calls as they stand when the call
ends, normally or by the exception of `validateParameters`. -/
def solve_traced (y : List K) (f : List K → List K) (h : K) (n : Nat) (callback : Bool) :
    Except Error Unit × SolveTrace K :=
  match validateParameters y h n with
  | .error e => (.error e, ⟨y, 0, []⟩)
  | .ok _ => (.ok (), (List.range n).foldl (solve_pass f h callback) ⟨y, 0, []⟩)

end Trace

end RungeKutta

/-! ## `addValue` with signed indices, incremental insertion, the CSC walk -/

/-- The struct `row_col_idx` with its `int` fields as declared, which can hold
negative numbers. -/
structure row_col_idx_int where
  row : Int
  col : Int
  index : Nat
  deriving DecidableEq, Repr

/-- The triplet with natural indices read as the struct with `int` fields. -/
def row_col_idx.toInt (t : row_col_idx) : row_col_idx_int := ⟨t.row, t.col, t.index⟩

/-- Member `addValue(int row, int col, TObj value)` with its `int` arguments, on
the fields it touches, `(values, row_indices_idx, col_t_ptr)`, for a matrix
with `rows` rows (`_n`) and `cols` columns (`_m`). The guard is the source's
`col >= _m || row >= _n`. The increment `++col_t_ptr[col + 1]` with `col + 1`
negative (undefined in C++) writes nothing. -/
def addValue_int {α : Type} [Zero α] [DecidableEq α] (rows cols : Int)
    (st : List α × List row_col_idx_int × List Nat) (row col : Int) (value : α) :
    Except Error (List α × List row_col_idx_int × List Nat) :=
  if col ≥ cols ∨ row ≥ rows then .error (.out_of_range "Row or column index out of range.")
  else if value = 0 then .ok st
  else .ok (st.1 ++ [value], st.2.1 ++ [⟨row, col, st.1.length⟩],
    if 0 ≤ col + 1 then st.2.2.modify (· + 1) (col + 1).toNat else st.2.2)

/-- The sparse branch of `utils::setMatrixValue(H, i, j, value)`:
`H.addValue(i, j, value); H.finalize();`. -/
def setMatrixValue_sparse {α : Type} [Zero α] [DecidableEq α] (H : SparseMatrixCSC α)
    (i j : Nat) (value : α) : Except Error (SparseMatrixCSC α) :=
  match H.addValue i j value with
  | .error e => .error e
  | .ok H1 => .ok H1.finalize

/-- A list of `utils::setMatrixValue` calls on a fresh sparse `rows x cols`
matrix (the first failing call aborts). -/
def setMatrixValues {α : Type} [Zero α] [DecidableEq α] (rows cols : Nat)
    (calls : List (Nat × Nat × α)) : Except Error (SparseMatrixCSC α) :=
  calls.foldlM (fun H c => setMatrixValue_sparse H c.1 c.2.1 c.2.2) (SparseMatrixCSC.new rows cols)

/-- The matrix-vector product in the CSC-walking form of the specification: the
result starts as zeros of length `m` (the number of rows) and, for every column
`col` and every `k` in `[col_ptr[col], col_ptr[col + 1])`, `values[k] * v[col]`
is added to `result[row_indices[k]]`. -/
def mulVec_csc {α : Type} [CommRing α] (A : SparseMatrixCSC α) (v : List α) : List α :=
  (List.range A._m).foldl (fun result col =>
    (List.range' (A.col_ptr.getD col 0)
        (A.col_ptr.getD (col + 1) 0 - A.col_ptr.getD col 0)).foldl (fun result k =>
      result.modify (· + A.values.getD k 0 * v.getD col 0) (A.row_indices.getD k 0)) result)
    (List.replicate A._n 0)

/-- Member `operator*=(double scalar)`: `e *= static_cast<TObj>(scalar)` for
every stored value `e`, in place; the scalar is given already converted. -/
def SparseMatrixCSC.mul_assign_scalar {α : Type} [Mul α] (A : SparseMatrixCSC α) (scalar : α) :
    SparseMatrixCSC α :=
  { A with values := A.values.map (fun e => e * scalar) }

/-- Member `operator*(double scalar)`: a copy of the matrix, scaled by
`operator*=`. -/
def SparseMatrixCSC.mul_scalar {α : Type} [Mul α] (A : SparseMatrixCSC α) (scalar : α) :
    SparseMatrixCSC α :=
  let result := A
  result.mul_assign_scalar scalar

/-- No element of `values` equals the additive identity. -/
def no_stored_zeros {α : Type} [Zero α] (A : SparseMatrixCSC α) : Prop :=
  ∀ v ∈ A.values, v ≠ 0

instance {α : Type} [Zero α] [DecidableEq α] (A : SparseMatrixCSC α) :
    Decidable (no_stored_zeros A) := by
  unfold no_stored_zeros; infer_instance

/-- Every staged triplet points to a slot of `values`. -/
def index_in_range {α : Type} (A : SparseMatrixCSC α) : Prop :=
  ∀ t ∈ A.row_indices_idx, t.index < A.values.length

instance {α : Type} (A : SparseMatrixCSC α) : Decidable (index_in_range A) := by
  unfold index_in_range; infer_instance

/-! ## In-out arguments at a throw -/

section InOut

variable {K : Type} [LinearOrderedField K]

/-- The function `powerIter(A, b, max_iter_num)` with its in-out argument: the
outcome, and `b` as it stands when the call ends. All three `throw` statements
come before the first write to `b`. -/
def powerIter_inout (sqrt : K → K) (A : DenseObj K) (b : List K) (max_iter_num : Int) :
    Except Error Unit × List K :=
  match powerIter sqrt A b max_iter_num with
  | .error e => (.error e, b)
  | .ok b1 => (.ok (), b1)

/-- The column step of `PivotLU`, where the error carries `A` and `P` as they
stand at the throw: after the row swap of this column. -/
def PivotLU_column_inout (n : Nat) (st : DenseObj K × List Nat) (j : Nat) :
    Except (Error × (DenseObj K × List Nat)) (DenseObj K × List Nat) :=
  let maxIndex := (PivotLU_pivot st.1 n j).1
  let st := if maxIndex ≠ j then (st.1.swapRows j maxIndex, swap_entries st.2 j maxIndex) else st
  if |st.1.get j j| < 1 / 10 ^ 12 then
    .error (.runtime_error "Matrix is singular or nearly singular and cannot be decomposed.", st)
  else .ok ((List.range' (j + 1) (n - (j + 1))).foldl (PivotLU_row n j) st.1, st.2)

/-- The function `PivotLU(A, P)` with its in-out arguments `A` and `P`: an error
carries both as they stand at the throw. The square check comes first; then `P`
is resized and overwritten with `0, ..., n - 1`. -/
def PivotLU_inout (A : DenseObj K) (P : List Nat) :
    Except (Error × (DenseObj K × List Nat)) (DenseObj K × List Nat) :=
  if A.getRows ≠ A.getCols then
    .error (.invalid_argument "Matrix must be square for LU decomposition.", (A, P))
  else (List.range A.getRows).foldlM (PivotLU_column_inout A.getRows) (A, List.range A.getRows)

/-- The inner loop body of `Cholesky`, where the error carries the output
argument `L` as it stands at the throw. -/
def Cholesky_entry_inout (eps : K) (A : DenseObj K) (j : Nat) (L : DenseObj K) (i : Nat) :
    Except (Error × DenseObj K) (DenseObj K) :=
  let sum := (List.range j).foldl (fun sum k => sum + L.get i k * L.get j k) 0
  if |L.get j j| < eps then
    .error (.runtime_error "Division by zero in Cholesky decomposition", L)
  else .ok ((L.addValue i j ((A.get i j - sum) / L.get j j)).finalize)

/-- The column step of `Cholesky`, where the error carries `L` as it stands at
the throw. -/
def Cholesky_column_inout (sqrt : K → K) (eps : K) (A : DenseObj K) (n : Nat) (L : DenseObj K)
    (j : Nat) : Except (Error × DenseObj K) (DenseObj K) :=
  let sum := (List.range j).foldl (fun sum k => sum + L.get j k * L.get j k) 0
  if A.get j j - sum ≤ 0 then .error (.runtime_error "Matrix is not positive definite", L)
  else
    (List.range' (j + 1) (n - (j + 1))).foldlM (Cholesky_entry_inout eps A j)
      ((L.addValue j j (sqrt (A.get j j - sum))).finalize)

/-- The function `Cholesky(A, L)` with its output argument `L`: an error carries
`L` as it stands at the throw. The square check comes first; then `L` is
replaced by an `n x n` matrix of zeros. -/
def Cholesky_inout (sqrt : K → K) (eps : K) (A L : DenseObj K) :
    Except (Error × DenseObj K) (DenseObj K) :=
  if A.getRows ≠ A.getCols then
    .error (.invalid_argument "Matrix must be square for Cholesky decomposition", L)
  else
    ((List.range A.getRows).foldlM (Cholesky_column_inout sqrt eps A A.getRows)
      (DenseObj.new A.getRows A.getRows)).map DenseObj.finalize

end InOut

/-! ## `Cholesky` on the sparse matrix class -/

section CholeskySparse

variable {K : Type} [LinearOrderedField K]

/-- The inner sum of `Cholesky` with `MatrixType = SparseMatrixCSC<TNum>`:
`sum += L(i, k) * L(j, k)` for `k` from `0` to `j - 1`, every factor read with
`operator()`. -/
def Cholesky_sparse_sum (L : SparseMatrixCSC K) (i j : Nat) : Except Error K :=
  (List.range j).foldlM (fun sum k => do
    let lik ← L.get i k
    let ljk ← L.get j k
    pure (sum + lik * ljk)) 0

/-- Body of the inner loop of `Cholesky` on the sparse class for row `i` of
column `j`: the sum, the guard on `|L(j,j)|` against the machine epsilon, then
`L.addValue(i, j, (A(i,j) - sum) / L(j,j)); L.finalize();`. -/
def Cholesky_sparse_entry (eps : K) (A : SparseMatrixCSC K) (j : Nat) (L : SparseMatrixCSC K)
    (i : Nat) : Except Error (SparseMatrixCSC K) := do
  let sum ← Cholesky_sparse_sum L i j
  let ljj ← L.get j j
  if |ljj| < eps then
    .error (.runtime_error "Division by zero in Cholesky decomposition")
  else do
    let aij ← A.get i j
    let ljj ← L.get j j
    let L ← L.addValue i j ((aij - sum) / ljj)
    pure L.finalize

/-- Body of the column loop of `Cholesky` on the sparse class: the pivot
`A(j,j) - sum of L(j,k)^2` must be positive, then
`L.addValue(j, j, std::sqrt(A(j,j) - sum)); L.finalize();` and the rows below. -/
def Cholesky_sparse_column (sqrt : K → K) (eps : K) (A : SparseMatrixCSC K) (n : Nat)
    (L : SparseMatrixCSC K) (j : Nat) : Except Error (SparseMatrixCSC K) := do
  let sum ← Cholesky_sparse_sum L j j
  let ajj ← A.get j j
  if ajj - sum ≤ 0 then .error (.runtime_error "Matrix is not positive definite")
  else do
    let ajj ← A.get j j
    let L ← L.addValue j j (sqrt (ajj - sum))
    (List.range' (j + 1) (n - (j + 1))).foldlM (Cholesky_sparse_entry eps A j) L.finalize

/-- Function `basic::Cholesky(A, L)` with `MatrixType = SparseMatrixCSC<TNum>`, the
matrix class of the sources: square check, `L = MatrixType(n, n)`, the column
loop, a last `L.finalize()`. `sqrt` is `std::sqrt` and `eps` is
`std::numeric_limits<TNum>::epsilon()`. Returns `L`. -/
def Cholesky_sparse (sqrt : K → K) (eps : K) (A : SparseMatrixCSC K) :
    Except Error (SparseMatrixCSC K) :=
  if A.getRows ≠ A.getCols then
    .error (.invalid_argument "Matrix must be square for Cholesky decomposition")
  else do
    let L ← (List.range A.getRows).foldlM (Cholesky_sparse_column sqrt eps A A.getRows)
      (SparseMatrixCSC.new A.getRows A.getRows)
    pure L.finalize

end CholeskySparse

/-! ## Lists as C++ vectors -/

theorem getD_set_eq {β : Type} (l : List β) (i k : Nat) (a d : β) :
    (l.set i a).getD k d = if i = k ∧ i < l.length then a else l.getD k d := by
  simp only [List.getD_eq_getElem?_getD, List.getElem?_set]
  by_cases h : i = k
  · subst h
    by_cases h2 : i < l.length
    · simp [h2]
    · simp [h2, List.getElem?_eq_none (not_lt.mp h2)]
  · simp [h]

theorem getD_modify_eq {β : Type} (f : β → β) (l : List β) (i k : Nat) (d : β) :
    (l.modify f i).getD k d = if i = k ∧ i < l.length then f (l.getD k d) else l.getD k d := by
  simp only [List.getD_eq_getElem?_getD, List.getElem?_modify]
  by_cases h : i = k
  · subst h
    by_cases h2 : i < l.length
    · simp [h2, List.getElem?_eq_getElem h2]
    · simp [h2, List.getElem?_eq_none (not_lt.mp h2)]
  · simp [h]

theorem getD_replicate_eq {β : Type} (n k : Nat) (a d : β) :
    (List.replicate n a).getD k d = if k < n then a else d := by
  simp only [List.getD_eq_getElem?_getD, List.getElem?_replicate]
  by_cases h : k < n <;> simp [h]

theorem getD_append_left {β : Type} (l₁ l₂ : List β) (k : Nat) (d : β) (h : k < l₁.length) :
    (l₁ ++ l₂).getD k d = l₁.getD k d := by
  simp only [List.getD_eq_getElem?_getD, List.getElem?_append_left h]

theorem getD_map_eq {β γ : Type} (f : β → γ) (l : List β) (k : Nat) (d : β) (e : γ)
    (h : k < l.length) : (l.map f).getD k e = f (l.getD k d) := by
  simp [List.getD_eq_getElem?_getD, List.getElem?_eq_getElem h]

theorem getD_eq_getElem_of_lt {β : Type} (l : List β) (k : Nat) (d : β) (h : k < l.length) :
    l.getD k d = l[k] := by
  simp [List.getD_eq_getElem?_getD, List.getElem?_eq_getElem h]

theorem getD_of_length_le {β : Type} (l : List β) (k : Nat) (d : β) (h : l.length ≤ k) :
    l.getD k d = d := by
  simp [List.getD_eq_getElem?_getD, List.getElem?_eq_none h]

theorem getD_mem {β : Type} (l : List β) (k : Nat) (d : β) (h : k < l.length) :
    l.getD k d ∈ l := by
  rw [getD_eq_getElem_of_lt l k d h]; exact List.getElem_mem h

theorem exists_getD_of_mem {β : Type} {l : List β} {a : β} (d : β) (h : a ∈ l) :
    ∃ k, k < l.length ∧ l.getD k d = a := by
  obtain ⟨k, hk, e⟩ := List.mem_iff_getElem.mp h
  exact ⟨k, hk, by rw [getD_eq_getElem_of_lt l k d hk]; exact e⟩

theorem lower_bound_loop_spec (xs : List Nat) (val : Nat) :
    ∀ fuel first len, len ≤ fuel →
      (∀ a b, first ≤ a → a ≤ b → b < first + len → xs.getD a 0 ≤ xs.getD b 0) →
      first ≤ lower_bound_loop xs val fuel first len ∧
      lower_bound_loop xs val fuel first len ≤ first + len ∧
      (∀ k, first ≤ k → k < lower_bound_loop xs val fuel first len → xs.getD k 0 < val) ∧
      (∀ k, lower_bound_loop xs val fuel first len ≤ k → k < first + len →
        val ≤ xs.getD k 0) := by
  intro fuel
  induction fuel with
  | zero =>
    intro first len hlen _
    have : len = 0 := by omega
    subst this
    simp only [lower_bound_loop]
    refine ⟨le_refl _, by omega, ?_, ?_⟩
    · intro k h1 h2; omega
    · intro k h1 h2; omega
  | succ fuel ih =>
    intro first len hlen hs
    simp only [lower_bound_loop]
    by_cases h0 : len = 0
    · subst h0
      simp only [if_true]
      refine ⟨le_refl _, by omega, ?_, ?_⟩
      · intro k h1 h2; omega
      · intro k h1 h2; omega
    · simp only [if_neg h0]
      have hhalf : len / 2 < len := Nat.div_lt_self (Nat.pos_of_ne_zero h0) (by decide)
      by_cases hm : xs.getD (first + len / 2) 0 < val
      · simp only [if_pos hm]
        have key := ih (first + len / 2 + 1) (len - len / 2 - 1) (by omega)
          (fun a b h1 h2 h3 => hs a b (by omega) h2 (by omega))
        obtain ⟨k1, k2, k3, k4⟩ := key
        refine ⟨by omega, by omega, ?_, ?_⟩
        · intro k h1 h2
          by_cases hk : k ≤ first + len / 2
          · exact lt_of_le_of_lt (hs k (first + len / 2) h1 hk (by omega)) hm
          · exact k3 k (by omega) h2
        · intro k h1 h2
          exact k4 k h1 (by omega)
      · simp only [if_neg hm]
        have key := ih first (len / 2) (by omega)
          (fun a b h1 h2 h3 => hs a b h1 h2 (by omega))
        obtain ⟨k1, k2, k3, k4⟩ := key
        refine ⟨k1, by omega, k3, ?_⟩
        intro k h1 h2
        by_cases hk : k < first + len / 2
        · exact k4 k h1 hk
        · exact le_trans (not_lt.mp hm) (hs (first + len / 2) k (by omega) (by omega) h2)


theorem CSC.rows_strict {α : Type} {A : SparseMatrixCSC α} (h : CSC A) {j : Nat} (hj : j < A._m) :
    ∀ b a, A.col_ptr.getD j 0 ≤ a → a < b → b < A.col_ptr.getD (j + 1) 0 →
      A.row_indices.getD a 0 < A.row_indices.getD b 0 := by
  obtain ⟨_, _, _, _, _, _, hstrict⟩ := h
  intro b
  induction b with
  | zero => intro a _ hab _; omega
  | succ b ih =>
    intro a ha hab hb
    have step := hstrict j hj b (by omega) (by omega) hb
    by_cases hab2 : a = b
    · subst hab2; exact step
    · exact lt_trans (ih a ha (by omega) (by omega)) step

theorem CSC.rows_mono {α : Type} {A : SparseMatrixCSC α} (h : CSC A) {j : Nat} (hj : j < A._m)
    (a b : Nat) (ha : A.col_ptr.getD j 0 ≤ a) (hab : a ≤ b) (hb : b < A.col_ptr.getD (j + 1) 0) :
    A.row_indices.getD a 0 ≤ A.row_indices.getD b 0 := by
  rcases Nat.eq_or_lt_of_le hab with h1 | h1
  · subst h1; exact le_refl _
  · exact le_of_lt (h.rows_strict hj b a ha h1 hb)

theorem CSC.col_ptr_le {α : Type} {A : SparseMatrixCSC α} (h : CSC A) {j : Nat} (hj : j < A._m) :
    A.col_ptr.getD j 0 ≤ A.col_ptr.getD (j + 1) 0 := h.2.2.1 j hj

theorem get_eq_of_CSC {α : Type} [Zero α] (A : SparseMatrixCSC α) (h : CSC A) (i j : Nat)
    (hi : i < A._n) (hj : j < A._m) :
    (∀ k, A.col_ptr.getD j 0 ≤ k → k < A.col_ptr.getD (j + 1) 0 →
      A.row_indices.getD k 0 = i → A.get i j = .ok (A.values.getD k 0)) ∧
    ((∀ k, A.col_ptr.getD j 0 ≤ k → k < A.col_ptr.getD (j + 1) 0 →
      A.row_indices.getD k 0 ≠ i) → A.get i j = .ok 0) := by
  have hle := h.col_ptr_le hj
  have hsum : A.col_ptr.getD j 0 + (A.col_ptr.getD (j + 1) 0 - A.col_ptr.getD j 0)
      = A.col_ptr.getD (j + 1) 0 := by omega
  have spec := lower_bound_loop_spec A.row_indices i
    (A.col_ptr.getD (j + 1) 0 - A.col_ptr.getD j 0) (A.col_ptr.getD j 0)
    (A.col_ptr.getD (j + 1) 0 - A.col_ptr.getD j 0) (le_refl _)
    (fun a b h1 h2 h3 => h.rows_mono hj a b h1 h2 (by omega))
  rw [hsum] at spec
  have hdef : lower_bound_loop A.row_indices i (A.col_ptr.getD (j + 1) 0 - A.col_ptr.getD j 0)
      (A.col_ptr.getD j 0) (A.col_ptr.getD (j + 1) 0 - A.col_ptr.getD j 0)
      = lower_bound A.row_indices (A.col_ptr.getD j 0) (A.col_ptr.getD (j + 1) 0) i := rfl
  rw [hdef] at spec
  obtain ⟨s1, s2, s3, s4⟩ := spec
  have hrange : ¬ (i ≥ A._n ∨ j ≥ A._m) := by omega
  constructor
  · intro k hk1 hk2 hk3
    have hpk : lower_bound A.row_indices (A.col_ptr.getD j 0) (A.col_ptr.getD (j + 1) 0) i ≤ k := by
      by_contra hc
      have := s3 k hk1 (by omega)
      omega
    have hp : lower_bound A.row_indices (A.col_ptr.getD j 0) (A.col_ptr.getD (j + 1) 0) i = k := by
      rcases Nat.eq_or_lt_of_le hpk with e | e
      · exact e
      · exfalso
        have l1 := h.rows_strict hj k _ s1 e hk2
        have l2 := s4 _ (le_refl _) (by omega)
        omega
    simp only [SparseMatrixCSC.get, if_neg hrange, hp]
    rw [if_pos]
    exact ⟨by omega, hk3⟩
  · intro hnone
    simp only [SparseMatrixCSC.get, if_neg hrange]
    rw [if_neg]
    rintro ⟨n1, n2⟩
    exact hnone _ s1 (by omega) n2

/-- C8. For every sparse matrix whose storage satisfies the compressed-column
invariants and every in-range `(i, j)`: if some slot `k` of column `j` (that is,
`col_ptr[j] ≤ k < col_ptr[j+1]`) has `row_indices[k] = i`, the read `A(i,j)`
returns `values[k]`; if no slot of column `j` has row `i`, it returns `0`. -/
theorem get_of_CSC {α : Type} [Zero α] (A : SparseMatrixCSC α) (h : CSC A) (i j : Nat)
    (hi : i < A._n) (hj : j < A._m) :
    (∀ k, A.col_ptr.getD j 0 ≤ k → k < A.col_ptr.getD (j + 1) 0 →
      A.row_indices.getD k 0 = i → A.get i j = .ok (A.values.getD k 0)) ∧
    ((∀ k, A.col_ptr.getD j 0 ≤ k → k < A.col_ptr.getD (j + 1) 0 →
      A.row_indices.getD k 0 ≠ i) → A.get i j = .ok 0) :=
  get_eq_of_CSC A h i j hi hj

/-- Instance of `get_of_CSC`: position `(1, 0)` of the 2 x 3 matrix
`[[1,0,2],[0,3,0]]`, whose column `0` holds no entry of row `1`. -/
theorem get_of_CSC_witness :
    CSC (of_storage 2 3 [(1 : Int), 3, 2] [0, 1, 0] [0, 1, 2, 3]) ∧ 1 < 2 ∧ 0 < 3 ∧
    ((∀ k, (of_storage 2 3 [(1 : Int), 3, 2] [0, 1, 0] [0, 1, 2, 3]).col_ptr.getD 0 0 ≤ k →
        k < (of_storage 2 3 [(1 : Int), 3, 2] [0, 1, 0] [0, 1, 2, 3]).col_ptr.getD (0 + 1) 0 →
        (of_storage 2 3 [(1 : Int), 3, 2] [0, 1, 0] [0, 1, 2, 3]).row_indices.getD k 0 = 1 →
        (of_storage 2 3 [(1 : Int), 3, 2] [0, 1, 0] [0, 1, 2, 3]).get 1 0 =
          .ok ((of_storage 2 3 [(1 : Int), 3, 2] [0, 1, 0] [0, 1, 2, 3]).values.getD k 0)) ∧
      ((∀ k, (of_storage 2 3 [(1 : Int), 3, 2] [0, 1, 0] [0, 1, 2, 3]).col_ptr.getD 0 0 ≤ k →
        k < (of_storage 2 3 [(1 : Int), 3, 2] [0, 1, 0] [0, 1, 2, 3]).col_ptr.getD (0 + 1) 0 →
        (of_storage 2 3 [(1 : Int), 3, 2] [0, 1, 0] [0, 1, 2, 3]).row_indices.getD k 0 ≠ 1) →
        (of_storage 2 3 [(1 : Int), 3, 2] [0, 1, 0] [0, 1, 2, 3]).get 1 0 = .ok 0)) :=
  ⟨by decide, by decide, by decide,
    get_of_CSC (of_storage 2 3 [(1 : Int), 3, 2] [0, 1, 0] [0, 1, 2, 3]) (by decide) 1 0
      (by decide) (by decide)⟩

/-! ## `finalize` on staged triplets -/

theorem linear_insert_perm {β : Type} (comp : β → β → Bool) (val : β) (l : List β) :
    (linear_insert comp val l).Perm (val :: l) := by
  induction l with
  | nil => exact List.Perm.refl _
  | cons y ys ih =>
    simp only [linear_insert]
    split
    · exact ((List.Perm.cons y ih).trans (List.Perm.swap val y ys))
    · exact List.Perm.refl _

theorem insertion_step_perm {β : Type} (comp : β → β → Bool) (pre : List β) (val : β) :
    (insertion_step comp pre val).Perm (val :: pre) := by
  cases pre with
  | nil => exact List.Perm.refl _
  | cons first rest =>
    simp only [insertion_step]
    split
    · exact List.Perm.refl _
    · refine (List.reverse_perm _).trans ((linear_insert_perm comp val _).trans ?_)
      exact List.Perm.cons val (List.reverse_perm _)

theorem foldl_insertion_step_perm {β : Type} (comp : β → β → Bool) (xs : List β) :
    ∀ acc, (xs.foldl (insertion_step comp) acc).Perm (acc ++ xs) := by
  induction xs with
  | nil => intro acc; simp
  | cons x xs ih =>
    intro acc
    simp only [List.foldl_cons]
    refine (ih _).trans ?_
    refine (List.Perm.append_right xs (insertion_step_perm comp acc x)).trans ?_
    simpa using (@List.perm_middle _ x acc xs).symm

theorem std_sort_perm {β : Type} (comp : β → β → Bool) (xs : List β) :
    (std_sort comp xs).Perm xs := by
  simpa [std_sort] using foldl_insertion_step_perm comp xs []

theorem finalize_values_length {α : Type} [Zero α] (temp : List α) :
    ∀ (ts : List row_col_idx) (i : Nat) (vs : List α),
      (SparseMatrixCSC.finalize_values temp ts i vs).length = vs.length := by
  intro ts
  induction ts with
  | nil => intro i vs; rfl
  | cons t ts ih => intro i vs; simp [SparseMatrixCSC.finalize_values, ih]

theorem partial_sum_from_length : ∀ (xs : List Nat) (acc : Nat),
    (partial_sum_from acc xs).length = xs.length := by
  intro xs
  induction xs with
  | nil => intro acc; rfl
  | cons x xs ih => intro acc; simp [partial_sum_from, ih]

theorem partial_sum_from_getD : ∀ (xs : List Nat) (acc k : Nat), k < xs.length →
    (partial_sum_from acc xs).getD k 0 = acc + (xs.take (k + 1)).sum := by
  intro xs
  induction xs with
  | nil => intro acc k h; simp at h
  | cons x xs ih =>
    intro acc k h
    cases k with
    | zero => simp [partial_sum_from]
    | succ k =>
      simp only [partial_sum_from, List.getD_cons_succ, List.take_succ_cons, List.sum_cons]
      rw [ih (acc + x) k (by simpa using h)]
      omega

theorem partial_sum_length (xs : List Nat) : (partial_sum xs).length = xs.length :=
  partial_sum_from_length xs 0

theorem partial_sum_getD_zero (xs : List Nat) : (partial_sum xs).getD 0 0 = xs.getD 0 0 := by
  cases xs with
  | nil => rfl
  | cons x xs => simp [partial_sum, partial_sum_from]

theorem partial_sum_getD_succ (xs : List Nat) (k : Nat) (h : k + 1 < xs.length) :
    (partial_sum xs).getD (k + 1) 0 = (partial_sum xs).getD k 0 + xs.getD (k + 1) 0 := by
  unfold partial_sum
  rw [partial_sum_from_getD xs 0 (k + 1) h, partial_sum_from_getD xs 0 k (by omega)]
  rw [List.take_succ, List.sum_append]
  simp [List.getD_eq_getElem?_getD, List.getElem?_eq_getElem h]

theorem Staged.new {α : Type} [Zero α] (rows cols : Nat) :
    Staged rows cols ([] : List (Nat × Nat × α)) (SparseMatrixCSC.new rows cols) where
  n_eq := rfl
  m_eq := rfl
  len := rfl
  rows_nil := rfl
  col_ptr_len := by simp [SparseMatrixCSC.new]
  col_t_len := by simp [SparseMatrixCSC.new]
  col_t_zero := by simp [SparseMatrixCSC.new]
  col_t_count := by
    intro c hc
    simp [SparseMatrixCSC.new, getD_replicate_eq]
  idx_lt := by intro t ht; simp [SparseMatrixCSC.new] at ht
  of_call := by intro c hc; simp at hc
  to_call := by intro t ht; simp [SparseMatrixCSC.new] at ht

theorem Staged.addValue {α : Type} [Zero α] [DecidableEq α] {rows cols : Nat}
    {calls : List (Nat × Nat × α)} {A : SparseMatrixCSC α} (h : Staged rows cols calls A)
    (row col : Nat) (value : α) (hrow : row < rows) (hcol : col < cols) :
    ∃ B, A.addValue row col value = .ok B ∧ Staged rows cols (calls ++ [(row, col, value)]) B := by
  have hrange : ¬ (col ≥ A._m ∨ row ≥ A._n) := by rw [h.n_eq, h.m_eq]; omega
  by_cases hv : value = 0
  · refine ⟨A, by simp [SparseMatrixCSC.addValue, hrange, hv], ?_⟩
    refine { h with of_call := ?_, to_call := ?_ }
    · intro c hc hne
      rcases List.mem_append.mp hc with hc | hc
      · exact h.of_call c hc hne
      · simp only [List.mem_singleton] at hc
        subst hc
        exact absurd hv hne
    · intro t ht
      obtain ⟨c, hc, rest⟩ := h.to_call t ht
      exact ⟨c, List.mem_append_left _ hc, rest⟩
  · refine ⟨{ A with
        values := A.values ++ [value]
        row_indices_idx := A.row_indices_idx ++ [(⟨row, col, A.values.length⟩ : row_col_idx)]
        col_t_ptr := A.col_t_ptr.modify (· + 1) (col + 1) },
      by simp only [SparseMatrixCSC.addValue, if_neg hrange, if_neg hv], ?_⟩
    have hold : ∀ t ∈ A.row_indices_idx,
        (A.values ++ [value]).getD t.index 0 = A.values.getD t.index 0 := by
      intro t ht
      exact getD_append_left _ _ _ _ (h.idx_lt t ht).2.2
    have hnew : (A.values ++ [value]).getD A.values.length 0 = value := by
      simp [List.getD_eq_getElem?_getD]
    constructor
    · exact h.n_eq
    · exact h.m_eq
    · simp [h.len]
    · exact h.rows_nil
    · exact h.col_ptr_len
    · simp [h.col_t_len]
    · show (A.col_t_ptr.modify (· + 1) (col + 1)).getD 0 0 = 0
      rw [getD_modify_eq, if_neg (by omega)]
      exact h.col_t_zero
    · intro c hc
      show (A.col_t_ptr.modify (· + 1) (col + 1)).getD (c + 1) 0 =
        (A.row_indices_idx ++ [(⟨row, col, A.values.length⟩ : row_col_idx)]).countP (fun t => decide (t.col = c))
      rw [getD_modify_eq, List.countP_append, h.col_t_count c hc]
      by_cases hcc : col = c
      · subst hcc
        rw [if_pos ⟨rfl, by rw [h.col_t_len]; omega⟩]
        simp [List.countP_cons]
      · rw [if_neg (by omega)]
        simp [List.countP_cons, hcc]
    · intro t ht
      show t.row < rows ∧ t.col < cols ∧ t.index < (A.values ++ [value]).length
      rcases List.mem_append.mp ht with ht | ht
      · obtain ⟨a, b, c⟩ := h.idx_lt t ht
        exact ⟨a, b, by simp; omega⟩
      · simp only [List.mem_singleton] at ht
        subst ht
        exact ⟨hrow, hcol, by simp⟩
    · intro c hc hne
      show ∃ t ∈ A.row_indices_idx ++ [(⟨row, col, A.values.length⟩ : row_col_idx)],
        t.row = c.1 ∧ t.col = c.2.1 ∧ (A.values ++ [value]).getD t.index 0 = c.2.2
      rcases List.mem_append.mp hc with hc | hc
      · obtain ⟨t, ht, a, b, e⟩ := h.of_call c hc hne
        exact ⟨t, List.mem_append_left _ ht, a, b, by rw [hold t ht]; exact e⟩
      · simp only [List.mem_singleton] at hc
        subst hc
        exact ⟨(⟨row, col, A.values.length⟩ : row_col_idx), by simp, rfl, rfl, hnew⟩
    · intro t ht
      show ∃ c ∈ calls ++ [(row, col, value)],
        c.2.2 ≠ 0 ∧ t.row = c.1 ∧ t.col = c.2.1 ∧ (A.values ++ [value]).getD t.index 0 = c.2.2
      rcases List.mem_append.mp ht with ht | ht
      · obtain ⟨c, hc, a, b, d, e⟩ := h.to_call t ht
        exact ⟨c, List.mem_append_left _ hc, a, b, d, by rw [hold t ht]; exact e⟩
      · simp only [List.mem_singleton] at ht
        subst ht
        exact ⟨(row, col, value), by simp, hv, rfl, rfl, hnew⟩

theorem Staged.foldlM {α : Type} [Zero α] [DecidableEq α] {rows cols : Nat} :
    ∀ (calls done : List (Nat × Nat × α)) (A : SparseMatrixCSC α), Staged rows cols done A →
      (∀ c ∈ calls, c.1 < rows ∧ c.2.1 < cols) →
      ∃ B, calls.foldlM (fun A c => A.addValue c.1 c.2.1 c.2.2) A = .ok B ∧
        Staged rows cols (done ++ calls) B := by
  intro calls
  induction calls with
  | nil => intro done A h _; exact ⟨A, rfl, by simpa using h⟩
  | cons c calls ih =>
    intro done A h hin
    obtain ⟨B, hB, hS⟩ := h.addValue c.1 c.2.1 c.2.2 (hin c (by simp)).1 (hin c (by simp)).2
    obtain ⟨C, hC, hS2⟩ := ih (done ++ [c]) B hS (fun d hd => hin d (by simp [hd]))
    refine ⟨C, ?_, by simpa using hS2⟩
    simp only [List.foldlM_cons]
    rw [hB]
    exact hC

theorem addValues_staged {α : Type} [Zero α] [DecidableEq α] (rows cols : Nat)
    (calls : List (Nat × Nat × α)) (hin : ∀ c ∈ calls, c.1 < rows ∧ c.2.1 < cols) :
    ∃ B, addValues rows cols calls = .ok B ∧ Staged rows cols calls B := by
  simpa [addValues] using Staged.foldlM calls [] _ (Staged.new rows cols) hin

theorem countP_col_lt_succ (l : List row_col_idx) (j : Nat) :
    l.countP (fun t => decide (t.col < j + 1)) =
      l.countP (fun t => decide (t.col < j)) + l.countP (fun t => decide (t.col = j)) := by
  induction l with
  | nil => rfl
  | cons t ts ih =>
    simp only [List.countP_cons, ih]
    by_cases h1 : t.col < j
    · have h2 : t.col < j + 1 := by omega
      have h3 : ¬ t.col = j := by omega
      simp [h1, h2, h3]; omega
    · by_cases h3 : t.col = j
      · have h2 : t.col < j + 1 := by omega
        simp [h1, h2, h3]; omega
      · have h2 : ¬ t.col < j + 1 := by omega
        simp [h1, h2, h3]

theorem partial_sum_col_t_ptr {α : Type} [Zero α] {rows cols : Nat}
    {calls : List (Nat × Nat × α)} {A : SparseMatrixCSC α} (h : Staged rows cols calls A) :
    ∀ j, j ≤ cols → (partial_sum A.col_t_ptr).getD j 0 =
      A.row_indices_idx.countP (fun t => decide (t.col < j)) := by
  intro j
  induction j with
  | zero =>
    intro _
    rw [partial_sum_getD_zero, h.col_t_zero]
    simp
  | succ j ih =>
    intro hj
    rw [partial_sum_getD_succ _ _ (by rw [h.col_t_len]; omega), ih (by omega),
      h.col_t_count j (by omega), countP_col_lt_succ]

theorem Staged.finalize_col_ptr {α : Type} [Zero α] {rows cols : Nat}
    {calls : List (Nat × Nat × α)} {A : SparseMatrixCSC α} (h : Staged rows cols calls A) :
    A.finalize.col_ptr = partial_sum A.col_t_ptr := by
  show write_prefix (partial_sum A.col_t_ptr) A.col_ptr = _
  unfold write_prefix
  rw [List.drop_of_length_le (by rw [partial_sum_length, h.col_t_len, h.col_ptr_len])]
  simp

/-- C1 (failing input). Two calls at distinct positions with non-zero values,
`addValue(0,1,3)`, `addValue(1,0,5)`, then `finalize()`, on a 2 x 2 matrix. The
sort leaves the triplets in the order `(0,1)`, `(1,0)` of their insertion, which
is not ascending in `(col, row)`; the reads are `A(0,0) = 3`, `A(0,1) = 0`,
`A(1,0) = 0`, `A(1,1) = 5`, while the values most recently inserted at these
positions are `0`, `3`, `5`, `0`. -/
theorem get_after_finalize_not_latest :
    (build 2 2 [(0, 1, (3 : Int)), (1, 0, 5)]).map
        (fun A => A.row_indices_idx.map (fun t => (t.row, t.col))) = .ok [(0, 1), (1, 0)] ∧
    ((build 2 2 [(0, 1, (3 : Int)), (1, 0, 5)]).bind (fun A => A.get 0 0) = .ok 3 ∧
      inserted [(0, 1, (3 : Int)), (1, 0, 5)] 0 0 = 0) ∧
    ((build 2 2 [(0, 1, (3 : Int)), (1, 0, 5)]).bind (fun A => A.get 0 1) = .ok 0 ∧
      inserted [(0, 1, (3 : Int)), (1, 0, 5)] 0 1 = 3) ∧
    ((build 2 2 [(0, 1, (3 : Int)), (1, 0, 5)]).bind (fun A => A.get 1 0) = .ok 0 ∧
      inserted [(0, 1, (3 : Int)), (1, 0, 5)] 1 0 = 5) ∧
    ((build 2 2 [(0, 1, (3 : Int)), (1, 0, 5)]).bind (fun A => A.get 1 1) = .ok 5 ∧
      inserted [(0, 1, (3 : Int)), (1, 0, 5)] 1 1 = 0) :=
  ⟨rfl, ⟨rfl, rfl⟩, ⟨rfl, rfl⟩, ⟨rfl, rfl⟩, ⟨rfl, rfl⟩⟩

/-! ## `Transpose` as a counting sort -/

theorem count_take_succ (R : List Nat) (T r : Nat) (hT : T < R.length) :
    (R.take (T + 1)).count r = (R.take T).count r + if R.getD T 0 = r then 1 else 0 := by
  rw [List.take_succ, List.count_append]
  simp only [List.getElem?_eq_getElem hT, Option.toList_some, List.count_singleton,
    getD_eq_getElem_of_lt R T 0 hT]
  by_cases h : R[T] = r
  · simp [h]
  · simp [h]

theorem count_take_le (R : List Nat) (T r : Nat) : (R.take T).count r ≤ R.count r :=
  (List.take_sublist T R).count_le r

theorem count_take_mono (R : List Nat) (r : Nat) {T T' : Nat} (h : T ≤ T') :
    (R.take T).count r ≤ (R.take T').count r := by
  have : (R.take T) = (R.take T').take T := by
    rw [List.take_take, Nat.min_eq_left h]
  rw [this]
  exact (List.take_sublist T _).count_le r

theorem row_rank_lt (R : List Nat) (i : Nat) (hi : i < R.length) :
    row_rank R i < R.count (R.getD i 0) := by
  have h1 := count_take_succ R i (R.getD i 0) hi
  have h2 := count_take_le R (i + 1) (R.getD i 0)
  simp only [if_true] at h1
  unfold row_rank
  omega

theorem row_start_succ (R : List Nat) (r : Nat) :
    row_start R (r + 1) = row_start R r + R.count r := by
  unfold row_start
  induction R with
  | nil => rfl
  | cons x xs ih =>
    simp only [List.countP_cons, List.count_cons, ih]
    by_cases h1 : x < r
    · have h2 : x < r + 1 := by omega
      have h3 : ¬ x = r := by omega
      simp [h1, h2, h3]; omega
    · by_cases h3 : x = r
      · have h2 : x < r + 1 := by omega
        simp [h1, h2, h3]; omega
      · have h2 : ¬ x < r + 1 := by omega
        simp [h1, h2, h3]

theorem row_start_mono (R : List Nat) {r r' : Nat} (h : r ≤ r') :
    row_start R r ≤ row_start R r' := by
  induction h with
  | refl => exact le_refl _
  | step _ ih => rw [row_start_succ]; omega

theorem row_start_zero (R : List Nat) : row_start R 0 = 0 := by
  simp [row_start]

theorem row_start_eq_length (R : List Nat) (n : Nat) (h : ∀ x ∈ R, x < n) :
    row_start R n = R.length := by
  unfold row_start
  rw [List.countP_eq_length]
  intro x hx
  simpa using h x hx

theorem row_start_le_length (R : List Nat) (r : Nat) : row_start R r ≤ R.length :=
  List.countP_le_length _

theorem transpose_pos_lt_next (R : List Nat) (i : Nat) (hi : i < R.length) :
    transpose_pos R i < row_start R (R.getD i 0 + 1) := by
  have := row_rank_lt R i hi
  rw [row_start_succ]
  unfold transpose_pos
  omega

theorem transpose_pos_ge (R : List Nat) (i : Nat) :
    row_start R (R.getD i 0) ≤ transpose_pos R i := by
  unfold transpose_pos; omega

theorem transpose_pos_lt_length (R : List Nat) (i : Nat) (hi : i < R.length) :
    transpose_pos R i < R.length :=
  lt_of_lt_of_le (transpose_pos_lt_next R i hi) (row_start_le_length R _)

theorem row_rank_lt_of_lt (R : List Nat) {i i' : Nat} (h : i < i') (hi' : i' < R.length)
    (hr : R.getD i 0 = R.getD i' 0) : row_rank R i < row_rank R i' := by
  unfold row_rank
  have h1 := count_take_succ R i (R.getD i 0) (by omega)
  simp only [if_true] at h1
  have h2 := count_take_mono R (R.getD i 0) (show i + 1 ≤ i' by omega)
  rw [← hr]
  omega

theorem transpose_pos_injective (R : List Nat) {i i' : Nat} (hi : i < R.length)
    (hi' : i' < R.length) (h : transpose_pos R i = transpose_pos R i') : i = i' := by
  have a1 := transpose_pos_lt_next R i hi
  have a2 := transpose_pos_ge R i
  have b1 := transpose_pos_lt_next R i' hi'
  have b2 := transpose_pos_ge R i'
  have hr : R.getD i 0 = R.getD i' 0 := by
    by_contra hne
    rcases Nat.lt_or_gt_of_ne hne with c | c
    · have := row_start_mono R (show R.getD i 0 + 1 ≤ R.getD i' 0 by omega)
      omega
    · have := row_start_mono R (show R.getD i' 0 + 1 ≤ R.getD i 0 by omega)
      omega
  by_contra hne
  rcases Nat.lt_or_gt_of_ne hne with c | c
  · have := row_rank_lt_of_lt R c hi' hr
    unfold transpose_pos at h
    rw [hr] at h
    omega
  · have := row_rank_lt_of_lt R c hi hr.symm
    unfold transpose_pos at h
    rw [hr] at h
    omega

theorem exists_rank (R : List Nat) (r j : Nat) :
    ∀ T, T ≤ R.length → j < (R.take T).count r →
      ∃ i, i < T ∧ R.getD i 0 = r ∧ (R.take i).count r = j := by
  intro T
  induction T with
  | zero => intro _ h; simp at h
  | succ T ih =>
    intro hT hj
    have hs := count_take_succ R T r (by omega)
    by_cases hlt : j < (R.take T).count r
    · obtain ⟨i, h1, h2, h3⟩ := ih (by omega) hlt
      exact ⟨i, by omega, h2, h3⟩
    · by_cases hr : R.getD T 0 = r
      · rw [if_pos hr] at hs
        exact ⟨T, by omega, hr, by omega⟩
      · rw [if_neg hr] at hs
        omega

theorem exists_transpose_pos (R : List Nat) (r p : Nat) (h1 : row_start R r ≤ p)
    (h2 : p < row_start R (r + 1)) :
    ∃ i, i < R.length ∧ R.getD i 0 = r ∧ transpose_pos R i = p := by
  rw [row_start_succ] at h2
  obtain ⟨i, a, b, c⟩ := exists_rank R r (p - row_start R r) R.length (le_refl _)
    (by rw [List.take_length]; omega)
  refine ⟨i, a, b, ?_⟩
  unfold transpose_pos row_rank
  rw [b, c]
  omega

theorem CSC.col_ptr_mono {α : Type} {A : SparseMatrixCSC α} (h : CSC A) {c c' : Nat}
    (hcc : c ≤ c') (hc' : c' ≤ A._m) : A.col_ptr.getD c 0 ≤ A.col_ptr.getD c' 0 := by
  induction hcc with
  | refl => exact le_refl _
  | step hle ih => exact le_trans (ih (by omega)) (h.2.2.1 _ (by omega))

theorem CSC.col_unique {α : Type} {A : SparseMatrixCSC α} (h : CSC A) {c c' i : Nat}
    (hc : c < A._m) (hc' : c' < A._m) (h1 : A.col_ptr.getD c 0 ≤ i)
    (h2 : i < A.col_ptr.getD (c + 1) 0) (h3 : A.col_ptr.getD c' 0 ≤ i)
    (h4 : i < A.col_ptr.getD (c' + 1) 0) : c = c' := by
  by_contra hne
  rcases Nat.lt_or_gt_of_ne hne with l | l
  · have := h.col_ptr_mono (show c + 1 ≤ c' by omega) (by omega)
    omega
  · have := h.col_ptr_mono (show c' + 1 ≤ c by omega) (by omega)
    omega

theorem CSC.exists_col {α : Type} {A : SparseMatrixCSC α} (h : CSC A) (i : Nat)
    (hi : i < A.values.length) :
    ∃ c, c < A._m ∧ A.col_ptr.getD c 0 ≤ i ∧ i < A.col_ptr.getD (c + 1) 0 := by
  have key : ∀ c, c ≤ A._m → i < A.col_ptr.getD c 0 →
      ∃ c', c' < A._m ∧ A.col_ptr.getD c' 0 ≤ i ∧ i < A.col_ptr.getD (c' + 1) 0 := by
    intro c
    induction c with
    | zero => intro _ h0; rw [h.2.1] at h0; omega
    | succ c ih =>
      intro hc hlt
      by_cases hle : A.col_ptr.getD c 0 ≤ i
      · exact ⟨c, by omega, hle, hlt⟩
      · exact ih (by omega) (by omega)
  exact key A._m (le_refl _) (by rw [h.2.2.2.1]; exact hi)

theorem CSC.row_mem_lt {α : Type} {A : SparseMatrixCSC α} (h : CSC A) :
    ∀ x ∈ A.row_indices, x < A._n := by
  intro x hx
  obtain ⟨k, hk, e⟩ := exists_getD_of_mem 0 hx
  rw [← e]
  exact h.2.2.2.2.2.1 k (by rw [← h.2.2.2.2.1]; exact hk)

theorem count_loop (R : List Nat) (n : Nat) (hR : ∀ x ∈ R, x < n) :
    ∀ T, T ≤ R.length →
      ((List.range T).foldl (fun cp i => cp.modify (· + 1) (R.getD i 0 + 1))
          (List.replicate (n + 1) 0)).length = n + 1 ∧
      ((List.range T).foldl (fun cp i => cp.modify (· + 1) (R.getD i 0 + 1))
          (List.replicate (n + 1) 0)).getD 0 0 = 0 ∧
      ∀ r, r < n →
        ((List.range T).foldl (fun cp i => cp.modify (· + 1) (R.getD i 0 + 1))
          (List.replicate (n + 1) 0)).getD (r + 1) 0 = (R.take T).count r := by
  intro T
  induction T with
  | zero =>
    intro _
    refine ⟨by simp, by simp, ?_⟩
    intro r hr
    simp [getD_replicate_eq, hr]
  | succ T ih =>
    intro hT
    obtain ⟨i1, i2, i3⟩ := ih (by omega)
    rw [List.range_succ, List.foldl_append]
    simp only [List.foldl_cons, List.foldl_nil]
    refine ⟨by rw [List.length_modify]; exact i1, ?_, ?_⟩
    · rw [getD_modify_eq, if_neg (by omega)]; exact i2
    · intro r hr
      rw [getD_modify_eq, i3 r hr, count_take_succ R T r (by omega)]
      have hlt : R.getD T 0 < n := hR _ (getD_mem R T 0 (by omega))
      by_cases e : R.getD T 0 = r
      · rw [if_pos ⟨by omega, by rw [i1]; omega⟩, if_pos e]
      · rw [if_neg (by omega), if_neg e]; rfl

theorem partial_sum_counts (R : List Nat) (n : Nat) (cnt : List Nat)
    (h1 : cnt.length = n + 1) (h2 : cnt.getD 0 0 = 0)
    (h3 : ∀ r, r < n → cnt.getD (r + 1) 0 = R.count r) :
    ∀ j, j ≤ n → (partial_sum cnt).getD j 0 = row_start R j := by
  intro j
  induction j with
  | zero => intro _; rw [partial_sum_getD_zero, h2, row_start_zero]
  | succ j ih =>
    intro hj
    rw [partial_sum_getD_succ _ _ (by omega), ih (by omega), h3 j (by omega), row_start_succ]

theorem Transpose_shift_length (n : Nat) : ∀ cp : List Nat,
    (SparseMatrixCSC.Transpose_shift n cp).length = cp.length := by
  unfold SparseMatrixCSC.Transpose_shift
  induction n with
  | zero => intro cp; simp
  | succ n ih =>
    intro cp
    rw [List.range'_concat, List.reverse_append]
    simp only [List.reverse_cons, List.reverse_nil, List.nil_append, List.singleton_append,
      List.foldl_cons]
    rw [ih]
    simp

theorem shift_loop_getD (n : Nat) : ∀ (cp : List Nat) (r : Nat), n < cp.length →
    ((List.range' 1 n).reverse.foldl (fun cp i => cp.set i (cp.getD (i - 1) 0)) cp).getD r 0 =
      if 1 ≤ r ∧ r ≤ n then cp.getD (r - 1) 0 else cp.getD r 0 := by
  induction n with
  | zero =>
    intro cp r _
    simp only [List.range'_zero, List.reverse_nil, List.foldl_nil]
    rw [if_neg (by omega)]
  | succ n ih =>
    intro cp r hlen
    rw [List.range'_concat, List.reverse_append]
    simp only [List.reverse_cons, List.reverse_nil, List.nil_append, List.singleton_append,
      List.foldl_cons]
    rw [ih _ r (by rw [List.length_set]; omega)]
    have e : 1 + 1 * n = n + 1 := by omega
    rw [e]
    have e2 : n + 1 - 1 = n := by omega
    rw [e2]
    by_cases c1 : 1 ≤ r ∧ r ≤ n
    · rw [if_pos c1, if_pos (by omega), getD_set_eq, if_neg (by omega)]
    · rw [if_neg c1, getD_set_eq]
      by_cases c2 : n + 1 = r
      · rw [if_pos ⟨c2, by omega⟩, if_pos (by omega)]
        have : r - 1 = n := by omega
        rw [this]
      · rw [if_neg (by omega), if_neg (by omega)]

theorem Transpose_shift_getD (n : Nat) (cp : List Nat) (r : Nat) (hlen : n < cp.length) :
    (SparseMatrixCSC.Transpose_shift n cp).getD r 0 =
      if r = 0 then 0 else if r ≤ n then cp.getD (r - 1) 0 else cp.getD r 0 := by
  unfold SparseMatrixCSC.Transpose_shift
  rw [getD_set_eq]
  by_cases h0 : r = 0
  · subst h0
    have hl : ((List.range' 1 n).reverse.foldl (fun cp i => cp.set i (cp.getD (i - 1) 0)) cp).length
        = cp.length := by
      have := Transpose_shift_length n cp
      unfold SparseMatrixCSC.Transpose_shift at this
      simpa using this
    rw [if_pos ⟨rfl, by rw [hl]; omega⟩, if_pos rfl]
  · rw [if_neg (by omega), if_neg h0, shift_loop_getD n cp r hlen]
    by_cases h1 : r ≤ n
    · rw [if_pos ⟨by omega, h1⟩, if_pos h1]
    · rw [if_neg (by omega), if_neg h1]

theorem ScatterInv.step {α : Type} [Zero α] {A : SparseMatrixCSC α} (hA : CSC A) {T : Nat}
    {st : List Nat × List Nat × List α} (h : ScatterInv A T st) {col : Nat} (hcol : col < A._m)
    (h1 : A.col_ptr.getD col 0 ≤ T) (h2 : T < A.col_ptr.getD (col + 1) 0) :
    ScatterInv A (T + 1)
      (st.1.set (A.row_indices.getD T 0) (st.1.getD (A.row_indices.getD T 0) 0 + 1),
        st.2.1.set (st.1.getD (A.row_indices.getD T 0) 0) col,
        st.2.2.set (st.1.getD (A.row_indices.getD T 0) 0) (A.values.getD T 0)) := by
  have hlast : A.col_ptr.getD (col + 1) 0 ≤ A.values.length := by
    have := hA.col_ptr_mono (show col + 1 ≤ A._m by omega) (le_refl _)
    rw [hA.2.2.2.1] at this
    exact this
  have hT : T < A.row_indices.length := by rw [hA.2.2.2.2.1]; omega
  have hrow : A.row_indices.getD T 0 < A._n := hA.2.2.2.2.2.1 T (by omega)
  have hdest : st.1.getD (A.row_indices.getD T 0) 0 = transpose_pos A.row_indices T := by
    rw [h.ptr _ (by omega)]
    rfl
  have hdlt : transpose_pos A.row_indices T < A.values.length := by
    rw [← hA.2.2.2.2.1]
    exact transpose_pos_lt_length _ _ hT
  rw [hdest]
  constructor
  · show (st.1.set _ _).length = _
    rw [List.length_set]; exact h.len1
  · show (st.2.1.set _ _).length = _
    rw [List.length_set]; exact h.len2
  · show (st.2.2.set _ _).length = _
    rw [List.length_set]; exact h.len3
  · intro r hr
    show (st.1.set _ _).getD r 0 = _
    rw [getD_set_eq, count_take_succ _ _ _ hT]
    by_cases e : A.row_indices.getD T 0 = r
    · rw [if_pos ⟨e, by rw [h.len1]; omega⟩, if_pos e]
      unfold transpose_pos row_rank
      rw [e]
      omega
    · rw [if_neg (by omega), if_neg e, h.ptr r hr]
      rfl
  · intro i hi c hc c1 c2
    show (st.2.1.set _ _).getD _ 0 = c ∧ (st.2.2.set _ _).getD _ 0 = _
    rw [getD_set_eq, getD_set_eq]
    by_cases e : i = T
    · subst e
      have : c = col := hA.col_unique hc hcol c1 c2 h1 h2
      subst this
      rw [if_pos ⟨rfl, by rw [h.len2]; exact hdlt⟩, if_pos ⟨rfl, by rw [h.len3]; exact hdlt⟩]
      exact ⟨rfl, rfl⟩
    · have hne : ¬ transpose_pos A.row_indices T = transpose_pos A.row_indices i := by
        intro hp
        exact e (transpose_pos_injective _ hT (by omega) hp).symm
      rw [if_neg (by intro hx; exact hne hx.1), if_neg (by intro hx; exact hne hx.1)]
      exact h.placed i (by omega) c hc c1 c2
  · intro p hm
    show (st.2.1.set _ _).getD p 0 < _
    rw [getD_set_eq]
    split
    · exact hcol
    · exact h.bound p hm

theorem ScatterInv.inner {α : Type} [Zero α] {A : SparseMatrixCSC α} (hA : CSC A) {col : Nat}
    (hcol : col < A._m) :
    ∀ (len s : Nat) (st : List Nat × List Nat × List α), ScatterInv A s st →
      A.col_ptr.getD col 0 ≤ s → s + len ≤ A.col_ptr.getD (col + 1) 0 →
      ScatterInv A (s + len) ((List.range' s len).foldl (fun st idx =>
        (st.1.set (A.row_indices.getD idx 0) (st.1.getD (A.row_indices.getD idx 0) 0 + 1),
          st.2.1.set (st.1.getD (A.row_indices.getD idx 0) 0) col,
          st.2.2.set (st.1.getD (A.row_indices.getD idx 0) 0) (A.values.getD idx 0))) st) := by
  intro len
  induction len with
  | zero => intro s st h _ _; simpa using h
  | succ len ih =>
    intro s st h h1 h2
    rw [List.range'_succ, List.foldl_cons]
    have := ih (s + 1) _ (h.step hA hcol h1 (by omega)) (by omega) (by omega)
    have e : s + 1 + len = s + (len + 1) := by omega
    rw [e] at this
    exact this

theorem ScatterInv.outer {α : Type} [Zero α] {A : SparseMatrixCSC α} (hA : CSC A)
    (init : List Nat × List Nat × List α) (h0 : ScatterInv A 0 init) :
    ∀ c, c ≤ A._m →
      ScatterInv A (A.col_ptr.getD c 0) ((List.range c).foldl (fun st col =>
        (List.range' (A.col_ptr.getD col 0)
            (A.col_ptr.getD (col + 1) 0 - A.col_ptr.getD col 0)).foldl (fun st idx =>
          let row := A.row_indices.getD idx 0
          let dest_idx := st.1.getD row 0
          (st.1.set row (dest_idx + 1), st.2.1.set dest_idx col,
            st.2.2.set dest_idx (A.values.getD idx 0))) st) init) := by
  intro c
  induction c with
  | zero => intro _; rw [hA.2.1]; simpa using h0
  | succ c ih =>
    intro hc
    rw [List.range_succ, List.foldl_append]
    simp only [List.foldl_cons, List.foldl_nil]
    have hle := hA.2.2.1 c (by omega)
    have := ScatterInv.inner hA (show c < A._m by omega)
      (A.col_ptr.getD (c + 1) 0 - A.col_ptr.getD c 0) (A.col_ptr.getD c 0) _ (ih (by omega))
      (le_refl _) (by omega)
    have e : A.col_ptr.getD c 0 + (A.col_ptr.getD (c + 1) 0 - A.col_ptr.getD c 0)
        = A.col_ptr.getD (c + 1) 0 := by omega
    rw [e] at this
    exact this

theorem ScatterInv_start {α : Type} [Zero α] {A : SparseMatrixCSC α} (cp : List Nat)
    (h1 : cp.length = A._n + 1)
    (h2 : ∀ r, r ≤ A._n → cp.getD r 0 = row_start A.row_indices r) :
    ScatterInv A 0 (cp, List.replicate A.values.length 0, List.replicate A.values.length 0) where
  len1 := h1
  len2 := by simp
  len3 := by simp
  ptr := by
    intro r hr
    show cp.getD r 0 = _ + (List.take 0 A.row_indices).count r
    rw [h2 r hr]
    simp
  placed := by intro i hi; omega
  bound := by
    intro p hm
    show (List.replicate A.values.length 0).getD p 0 < _
    rw [getD_replicate_eq]
    split <;> exact hm

theorem Transpose_scatter_inv {α : Type} [Zero α] (A : SparseMatrixCSC α) (hA : CSC A) :
    ScatterInv A A.values.length
      (A.Transpose_scatter
        (partial_sum ((List.range A.row_indices.length).foldl (fun cp i =>
          cp.modify (· + 1) (A.row_indices.getD i 0 + 1)) (List.replicate (A._n + 1) 0)),
        List.replicate A.values.length 0, List.replicate A.values.length 0)) := by
  obtain ⟨c1, c2, c3⟩ := count_loop A.row_indices A._n hA.row_mem_lt A.row_indices.length
    (le_refl _)
  simp only [List.take_length] at c3
  have hinit := ScatterInv_start (A := A) (partial_sum ((List.range A.row_indices.length).foldl
      (fun cp i => cp.modify (· + 1) (A.row_indices.getD i 0 + 1)) (List.replicate (A._n + 1) 0)))
    (by rw [partial_sum_length, c1])
    (partial_sum_counts A.row_indices A._n _ c1 c2 c3)
  have := ScatterInv.outer hA _ hinit A._m (le_refl _)
  rw [hA.2.2.2.1] at this
  exact this

theorem Transpose_fields {α : Type} [Zero α] (A : SparseMatrixCSC α) :
    A.Transpose._n = A._m ∧ A.Transpose._m = A._n ∧
    A.Transpose.col_ptr = SparseMatrixCSC.Transpose_shift A._n (A.Transpose_scatter
        (partial_sum ((List.range A.row_indices.length).foldl (fun cp i =>
          cp.modify (· + 1) (A.row_indices.getD i 0 + 1)) (List.replicate (A._n + 1) 0)),
        List.replicate A.values.length 0, List.replicate A.values.length 0)).1 ∧
    A.Transpose.row_indices = (A.Transpose_scatter
        (partial_sum ((List.range A.row_indices.length).foldl (fun cp i =>
          cp.modify (· + 1) (A.row_indices.getD i 0 + 1)) (List.replicate (A._n + 1) 0)),
        List.replicate A.values.length 0, List.replicate A.values.length 0)).2.1 ∧
    A.Transpose.values = (A.Transpose_scatter
        (partial_sum ((List.range A.row_indices.length).foldl (fun cp i =>
          cp.modify (· + 1) (A.row_indices.getD i 0 + 1)) (List.replicate (A._n + 1) 0)),
        List.replicate A.values.length 0, List.replicate A.values.length 0)).2.2 := by
  have e1 : SparseMatrixCSC.resize (List.replicate (A._n + 1) 0) (A._n + 1) 0
      = List.replicate (A._n + 1) 0 := by
    simp [SparseMatrixCSC.resize]
  have e2 : SparseMatrixCSC.resize ([] : List Nat) A.values.length 0
      = List.replicate A.values.length 0 := by
    simp [SparseMatrixCSC.resize]
  have e3 : SparseMatrixCSC.resize ([] : List α) A.values.length 0
      = List.replicate A.values.length 0 := by
    simp [SparseMatrixCSC.resize]
  refine ⟨rfl, rfl, ?_, ?_, ?_⟩
  · show SparseMatrixCSC.Transpose_shift A._n (A.Transpose_scatter
      (partial_sum ((List.range A.row_indices.length).foldl _
        (SparseMatrixCSC.resize (List.replicate (A._n + 1) 0) (A._n + 1) 0)),
      SparseMatrixCSC.resize ([] : List Nat) A.values.length 0,
      SparseMatrixCSC.resize ([] : List α) A.values.length 0)).1 = _
    rw [e1, e2, e3]
  · show (A.Transpose_scatter
      (partial_sum ((List.range A.row_indices.length).foldl _
        (SparseMatrixCSC.resize (List.replicate (A._n + 1) 0) (A._n + 1) 0)),
      SparseMatrixCSC.resize ([] : List Nat) A.values.length 0,
      SparseMatrixCSC.resize ([] : List α) A.values.length 0)).2.1 = _
    rw [e1, e2, e3]
  · show (A.Transpose_scatter
      (partial_sum ((List.range A.row_indices.length).foldl _
        (SparseMatrixCSC.resize (List.replicate (A._n + 1) 0) (A._n + 1) 0)),
      SparseMatrixCSC.resize ([] : List Nat) A.values.length 0,
      SparseMatrixCSC.resize ([] : List α) A.values.length 0)).2.2 = _
    rw [e1, e2, e3]

/-- What `Transpose` leaves in storage, for an operand in valid storage: the block
of row `r` starts at `row_start r`, and stored entry `i` of column `c` sits in slot
`transpose_pos i` with row index `c` and its value. -/
theorem Transpose_storage {α : Type} [Zero α] (A : SparseMatrixCSC α) (hA : CSC A) :
    A.Transpose.col_ptr.length = A._n + 1 ∧
    (∀ r, r ≤ A._n → A.Transpose.col_ptr.getD r 0 = row_start A.row_indices r) ∧
    A.Transpose.row_indices.length = A.values.length ∧
    A.Transpose.values.length = A.values.length ∧
    (∀ i, i < A.values.length → ∀ c, c < A._m → A.col_ptr.getD c 0 ≤ i →
      i < A.col_ptr.getD (c + 1) 0 →
      A.Transpose.row_indices.getD (transpose_pos A.row_indices i) 0 = c ∧
      A.Transpose.values.getD (transpose_pos A.row_indices i) 0 = A.values.getD i 0) ∧
    (∀ p, 0 < A._m → A.Transpose.row_indices.getD p 0 < A._m) := by
  obtain ⟨_, _, f3, f4, f5⟩ := Transpose_fields A
  have inv := Transpose_scatter_inv A hA
  rw [f3, f4, f5]
  refine ⟨?_, ?_, inv.len2, inv.len3, inv.placed, inv.bound⟩
  · rw [Transpose_shift_length]; exact inv.len1
  · intro r hr
    rw [Transpose_shift_getD _ _ _ (by rw [inv.len1]; omega)]
    by_cases h0 : r = 0
    · subst h0; rw [if_pos rfl, row_start_zero]
    · rw [if_neg h0, if_pos hr, inv.ptr (r - 1) (by omega)]
      have e : A.values.length = A.row_indices.length := hA.2.2.2.2.1.symm
      rw [e, List.take_length, ← row_start_succ]
      congr 1
      omega

/-- C7. For every sparse matrix `A` of shape `(_n, _m)` in valid compressed-column
storage, `Transpose()` has shape `(_m, _n)`, its storage is again valid (pointer
array starting at zero, non-decreasing, ending at the number of values, row
indices inside the shape and strictly increasing in each column), and it reads
`Transpose()(j, i) = A(i, j)` at every in-range position. -/
theorem Transpose_correct {α : Type} [Zero α] (A : SparseMatrixCSC α) (hA : CSC A) :
    A.Transpose._n = A._m ∧ A.Transpose._m = A._n ∧ CSC A.Transpose ∧
    ∀ i j, i < A._n → j < A._m → A.Transpose.get j i = A.get i j := by
  obtain ⟨s1, s2, s3, s4, s5, s6⟩ := Transpose_storage A hA
  have hn : A.Transpose._n = A._m := rfl
  have hm : A.Transpose._m = A._n := rfl
  have hRlen : A.row_indices.length = A.values.length := hA.2.2.2.2.1
  have hB : CSC A.Transpose := by
    refine ⟨?_, ?_, ?_, ?_, ?_, ?_, ?_⟩
    · rw [s1, hm]
    · rw [s2 0 (by omega), row_start_zero]
    · intro j hj
      rw [hm] at hj
      rw [s2 j (by omega), s2 (j + 1) (by omega)]
      exact row_start_mono _ (by omega)
    · rw [hm, s2 _ (le_refl _), s4, row_start_eq_length _ _ hA.row_mem_lt, hRlen]
    · rw [s3, s4]
    · intro k hk
      rw [s4] at hk
      rw [hn]
      apply s6
      obtain ⟨c, hc, _, _⟩ := hA.exists_col k hk
      omega
    · intro r hr k hk1 hk2 hk3
      rw [hm] at hr
      rw [s2 r (by omega)] at hk2
      rw [s2 (r + 1) (by omega)] at hk1 hk3
      obtain ⟨i, i1, i2, i3⟩ := exists_transpose_pos A.row_indices r k hk2 hk1
      obtain ⟨i', i1', i2', i3'⟩ := exists_transpose_pos A.row_indices r (k + 1) (by omega) hk3
      obtain ⟨c, hc, c1, c2⟩ := hA.exists_col i (by omega)
      obtain ⟨c', hc', c1', c2'⟩ := hA.exists_col i' (by omega)
      rw [← i3', ← i3, (s5 i' (by omega) c' hc' c1' c2').1, (s5 i (by omega) c hc c1 c2).1]
      have hii : i < i' := by
        by_contra hge
        rcases Nat.eq_or_lt_of_le (not_lt.mp hge) with e | e
        · subst e; omega
        · have := row_rank_lt_of_lt A.row_indices e i1 (by rw [i2, i2'])
          unfold transpose_pos at i3 i3'
          rw [i2] at i3
          rw [i2'] at i3'
          omega
      by_contra hcc
      rcases Nat.eq_or_lt_of_le (not_lt.mp hcc) with e | e
      · subst e
        have := hA.rows_strict hc i' i c1 hii c2'
        omega
      · have := hA.col_ptr_mono (show c' + 1 ≤ c by omega) (by omega)
        omega
  refine ⟨hn, hm, hB, ?_⟩
  intro i j hi hj
  have rA := get_eq_of_CSC A hA i j hi hj
  have rB := get_eq_of_CSC A.Transpose hB j i (by rw [hn]; exact hj) (by rw [hm]; exact hi)
  rw [s2 i (by omega), s2 (i + 1) (by omega)] at rB
  by_cases hex : ∃ k, A.col_ptr.getD j 0 ≤ k ∧ k < A.col_ptr.getD (j + 1) 0 ∧
      A.row_indices.getD k 0 = i
  · obtain ⟨k, k1, k2, k3⟩ := hex
    have hlast : A.col_ptr.getD (j + 1) 0 ≤ A.values.length := by
      have := hA.col_ptr_mono (show j + 1 ≤ A._m by omega) (le_refl _)
      rw [hA.2.2.2.1] at this
      exact this
    have hk : k < A.row_indices.length := by omega
    have p1 := transpose_pos_ge A.row_indices k
    have p2 := transpose_pos_lt_next A.row_indices k hk
    rw [k3] at p1 p2
    obtain ⟨q1, q2⟩ := s5 k (by omega) j hj k1 k2
    rw [rA.1 k k1 k2 k3, rB.1 _ p1 p2 q1, q2]
  · have hnone : ∀ k, A.col_ptr.getD j 0 ≤ k → k < A.col_ptr.getD (j + 1) 0 →
        A.row_indices.getD k 0 ≠ i := by
      intro k k1 k2 k3
      exact hex ⟨k, k1, k2, k3⟩
    rw [rA.2 hnone]
    apply rB.2
    intro p p1 p2 p3
    obtain ⟨k, k1, k2, k3⟩ := exists_transpose_pos A.row_indices i p p1 p2
    obtain ⟨c, hc, c1, c2⟩ := hA.exists_col k (by omega)
    have := (s5 k (by omega) c hc c1 c2).1
    rw [k3, p3] at this
    subst this
    exact hnone k c1 c2 k2

/-- Instance of `Transpose_correct`: the 2 x 3 matrix `[[1,0,2],[0,3,0]]`. -/
theorem Transpose_correct_witness :
    CSC (of_storage 2 3 [(1 : Int), 3, 2] [0, 1, 0] [0, 1, 2, 3]) ∧
    ((of_storage 2 3 [(1 : Int), 3, 2] [0, 1, 0] [0, 1, 2, 3]).Transpose._n = 3 ∧
      (of_storage 2 3 [(1 : Int), 3, 2] [0, 1, 0] [0, 1, 2, 3]).Transpose._m = 2 ∧
      CSC (of_storage 2 3 [(1 : Int), 3, 2] [0, 1, 0] [0, 1, 2, 3]).Transpose ∧
      ∀ i j, i < 2 → j < 3 →
        (of_storage 2 3 [(1 : Int), 3, 2] [0, 1, 0] [0, 1, 2, 3]).Transpose.get j i =
          (of_storage 2 3 [(1 : Int), 3, 2] [0, 1, 0] [0, 1, 2, 3]).get i j) :=
  ⟨by decide, Transpose_correct (of_storage 2 3 [(1 : Int), 3, 2] [0, 1, 0] [0, 1, 2, 3])
    (by decide)⟩

/-- C2 (failing input). On the 2 x 2 matrix built by `addValue(0,1,3)`,
`addValue(1,0,5)`, `finalize()` and `v = [1,2]`, the product delivered by the
code is `[3,10]`, while the sum over the inserted triplets is `[6,5]`; on the
scenario of the specification, inserted in the order listed there, the code
does deliver `[2,3,5]`. -/
theorem mulVec_after_finalize_wrong :
    ((build 2 2 [(0, 1, (3 : Int)), (1, 0, 5)]).bind (fun A => A.mulVec [1, 2])) = .ok [3, 10] ∧
    triplet_mulVec 2 [(0, 1, (3 : Int)), (1, 0, 5)] [1, 2] = [6, 5] ∧
    ((build 3 3 [(0, 0, (2 : Int)), (1, 1, 3), (2, 0, 1), (2, 2, 4)]).bind
      (fun A => A.mulVec [1, 1, 1])) = .ok [2, 3, 5] := by
  refine ⟨?_, ?_, ?_⟩ <;> rfl

/-- C3 (failing input). `A` is the 1 x 3 matrix with `A(0,1) = 1`, `A(0,2) = 2`
and `B` the empty 1 x 3 matrix, both in valid compressed-column storage. The sum
delivered by `operator+` reads `2` at `(0,1)`, not `A(0,1) + B(0,1) = 1`. -/
theorem add_reads_wrong :
    CSC (of_storage 1 3 [(1 : Int), 2] [0, 0] [0, 0, 1, 2]) ∧
    CSC (of_storage 1 3 ([] : List Int) [] [0, 0, 0, 0]) ∧
    (of_storage 1 3 [(1 : Int), 2] [0, 0] [0, 0, 1, 2]).get 0 1 = .ok 1 ∧
    (of_storage 1 3 ([] : List Int) [] [0, 0, 0, 0]).get 0 1 = .ok 0 ∧
    ((of_storage 1 3 [(1 : Int), 2] [0, 0] [0, 0, 1, 2]).add
      (of_storage 1 3 [] [] [0, 0, 0, 0])).bind (fun C => C.get 0 1) = .ok 2 := by
  refine ⟨by decide, by decide, rfl, rfl, rfl⟩

/-- C4 (failing input). `A` is the 1 x 1 matrix with `A(0,0) = 1` and `B` the
empty 1 x 1 matrix. The difference delivered by `operator-` reads `-1` at
`(0,0)`, not `A(0,0) - B(0,0) = 1`: the accumulator starts from `0 - a`. -/
theorem sub_reads_wrong :
    CSC (of_storage 1 1 [(1 : Int)] [0] [0, 1]) ∧
    CSC (of_storage 1 1 ([] : List Int) [] [0, 0]) ∧
    (of_storage 1 1 [(1 : Int)] [0] [0, 1]).get 0 0 = .ok 1 ∧
    (of_storage 1 1 ([] : List Int) [] [0, 0]).get 0 0 = .ok 0 ∧
    ((of_storage 1 1 [(1 : Int)] [0] [0, 1]).sub
      (of_storage 1 1 [] [] [0, 0])).bind (fun C => C.get 0 0) = .ok (-1) := by
  refine ⟨by decide, by decide, rfl, rfl, rfl⟩

/-- C5 (failing input). `A` is the 2 x 2 identity and `B = [[0,2],[3,0]]`, both in
valid compressed-column storage. The product delivered by `operator*` has shape
2 x 2 but reads `0` at `(0,1)` and `2` at `(0,0)`, where the sums
`A(0,0)*B(0,1) + A(0,1)*B(1,1)` and `A(0,0)*B(0,0) + A(0,1)*B(1,0)` are `2` and `0`. -/
theorem mul_reads_wrong :
    CSC (of_storage 2 2 [(1 : Int), 1] [0, 1] [0, 1, 2]) ∧
    CSC (of_storage 2 2 [(3 : Int), 2] [1, 0] [0, 1, 2]) ∧
    (of_storage 2 2 [(1 : Int), 1] [0, 1] [0, 1, 2]).at 0 0 *
        (of_storage 2 2 [(3 : Int), 2] [1, 0] [0, 1, 2]).at 0 1 +
      (of_storage 2 2 [(1 : Int), 1] [0, 1] [0, 1, 2]).at 0 1 *
        (of_storage 2 2 [(3 : Int), 2] [1, 0] [0, 1, 2]).at 1 1 = 2 ∧
    (of_storage 2 2 [(1 : Int), 1] [0, 1] [0, 1, 2]).at 0 0 *
        (of_storage 2 2 [(3 : Int), 2] [1, 0] [0, 1, 2]).at 0 0 +
      (of_storage 2 2 [(1 : Int), 1] [0, 1] [0, 1, 2]).at 0 1 *
        (of_storage 2 2 [(3 : Int), 2] [1, 0] [0, 1, 2]).at 1 0 = 0 ∧
    (((of_storage 2 2 [(1 : Int), 1] [0, 1] [0, 1, 2]).mul
      (of_storage 2 2 [(3 : Int), 2] [1, 0] [0, 1, 2])).map
        (fun C => (C._n, C._m))) = .ok (2, 2) ∧
    ((of_storage 2 2 [(1 : Int), 1] [0, 1] [0, 1, 2]).mul
      (of_storage 2 2 [(3 : Int), 2] [1, 0] [0, 1, 2])).bind (fun C => C.get 0 1) = .ok 0 ∧
    ((of_storage 2 2 [(1 : Int), 1] [0, 1] [0, 1, 2]).mul
      (of_storage 2 2 [(3 : Int), 2] [1, 0] [0, 1, 2])).bind (fun C => C.get 0 0) = .ok 2 := by
  refine ⟨by decide, by decide, rfl, rfl, rfl, rfl, rfl⟩

/-- C6 (failing input). On the 2 x 1 matrix built by `addValue(1,0,5)`,
`addValue(0,0,7)`, `finalize()`, the element `(0,0)` reads `0`, while the same
element of `Transpose().Transpose()` reads `7`; the shape is kept. -/
theorem transpose_twice_reads_differently :
    (build 2 1 [(1, 0, (5 : Int)), (0, 0, 7)]).bind (fun A => A.get 0 0) = .ok 0 ∧
    (build 2 1 [(1, 0, (5 : Int)), (0, 0, 7)]).bind
      (fun A => A.Transpose.Transpose.get 0 0) = .ok 7 ∧
    (build 2 1 [(1, 0, (5 : Int)), (0, 0, 7)]).map
      (fun A => (A.Transpose.Transpose._n, A.Transpose.Transpose._m)) = .ok (2, 1) := by
  refine ⟨rfl, rfl, rfl⟩

/-! ## `PivotLU` -/

section PivotLU

variable {K : Type}

theorem DenseObj.get_set (A : DenseObj K) (i j : Nat) (v : K) (r c : Nat) :
    (A.set i j v).get r c = if r = i ∧ c = j then v else A.get r c := rfl

theorem DenseObj.get_swapRows (A : DenseObj K) (i j r c : Nat) :
    (A.swapRows i j).get r c =
      if r = i then A.get j c else if r = j then A.get i c else A.get r c := rfl

variable [LinearOrderedField K]

theorem PivotLU_inner_get (i j : Nat) (f : K) (hij : i ≠ j) :
    ∀ (len s : Nat) (B : DenseObj K) (r c : Nat),
      ((List.range' s len).foldl (fun A k =>
        setMatrixValue A i k (A.get i k - f * A.get j k)) B).get r c =
      if r = i ∧ s ≤ c ∧ c < s + len then B.get i c - f * B.get j c else B.get r c := by
  intro len
  induction len with
  | zero =>
    intro s B r c
    simp only [List.range'_zero, List.foldl_nil]
    rw [if_neg (by omega)]
  | succ len ih =>
    intro s B r c
    rw [List.range'_succ, List.foldl_cons, ih]
    simp only [setMatrixValue, DenseObj.get_set]
    by_cases hr : r = i
    · subst hr
      by_cases hc : c = s
      · subst hc
        have n1 : ¬ (r = r ∧ c + 1 ≤ c ∧ c < c + 1 + len) := by omega
        have n2 : r = r ∧ c ≤ c ∧ c < c + (len + 1) := ⟨rfl, by omega, by omega⟩
        rw [if_neg n1, if_pos n2]
        simp
      · by_cases hrange : s + 1 ≤ c ∧ c < s + 1 + len
        · have n1 : r = r ∧ s + 1 ≤ c ∧ c < s + 1 + len := ⟨rfl, hrange⟩
          have n2 : r = r ∧ s ≤ c ∧ c < s + (len + 1) := ⟨rfl, by omega, by omega⟩
          have n3 : ¬ (r = r ∧ c = s) := by omega
          have n4 : ¬ (j = r ∧ c = s) := by intro h; exact hij h.1.symm
          rw [if_pos n1, if_pos n2]
          simp [hc]
        · have n1 : ¬ (r = r ∧ s + 1 ≤ c ∧ c < s + 1 + len) := by omega
          have n2 : ¬ (r = r ∧ s ≤ c ∧ c < s + (len + 1)) := by omega
          rw [if_neg n1, if_neg n2]
          simp [hc]
    · have n1 : ¬ (r = i ∧ s + 1 ≤ c ∧ c < s + 1 + len) := by intro h; exact hr h.1
      have n2 : ¬ (r = i ∧ s ≤ c ∧ c < s + (len + 1)) := by intro h; exact hr h.1
      have n3 : ¬ (r = i ∧ c = s) := by intro h; exact hr h.1
      rw [if_neg n1, if_neg n2, if_neg n3]

theorem PivotLU_row_get (n j i : Nat) (hij : i ≠ j) (hj : j < n) (A : DenseObj K) (r c : Nat) :
    (PivotLU_row n j A i).get r c = if r = i then eliminated n j A i c else A.get r c := by
  unfold PivotLU_row
  simp only []
  rw [PivotLU_inner_get i j _ hij]
  simp only [setMatrixValue, DenseObj.get_set, eliminated]
  have e : j + 1 + (n - (j + 1)) = n := by omega
  rw [e]
  by_cases h1 : r = i
  · subst h1
    by_cases h2 : c = j
    · subst h2
      have n1 : ¬ (r = r ∧ c + 1 ≤ c ∧ c < n) := by omega
      rw [if_neg n1]
      simp
    · by_cases h3 : j + 1 ≤ c ∧ c < n
      · have n1 : r = r ∧ j + 1 ≤ c ∧ c < n := ⟨rfl, h3⟩
        have n2 : ¬ (r = r ∧ c = j) := by omega
        have n3 : ¬ (j = r ∧ c = j) := by omega
        rw [if_pos n1]
        simp [h2, h3]
      · have n1 : ¬ (r = r ∧ j + 1 ≤ c ∧ c < n) := by omega
        have n2 : ¬ (r = r ∧ c = j) := by omega
        rw [if_neg n1]
        simp [h2, h3]
  · have n1 : ¬ (r = i ∧ j + 1 ≤ c ∧ c < n) := by intro h; exact h1 h.1
    have n2 : ¬ (r = i ∧ c = j) := by intro h; exact h1 h.1
    rw [if_neg n1, if_neg n2, if_neg h1]

theorem PivotLU_rows_get (n j : Nat) (hj : j < n) :
    ∀ (len s : Nat) (B : DenseObj K) (r c : Nat), j < s →
      ((List.range' s len).foldl (PivotLU_row n j) B).get r c =
        if s ≤ r ∧ r < s + len then eliminated n j B r c else B.get r c := by
  intro len
  induction len with
  | zero =>
    intro s B r c _
    simp only [List.range'_zero, List.foldl_nil]
    rw [if_neg (by omega)]
  | succ len ih =>
    intro s B r c hs
    rw [List.range'_succ, List.foldl_cons, ih _ _ _ _ (by omega)]
    have g : ∀ r' c', r' ≠ s → (PivotLU_row n j B s).get r' c' = B.get r' c' := by
      intro r' c' h
      rw [PivotLU_row_get n j s (by omega) hj, if_neg h]
    by_cases h1 : s + 1 ≤ r ∧ r < s + 1 + len
    · have n2 : s ≤ r ∧ r < s + (len + 1) := by omega
      rw [if_pos h1, if_pos n2]
      unfold eliminated
      rw [g r j (by omega), g j j (by omega), g r c (by omega), g j c (by omega)]
    · rw [if_neg h1, PivotLU_row_get n j s (by omega) hj]
      by_cases h2 : r = s
      · have n2 : s ≤ r ∧ r < s + (len + 1) := by omega
        rw [if_pos h2, if_pos n2, h2]
      · have n2 : ¬ (s ≤ r ∧ r < s + (len + 1)) := by omega
        rw [if_neg h2, if_neg n2]

theorem PivotLU_pivot_range (A : DenseObj K) (n j : Nat) (hj : j < n) :
    j ≤ (PivotLU_pivot A n j).1 ∧ (PivotLU_pivot A n j).1 < n := by
  unfold PivotLU_pivot
  have key : ∀ (len s : Nat) (mx : Nat × K), j ≤ mx.1 → mx.1 < s → j < s →
      j ≤ ((List.range' s len).foldl (fun mx i =>
        if |A.get i j| > mx.2 then (i, |A.get i j|) else mx) mx).1 ∧
      ((List.range' s len).foldl (fun mx i =>
        if |A.get i j| > mx.2 then (i, |A.get i j|) else mx) mx).1 < s + len := by
    intro len
    induction len with
    | zero =>
      intro s mx h1 h2 _
      simp only [List.range'_zero, List.foldl_nil]
      omega
    | succ len ih =>
      intro s mx h1 h2 h3
      rw [List.range'_succ, List.foldl_cons]
      have e : s + (len + 1) = s + 1 + len := by omega
      rw [e]
      split
      · exact ih (s + 1) _ (by simp; omega) (by simp) (by omega)
      · exact ih (s + 1) _ h1 (by omega) (by omega)
  have := key (n - (j + 1)) (j + 1) (j, |A.get j j|) (le_refl _) (by simp) (by omega)
  have e : j + 1 + (n - (j + 1)) = n := by omega
  rw [e] at this
  exact this

end PivotLU

section PivotLU

variable {K : Type} [LinearOrderedField K]

theorem getD_range (n i : Nat) (h : i < n) : (List.range n).getD i 0 = i := by
  rw [getD_eq_getElem_of_lt _ _ _ (by simpa using h)]
  simp

theorem swap_entries_length (P : List Nat) (a b : Nat) :
    (swap_entries P a b).length = P.length := by
  simp [swap_entries]

theorem swap_entries_getD (P : List Nat) (a b i : Nat) (ha : a < P.length) (hb : b < P.length) :
    (swap_entries P a b).getD i 0 =
      P.getD (if i = b then a else if i = a then b else i) 0 := by
  unfold swap_entries
  rw [getD_set_eq, getD_set_eq, List.length_set]
  by_cases h1 : i = b
  · subst h1
    rw [if_pos ⟨rfl, hb⟩, if_pos rfl]
  · rw [if_neg (by omega), if_neg h1]
    by_cases h2 : i = a
    · subst h2
      rw [if_pos ⟨rfl, ha⟩, if_pos rfl]
    · rw [if_neg (by omega), if_neg h2]

theorem LUInv_start (n : Nat) (A0 : DenseObj K) : LUInv n A0 0 (A0, List.range n) where
  plen := by simp
  plt := by intro i hi; show (List.range n).getD i 0 < n; rw [getD_range n i hi]; exact hi
  pinj := by
    intro i i' hi hi' h
    have h' : (List.range n).getD i 0 = (List.range n).getD i' 0 := h
    rw [getD_range n i hi, getD_range n i' hi'] at h'
    exact h'
  eq := by
    intro i k hi _
    show A0.get ((List.range n).getD i 0) k = _
    rw [getD_range n i hi]
    simp

theorem LUInv.swap {n : Nat} {A0 : DenseObj K} {j : Nat} {st : DenseObj K × List Nat}
    (h : LUInv n A0 j st) (mi : Nat) (hj : j < n) (h1 : j ≤ mi) (h2 : mi < n) :
    LUInv n A0 j (st.1.swapRows j mi, swap_entries st.2 j mi) := by
  have hP : ∀ i, (swap_entries st.2 j mi).getD i 0 =
      st.2.getD (if i = mi then j else if i = j then mi else i) 0 := by
    intro i
    exact swap_entries_getD st.2 j mi i (by rw [h.plen]; exact hj) (by rw [h.plen]; exact h2)
  have hσ : ∀ i, i < n → (if i = mi then j else if i = j then mi else i) < n := by
    intro i hi
    split
    · exact hj
    · split
      · exact h2
      · exact hi
  constructor
  · show (swap_entries st.2 j mi).length = n
    rw [swap_entries_length]; exact h.plen
  · intro i hi
    show (swap_entries st.2 j mi).getD i 0 < n
    rw [hP]
    exact h.plt _ (hσ i hi)
  · intro i i' hi hi' e
    have e' : (swap_entries st.2 j mi).getD i 0 = (swap_entries st.2 j mi).getD i' 0 := e
    rw [hP, hP] at e'
    have := h.pinj _ _ (hσ i hi) (hσ i' hi') e'
    split_ifs at this <;> omega
  · intro i k hi hk
    show A0.get ((swap_entries st.2 j mi).getD i 0) k =
      (Finset.sum (Finset.range (min i j)) fun t =>
        if t ≤ k then (st.1.swapRows j mi).get i t * (st.1.swapRows j mi).get t k else 0) +
      (if min i j ≤ k then (st.1.swapRows j mi).get i k else 0)
    rw [hP, h.eq _ k (hσ i hi) hk]
    have hmin : min (if i = mi then j else if i = j then mi else i) j = min i j := by
      split_ifs <;> omega
    have hrow : ∀ c, (st.1.swapRows j mi).get i c =
        st.1.get (if i = mi then j else if i = j then mi else i) c := by
      intro c
      rw [DenseObj.get_swapRows]
      by_cases a : i = j
      · subst a
        by_cases b : i = mi
        · subst b; simp
        · simp [b]
      · by_cases b : i = mi
        · subst b; simp [a]
        · simp [a, b]
    rw [hmin]
    congr 1
    · apply Finset.sum_congr rfl
      intro t ht
      have ht' : t < j := by
        have := Finset.mem_range.mp ht
        omega
      rw [hrow t]
      have : (st.1.swapRows j mi).get t k = st.1.get t k := by
        rw [DenseObj.get_swapRows, if_neg (by omega), if_neg (by omega)]
      rw [this]
    · rw [hrow k]

theorem LUInv.eliminate {n : Nat} {A0 : DenseObj K} {j : Nat} {st : DenseObj K × List Nat}
    (h : LUInv n A0 j st) (hj : j < n) (hp : st.1.get j j ≠ 0) :
    LUInv n A0 (j + 1)
      ((List.range' (j + 1) (n - (j + 1))).foldl (PivotLU_row n j) st.1, st.2) := by
  have hE : ∀ r c, ((List.range' (j + 1) (n - (j + 1))).foldl (PivotLU_row n j) st.1).get r c =
      if j + 1 ≤ r ∧ r < n then eliminated n j st.1 r c else st.1.get r c := by
    intro r c
    rw [PivotLU_rows_get n j hj _ _ _ _ _ (by omega)]
    have e : j + 1 + (n - (j + 1)) = n := by omega
    rw [e]
  generalize (List.range' (j + 1) (n - (j + 1))).foldl (PivotLU_row n j) st.1 = E at hE ⊢
  have hlow : ∀ r c, r ≤ j → E.get r c = st.1.get r c := by
    intro r c hr
    rw [hE r c, if_neg (by omega)]
  have hleft : ∀ r c, c < j → E.get r c = st.1.get r c := by
    intro r c hc
    rw [hE r c]
    unfold eliminated
    split
    · rw [if_neg (show ¬ c = j by omega), if_neg (show ¬ (j + 1 ≤ c ∧ c < n) by omega)]
    · rfl
  have hcol : ∀ r, j < r → r < n → E.get r j = st.1.get r j / st.1.get j j := by
    intro r h1 h2
    rw [hE r j, if_pos (show j + 1 ≤ r ∧ r < n from ⟨h1, h2⟩)]
    unfold eliminated
    rw [if_pos rfl]
  have hright : ∀ r c, j < r → r < n → j < c → c < n →
      E.get r c = st.1.get r c - st.1.get r j / st.1.get j j * st.1.get j c := by
    intro r c h1 h2 h3 h4
    rw [hE r c, if_pos (show j + 1 ≤ r ∧ r < n from ⟨h1, h2⟩)]
    unfold eliminated
    rw [if_neg (show ¬ c = j by omega), if_pos (show j + 1 ≤ c ∧ c < n from ⟨h3, h4⟩)]
  refine ⟨h.plen, h.plt, h.pinj, ?_⟩
  intro i k hi hk
  show A0.get (st.2.getD i 0) k =
    (Finset.sum (Finset.range (min i (j + 1))) fun t =>
      if t ≤ k then E.get i t * E.get t k else 0) +
    (if min i (j + 1) ≤ k then E.get i k else 0)
  rw [h.eq i k hi hk]
  by_cases hij : i ≤ j
  · have m1 : min i (j + 1) = i := by omega
    have m2 : min i j = i := by omega
    rw [m1, m2, hlow i k hij]
    congr 1
    apply Finset.sum_congr rfl
    intro t ht
    have ht' : t < i := Finset.mem_range.mp ht
    rw [hlow i t hij, hlow t k (by omega)]
  · have m1 : min i (j + 1) = j + 1 := by omega
    have m2 : min i j = j := by omega
    rw [m1, m2, Finset.sum_range_succ]
    have hsum : (Finset.sum (Finset.range j) fun t =>
        if t ≤ k then E.get i t * E.get t k else 0) =
        (Finset.sum (Finset.range j) fun t =>
          if t ≤ k then st.1.get i t * st.1.get t k else 0) := by
      apply Finset.sum_congr rfl
      intro t ht
      have ht' : t < j := Finset.mem_range.mp ht
      rw [hleft i t ht', hlow t k (by omega)]
    rw [hsum, hcol i (by omega) hi, hlow j k (le_refl _), add_assoc]
    congr 1
    by_cases c1 : k < j
    · rw [if_neg (show ¬ j ≤ k by omega), if_neg (show ¬ j ≤ k by omega),
        if_neg (show ¬ j + 1 ≤ k by omega)]
      simp
    · by_cases c2 : k = j
      · subst c2
        rw [if_pos (le_refl k), if_pos (le_refl k), if_neg (show ¬ k + 1 ≤ k by omega)]
        rw [div_mul_cancel₀ _ hp]
        simp
      · rw [if_pos (show j ≤ k by omega), if_pos (show j ≤ k by omega),
          if_pos (show j + 1 ≤ k by omega), hright i k (by omega) hi (by omega) hk]
        ring

end PivotLU

section PivotLU

variable {K : Type} [LinearOrderedField K]

theorem PivotLU_column_inv {n : Nat} {A0 : DenseObj K} {j : Nat} {st st' : DenseObj K × List Nat}
    (h : LUInv n A0 j st) (hj : j < n) (hc : PivotLU_column n st j = .ok st') :
    LUInv n A0 (j + 1) st' := by
  unfold PivotLU_column at hc
  simp only [] at hc
  have hmi := PivotLU_pivot_range st.1 n j hj
  have h1 : LUInv n A0 j (if (PivotLU_pivot st.1 n j).1 ≠ j then
      (st.1.swapRows j (PivotLU_pivot st.1 n j).1,
        swap_entries st.2 j (PivotLU_pivot st.1 n j).1) else st) := by
    split
    · exact h.swap _ hj hmi.1 hmi.2
    · exact h
  generalize (if (PivotLU_pivot st.1 n j).1 ≠ j then
      (st.1.swapRows j (PivotLU_pivot st.1 n j).1,
        swap_entries st.2 j (PivotLU_pivot st.1 n j).1) else st) = st1 at hc h1
  by_cases hs : |st1.1.get j j| < 1 / 10 ^ 12
  · rw [if_pos hs] at hc
    cases hc
  · rw [if_neg hs] at hc
    have hne : st1.1.get j j ≠ 0 := by
      intro h0
      apply hs
      rw [h0, abs_zero]
      positivity
    have := h1.eliminate hj hne
    injection hc with hc
    rw [← hc]
    exact this

theorem PivotLU_fold_inv (n : Nat) (A0 : DenseObj K) :
    ∀ j, j ≤ n → ∀ st, (List.range j).foldlM (PivotLU_column n) (A0, List.range n) = .ok st →
      LUInv n A0 j st := by
  intro j
  induction j with
  | zero =>
    intro _ st h
    simp only [List.range_zero, List.foldlM_nil] at h
    injection h with h
    rw [← h]
    exact LUInv_start n A0
  | succ j ih =>
    intro hj st h
    rw [List.range_succ, List.foldlM_append] at h
    cases hprev : (List.range j).foldlM (PivotLU_column n) (A0, List.range n) with
    | error e =>
      rw [hprev] at h
      cases h
    | ok s =>
      rw [hprev] at h
      have hcol : PivotLU_column n s j = .ok st := by
        simp only [List.foldlM_cons, List.foldlM_nil] at h
        cases hc : PivotLU_column n s j with
        | error e =>
          rw [show (Except.ok s >>= fun b => PivotLU_column n b j >>= fun b => pure b) =
            (PivotLU_column n s j >>= fun b => pure b) from rfl, hc] at h
          cases h
        | ok s' =>
          rw [show (Except.ok s >>= fun b => PivotLU_column n b j >>= fun b => pure b) =
            (PivotLU_column n s j >>= fun b => pure b) from rfl, hc] at h
          exact h
      exact PivotLU_column_inv (ih (by omega) s hprev) (by omega) hcol

theorem perm_range_of_injective (P : List Nat) (n : Nat) (h1 : P.length = n)
    (h2 : ∀ i, i < n → P.getD i 0 < n)
    (h3 : ∀ i i', i < n → i' < n → P.getD i 0 = P.getD i' 0 → i = i') :
    P.Perm (List.range n) := by
  have hnd : P.Nodup := by
    rw [List.nodup_iff_injective_getElem]
    intro a b hab
    have ha : a.1 < n := by rw [← h1]; exact a.2
    have hb : b.1 < n := by rw [← h1]; exact b.2
    have := h3 a.1 b.1 ha hb (by
      rw [getD_eq_getElem_of_lt P a.1 0 a.2, getD_eq_getElem_of_lt P b.1 0 b.2]
      exact hab)
    exact Fin.ext this
  have hsub : P ⊆ List.range n := by
    intro x hx
    obtain ⟨k, hk, e⟩ := exists_getD_of_mem 0 hx
    rw [List.mem_range, ← e]
    exact h2 k (by omega)
  exact (List.subperm_of_subset hnd hsub).perm_of_length_le (by simp [h1])

/-- C9. Whenever `PivotLU(A, P)` returns normally on a dense matrix `A` (which is
then square, of size `n`), the returned `P` is a permutation of `0 .. n - 1` and,
with `L` the strictly lower part of the stored matrix with unit diagonal and `U`
its diagonal and upper part, `(L * U)(i, k)` equals the original `A(P[i], k)` for
all `i, k < n`. -/
theorem PivotLU_identity (A : DenseObj K) (r : DenseObj K × List Nat)
    (h : PivotLU A = .ok r) :
    A.getRows = A.getCols ∧ r.2.Perm (List.range A.getRows) ∧
    ∀ i k, i < A.getRows → k < A.getRows →
      (Finset.sum (Finset.range A.getRows) fun t => lower_unit r.1 i t * upper r.1 t k) =
        A.get (r.2.getD i 0) k := by
  unfold PivotLU at h
  by_cases hsq : A.getRows ≠ A.getCols
  · rw [if_pos hsq] at h
    cases h
  · rw [if_neg hsq] at h
    have inv := PivotLU_fold_inv A.getRows A A.getRows (le_refl _) r h
    refine ⟨not_not.mp hsq, perm_range_of_injective _ _ inv.plen inv.plt inv.pinj, ?_⟩
    intro i k hi hk
    rw [inv.eq i k hi hk]
    have m : min i A.getRows = i := by omega
    rw [m]
    have hsub : (Finset.sum (Finset.range A.getRows) fun t =>
        lower_unit r.1 i t * upper r.1 t k) =
        (Finset.sum (Finset.range (i + 1)) fun t => lower_unit r.1 i t * upper r.1 t k) := by
      symm
      apply Finset.sum_subset
      · intro t ht
        rw [Finset.mem_range] at ht ⊢
        omega
      · intro t _ hnot
        rw [Finset.mem_range] at hnot
        unfold lower_unit
        rw [if_neg (show ¬ t < i by omega), if_neg (show ¬ t = i by omega)]
        simp
    rw [hsub, Finset.sum_range_succ]
    congr 1
    · apply Finset.sum_congr rfl
      intro t ht
      have ht' : t < i := Finset.mem_range.mp ht
      unfold lower_unit upper
      rw [if_pos ht']
      split
      · rfl
      · simp
    · unfold lower_unit upper
      rw [if_neg (show ¬ i < i by omega), if_pos rfl, one_mul]

end PivotLU

/-- Instance of `PivotLU_identity`: on `A = [[2,1,1],[4,3,3],[8,7,9]]` the call
returns normally with `P = [2,0,1]` and the stored matrix
`[[8,7,9],[1/4,-3/4,-5/4],[1/2,2/3,-2/3]]`, and `L * U` is the permuted `A`. -/
theorem PivotLU_identity_witness :
    ∃ r, PivotLU (DenseObj.of_rows 3 3 [[(2 : ℚ), 1, 1], [4, 3, 3], [8, 7, 9]]) = .ok r ∧
      (r.2 = [2, 0, 1] ∧
        (List.range 3).map (fun i => (List.range 3).map (fun j => r.1.get i j)) =
          [[8, 7, 9], [1 / 4, -3 / 4, -5 / 4], [1 / 2, 2 / 3, -2 / 3]]) ∧
      ((DenseObj.of_rows 3 3 [[(2 : ℚ), 1, 1], [4, 3, 3], [8, 7, 9]]).getRows =
          (DenseObj.of_rows 3 3 [[(2 : ℚ), 1, 1], [4, 3, 3], [8, 7, 9]]).getCols ∧
        r.2.Perm (List.range
          (DenseObj.of_rows 3 3 [[(2 : ℚ), 1, 1], [4, 3, 3], [8, 7, 9]]).getRows) ∧
        ∀ i k, i < (DenseObj.of_rows 3 3 [[(2 : ℚ), 1, 1], [4, 3, 3], [8, 7, 9]]).getRows →
          k < (DenseObj.of_rows 3 3 [[(2 : ℚ), 1, 1], [4, 3, 3], [8, 7, 9]]).getRows →
          (Finset.sum (Finset.range
              (DenseObj.of_rows 3 3 [[(2 : ℚ), 1, 1], [4, 3, 3], [8, 7, 9]]).getRows)
            fun t => lower_unit r.1 i t * upper r.1 t k) =
            (DenseObj.of_rows 3 3 [[(2 : ℚ), 1, 1], [4, 3, 3], [8, 7, 9]]).get
              (r.2.getD i 0) k) := by
  have hev : ∃ r, PivotLU (DenseObj.of_rows 3 3 [[(2 : ℚ), 1, 1], [4, 3, 3], [8, 7, 9]]) = .ok r ∧
      r.2 = [2, 0, 1] ∧
      (List.range 3).map (fun i => (List.range 3).map (fun j => r.1.get i j)) =
        [[8, 7, 9], [1 / 4, -3 / 4, -5 / 4], [1 / 2, 2 / 3, -2 / 3]] := by
    have e3 : List.range 3 = [0, 1, 2] := rfl
    norm_num [PivotLU, PivotLU_column, PivotLU_pivot, PivotLU_row, DenseObj.of_rows,
      DenseObj.get, DenseObj.getRows, DenseObj.getCols, DenseObj.set, DenseObj.swapRows,
      setMatrixValue, swap_entries, e3, List.range', List.foldlM, bind, Except.bind, pure,
      Except.pure, abs_div, abs_neg, abs_one]
  obtain ⟨r, hr, h1, h2⟩ := hev
  exact ⟨r, hr, ⟨h1, h2⟩, PivotLU_identity _ r hr⟩

section Cholesky

variable {K : Type} [LinearOrderedField K]

theorem foldl_add_eq_sum (f : Nat → K) : ∀ j,
    (List.range j).foldl (fun sum k => sum + f k) 0 = Finset.sum (Finset.range j) f := by
  intro j
  induction j with
  | zero => simp
  | succ j ih =>
    rw [List.range_succ, List.foldl_append, ih, Finset.sum_range_succ]
    rfl

end Cholesky

theorem symmetric_two (a b c : ℝ) : symmetric 2 (DenseObj.of_rows 2 2 [[a, b], [b, c]]) := by
  intro i j hi hj
  interval_cases i <;> interval_cases j <;> simp [DenseObj.of_rows, DenseObj.get]

theorem quad_form_two (a b c d : ℝ) (x : Nat → ℝ) :
    quad_form 2 (DenseObj.of_rows 2 2 [[a, b], [c, d]]).get x =
      x 0 * a * x 0 + x 0 * b * x 1 + (x 1 * c * x 0 + x 1 * d * x 1) := by
  simp [quad_form, Finset.sum_range_succ, DenseObj.of_rows, DenseObj.get]


/-! ## `Substitution` -/

section Substitution

variable {K : Type} [LinearOrderedField K]

theorem foldl_add_eq_list_sum (f : Nat → K) : ∀ (l : List Nat) (a : K),
    l.foldl (fun sum j => sum + f j) a = a + (l.map f).sum := by
  intro l
  induction l with
  | nil => intro a; simp
  | cons x xs ih =>
    intro a
    rw [List.foldl_cons, ih, List.map_cons, List.sum_cons, add_assoc]

theorem sum_map_range' (f : Nat → K) : ∀ (len s : Nat),
    ((List.range' s len).map f).sum = Finset.sum (Finset.Ico s (s + len)) f := by
  intro len
  induction len with
  | zero => intro s; simp
  | succ len ih =>
    intro s
    have e : s + 1 + len = s + (len + 1) := by omega
    rw [List.range'_succ, List.map_cons, List.sum_cons, ih (s + 1), e,
      Finset.sum_eq_sum_Ico_succ_bot (show s < s + (len + 1) by omega)]

theorem foldl_reverse_range' (f : Nat → K) (s len : Nat) :
    (List.range' s len).reverse.foldl (fun sum j => sum + f j) 0 =
      Finset.sum (Finset.Ico s (s + len)) f := by
  rw [foldl_add_eq_list_sum, zero_add, List.map_reverse, List.sum_reverse, sum_map_range']

theorem Substitution_forward_loop (b : List K) (L : DenseObj K) (n : Nat)
    (hd : ∀ i, i < n → L.get i i ≠ 0) :
    ∀ m, m ≤ n → ∃ x,
      (List.range m).foldlM (Substitution_row b L true n) (List.replicate n 0) = .ok x ∧
      x.length = n ∧
      ∀ i, i < m →
        (Finset.sum (Finset.range i) fun j => L.get i j * x.getD j 0) +
          L.get i i * x.getD i 0 = b.getD i 0 := by
  intro m
  induction m with
  | zero =>
    intro _
    exact ⟨List.replicate n 0, rfl, by simp, by intro i hi; omega⟩
  | succ m ih =>
    intro hm
    obtain ⟨x, hx, hlen, hrows⟩ := ih (by omega)
    have hdm := hd m (by omega)
    refine ⟨x.set m ((b.getD m 0 -
      Finset.sum (Finset.range m) fun j => L.get m j * x.getD j 0) / L.get m m), ?_, ?_, ?_⟩
    · rw [List.range_succ, List.foldlM_append, hx]
      show (Substitution_row b L true n x m >>= fun x => pure x) = _
      unfold Substitution_row
      simp only [if_true]
      rw [if_neg hdm, foldl_add_eq_sum (fun j => L.get m j * x.getD j 0)]
      rfl
    · rw [List.length_set]; exact hlen
    · intro i hi
      have hsame : ∀ j, j ≠ m → (x.set m ((b.getD m 0 -
          Finset.sum (Finset.range m) fun j => L.get m j * x.getD j 0) / L.get m m)).getD j 0
          = x.getD j 0 := by
        intro j hj
        rw [getD_set_eq, if_neg (by intro h; exact hj h.1.symm)]
      have hsum : ∀ i', i' ≤ m →
          (Finset.sum (Finset.range i') fun j => L.get i' j * (x.set m ((b.getD m 0 -
            Finset.sum (Finset.range m) fun j => L.get m j * x.getD j 0) / L.get m m)).getD j 0)
          = Finset.sum (Finset.range i') fun j => L.get i' j * x.getD j 0 := by
        intro i' hi'
        apply Finset.sum_congr rfl
        intro j hj
        have : j < i' := Finset.mem_range.mp hj
        rw [hsame j (by omega)]
      rw [hsum i (by omega)]
      by_cases him : i = m
      · subst him
        rw [getD_set_eq, if_pos ⟨rfl, by omega⟩]
        field_simp
      · rw [hsame i him]
        exact hrows i (by omega)

theorem Substitution_backward_loop (b : List K) (U : DenseObj K) (n : Nat)
    (hd : ∀ i, i < n → U.get i i ≠ 0) :
    ∀ m, m ≤ n → ∀ x : List K, x.length = n →
      (∀ i, m ≤ i → i < n →
        U.get i i * x.getD i 0 +
          (Finset.sum (Finset.Ico (i + 1) n) fun j => U.get i j * x.getD j 0) = b.getD i 0) →
      ∃ x', (List.range m).reverse.foldlM (Substitution_row b U false n) x = .ok x' ∧
        x'.length = n ∧
        ∀ i, i < n →
          U.get i i * x'.getD i 0 +
            (Finset.sum (Finset.Ico (i + 1) n) fun j => U.get i j * x'.getD j 0) = b.getD i 0 := by
  intro m
  induction m with
  | zero =>
    intro _ x hlen hrows
    exact ⟨x, rfl, hlen, fun i hi => hrows i (by omega) hi⟩
  | succ m ih =>
    intro hm x hlen hrows
    have hdm := hd m (by omega)
    rw [List.range_succ, List.reverse_append, List.reverse_singleton, List.singleton_append,
      List.foldlM_cons]
    have hstep : Substitution_row b U false n x m = .ok (x.set m ((b.getD m 0 -
        Finset.sum (Finset.Ico (m + 1) n) fun j => U.get m j * x.getD j 0) / U.get m m)) := by
      unfold Substitution_row
      simp only [Bool.false_eq_true, if_false]
      rw [if_neg hdm, foldl_reverse_range' (fun j => U.get m j * x.getD j 0)]
      have e : m + 1 + (n - (m + 1)) = n := by omega
      rw [e]
    rw [hstep]
    have hsame : ∀ j, j ≠ m → (x.set m ((b.getD m 0 -
        Finset.sum (Finset.Ico (m + 1) n) fun j => U.get m j * x.getD j 0) / U.get m m)).getD j 0
        = x.getD j 0 := by
      intro j hj
      rw [getD_set_eq, if_neg (by intro h; exact hj h.1.symm)]
    have hsum : ∀ i', m ≤ i' →
        (Finset.sum (Finset.Ico (i' + 1) n) fun j => U.get i' j * (x.set m ((b.getD m 0 -
          Finset.sum (Finset.Ico (m + 1) n) fun j => U.get m j * x.getD j 0) / U.get m m)).getD j 0)
        = Finset.sum (Finset.Ico (i' + 1) n) fun j => U.get i' j * x.getD j 0 := by
      intro i' hi'
      apply Finset.sum_congr rfl
      intro j hj
      have : i' + 1 ≤ j := (Finset.mem_Ico.mp hj).1
      rw [hsame j (by omega)]
    exact ih (by omega) _ (by rw [List.length_set]; exact hlen) (by
      intro i hmi hin
      rw [hsum i hmi]
      by_cases him : i = m
      · subst him
        rw [getD_set_eq, if_pos ⟨rfl, by omega⟩]
        field_simp
      · rw [hsame i him]
        exact hrows i (by omega) hin)

/-- C14. For every `n`, every lower-triangular `n x n` matrix `L` with non-zero
diagonal and every `b` of length `n`, `Substitution(b, L, true)` returns a vector
`x` of length `n` with `L * x = b`; and for every upper-triangular `U` with
non-zero diagonal, `Substitution(b, U, false)` returns `x` with `U * x = b`. -/
theorem Substitution_solves (n : Nat) (b : List K) (hb : b.length = n) :
    (∀ L : DenseObj K, (∀ i j, i < n → j < n → i < j → L.get i j = 0) →
      (∀ i, i < n → L.get i i ≠ 0) →
      ∃ x, Substitution b L true = .ok x ∧ x.length = n ∧
        ∀ i, i < n → mat_vec n L x i = b.getD i 0) ∧
    (∀ U : DenseObj K, (∀ i j, i < n → j < n → j < i → U.get i j = 0) →
      (∀ i, i < n → U.get i i ≠ 0) →
      ∃ x, Substitution b U false = .ok x ∧ x.length = n ∧
        ∀ i, i < n → mat_vec n U x i = b.getD i 0) := by
  constructor
  · intro L htri hd
    obtain ⟨x, hx, hlen, hrows⟩ := Substitution_forward_loop b L n hd n (le_refl _)
    refine ⟨x, ?_, hlen, ?_⟩
    · unfold Substitution
      simp only [if_true]
      rw [hb]
      exact hx
    · intro i hi
      unfold mat_vec
      rw [← hrows i hi, ← Finset.sum_range_succ (fun j => L.get i j * x.getD j 0) i]
      symm
      apply Finset.sum_subset
      · intro j hj
        rw [Finset.mem_range] at hj ⊢
        omega
      · intro j hj hnot
        rw [Finset.mem_range] at hj hnot
        rw [htri i j hi hj (by omega), zero_mul]
  · intro U htri hd
    obtain ⟨x, hx, hlen, hrows⟩ := Substitution_backward_loop b U n hd n (le_refl _)
      (List.replicate n 0) (by simp) (by intro i h1 h2; omega)
    refine ⟨x, ?_, hlen, ?_⟩
    · unfold Substitution
      simp only [Bool.false_eq_true, if_false]
      rw [hb]
      exact hx
    · intro i hi
      unfold mat_vec
      rw [← hrows i hi, ← Finset.sum_range_add_sum_Ico _ (show i + 1 ≤ n by omega),
        Finset.sum_range_succ]
      have hz : (Finset.sum (Finset.range i) fun j => U.get i j * x.getD j 0) = 0 := by
        apply Finset.sum_eq_zero
        intro j hj
        have hj' : j < i := Finset.mem_range.mp hj
        rw [htri i j hi (by omega) hj', zero_mul]
      rw [hz, zero_add]

end Substitution

theorem Substitution_solves_witness :
    (∃ x, Substitution ([2, 3] : List ℚ) ⟨2, 2, fun i j => if j ≤ i then 1 else 0⟩ true = .ok x ∧
      x.length = 2 ∧
      ∀ i, i < 2 → mat_vec 2 (⟨2, 2, fun i j => if j ≤ i then 1 else 0⟩ : DenseObj ℚ) x i
        = ([2, 3] : List ℚ).getD i 0) ∧
    (∃ x, Substitution ([2, 3] : List ℚ) ⟨2, 2, fun i j => if i ≤ j then 1 else 0⟩ false = .ok x ∧
      x.length = 2 ∧
      ∀ i, i < 2 → mat_vec 2 (⟨2, 2, fun i j => if i ≤ j then 1 else 0⟩ : DenseObj ℚ) x i
        = ([2, 3] : List ℚ).getD i 0) :=
  ⟨(Substitution_solves 2 ([2, 3] : List ℚ) rfl).1 ⟨2, 2, fun i j => if j ≤ i then 1 else 0⟩
      (by intro i j _ _ h; simp [DenseObj.get]; omega)
      (by intro i _; simp [DenseObj.get]),
    (Substitution_solves 2 ([2, 3] : List ℚ) rfl).2 ⟨2, 2, fun i j => if i ≤ j then 1 else 0⟩
      (by intro i j _ _ h; simp [DenseObj.get]; omega)
      (by intro i _; simp [DenseObj.get])⟩

/-! ## `rayleighQuotient` -/

section Rayleigh

variable {K : Type} [LinearOrderedField K]

theorem dot_vscale (s : K) : ∀ u v : List K, dot u (vscale v s) = dot u v * s := by
  intro u
  induction u with
  | nil => intro v; simp [dot]
  | cons a u ih =>
    intro v
    cases v with
    | nil => simp [dot, vscale]
    | cons c v =>
      have h := ih v
      unfold dot vscale at h ⊢
      simp only [List.map_cons, List.zipWith_cons_cons, List.sum_cons]
      rw [h]
      ring

end Rayleigh

/-- C16. For every square `n x n` matrix `A` and vector `b` of length `n`,
`rayleighQuotient(A, b)` raises a runtime error if and only if `L2norm(b)` is
smaller than the machine epsilon, and otherwise returns `(b . (A * b)) / (b . b)`;
hence for `b` with `A * b = lambda * b` and norm at least epsilon it returns
`lambda`. -/
theorem rayleighQuotient_spec (eps : ℝ) (heps : 0 < eps) (n : Nat) (A : DenseObj ℝ)
    (b : List ℝ) (hr : A.getRows = n) (hc : A.getCols = n) (hb : b.length = n) :
    ((∃ what, rayleighQuotient Real.sqrt eps A b = .error (.runtime_error what)) ↔
      L2norm Real.sqrt b < eps) ∧
    (¬ L2norm Real.sqrt b < eps →
      rayleighQuotient Real.sqrt eps A b = .ok (dot b (A.mulVec b) / dot b b)) ∧
    (∀ lambda : ℝ, A.mulVec b = vscale b lambda → eps ≤ L2norm Real.sqrt b →
      rayleighQuotient Real.sqrt eps A b = .ok lambda) := by
  have h1 : ¬ A.getRows ≠ A.getCols := by rw [hr, hc]; exact fun h => h rfl
  have h2 : ¬ b.length ≠ A.getCols := by rw [hb, hc]; exact fun h => h rfl
  have hval : ¬ L2norm Real.sqrt b < eps →
      rayleighQuotient Real.sqrt eps A b = .ok (dot b (A.mulVec b) / dot b b) := by
    intro h
    unfold rayleighQuotient
    rw [if_neg h1, if_neg h2, if_neg h]
  refine ⟨⟨?_, ?_⟩, hval, ?_⟩
  · rintro ⟨what, hw⟩
    by_contra h
    rw [hval h] at hw
    cases hw
  · intro h
    refine ⟨"Vector norm is too close to zero", ?_⟩
    unfold rayleighQuotient
    rw [if_neg h1, if_neg h2, if_pos h]
  · intro lambda hev hnorm
    rw [hval (not_lt.mpr hnorm), hev, dot_vscale]
    have hpos : 0 < Real.sqrt (dot b b) := lt_of_lt_of_le heps hnorm
    have hne : dot b b ≠ 0 := ne_of_gt (Real.sqrt_pos.mp hpos)
    congr 1
    field_simp

theorem rayleighQuotient_spec_witness :
    (0 : ℝ) < 1 / 2 ^ 52 ∧
    rayleighQuotient Real.sqrt (1 / 2 ^ 52) (⟨1, 1, fun _ _ => 2⟩ : DenseObj ℝ) [1] = .ok 2 :=
  ⟨by norm_num,
    (rayleighQuotient_spec (1 / 2 ^ 52) (by norm_num) 1 ⟨1, 1, fun _ _ => 2⟩ [1]
      rfl rfl rfl).2.2 2
      (by simp [DenseObj.mulVec, vscale, DenseObj.get])
      (by
        have h : L2norm Real.sqrt ([1] : List ℝ) = 1 := by simp [L2norm, dot]
        rw [h]
        norm_num)⟩

/-! ## `RungeKutta::solve` -/

namespace RungeKutta

section Solve

variable {K : Type} [LinearOrderedField K]

theorem vscale_eq_map_mul (v : List K) (s : K) : vscale v s = v.map (fun a => s * a) := by
  unfold vscale
  apply List.map_congr_left
  intro a _
  exact mul_comm a s

theorem solve_step_eq_rk4_map (f : List K → List K) (h : K) (y : List K) :
    solve_step f h y = rk4_map f h y := by
  unfold solve_step rk4_map
  simp only [vscale_eq_map_mul]
  have e1 : h * (1 / 2 : K) = h / 2 := by ring
  have e2 : h * (1 / 6 : K) = h / 6 := by ring
  rw [e1, e2]

omit [LinearOrderedField K] in
theorem foldl_range_eq_iterate (g : List K → List K) : ∀ (n : Nat) (y : List K),
    (List.range n).foldl (fun y _ => g y) y = g^[n] y := by
  intro n
  induction n with
  | zero => intro y; rfl
  | succ n ih =>
    intro y
    rw [List.range_succ, List.foldl_append, ih, Function.iterate_succ_apply']
    rfl

theorem solve_eq_iterate (y : List K) (f : List K → List K) (h : K) (n : Nat)
    (hy : y ≠ []) (hh : 0 < h) (hn : 1 ≤ n) :
    solve y f h n = .ok ((rk4_map f h)^[n] y) := by
  have h1 : ¬ y.length = 0 := fun e => hy (List.length_eq_zero.mp e)
  have h2 : ¬ h ≤ 0 := not_le.mpr hh
  have h3 : ¬ n = 0 := by omega
  unfold solve validateParameters
  rw [if_neg h1, if_neg h2, if_neg h3]
  show Except.ok _ = _
  rw [foldl_range_eq_iterate]
  have e : solve_step f h = rk4_map f h := funext (solve_step_eq_rk4_map f h)
  rw [e]

theorem zipWith_add_map (g1 g2 : K → K) : ∀ y : List K,
    vadd (y.map g1) (y.map g2) = y.map (fun a => g1 a + g2 a) := by
  intro y
  induction y with
  | nil => rfl
  | cons a y ih =>
    unfold vadd at ih ⊢
    simp only [List.map_cons, List.zipWith_cons_cons]
    rw [ih]

theorem vadd_self_map (g : K → K) (y : List K) :
    vadd y (y.map g) = y.map (fun a => a + g a) := by
  have h := zipWith_add_map (fun a => a) g y
  rw [List.map_id'] at h
  exact h

theorem rk4_map_decay (h : K) (y : List K) :
    rk4_map (fun v => vscale v (-1)) h y =
      vscale y (1 - h + h ^ 2 / 2 - h ^ 3 / 6 + h ^ 4 / 24) := by
  unfold rk4_map vscale
  simp only [List.map_map, vadd_self_map, zipWith_add_map]
  apply List.map_congr_left
  intro a _
  simp only [Function.comp]
  ring

theorem rk4_map_decay_iterate (h : K) (c : K) : ∀ n : Nat,
    (rk4_map (fun v => vscale v (-1)) h)^[n] [c] =
      [c * (1 - h + h ^ 2 / 2 - h ^ 3 / 6 + h ^ 4 / 24) ^ n] := by
  intro n
  induction n with
  | zero => simp
  | succ n ih =>
    rw [Function.iterate_succ_apply', ih, rk4_map_decay]
    simp only [vscale, List.map_cons, List.map_nil]
    congr 1
    ring

end Solve

theorem rk4_decay_bound :
    |(1 : ℝ) * (1 - 1 / 100 + (1 / 100) ^ 2 / 2 - (1 / 100) ^ 3 / 6 + (1 / 100) ^ 4 / 24) ^ 100
      - Real.exp (-1)| < 1 / 10 ^ 6 := by
  have hlo := Real.exp_one_gt_d9
  have hhi := Real.exp_one_lt_d9
  have hpos : (0 : ℝ) < Real.exp 1 := Real.exp_pos 1
  rw [Real.exp_neg, abs_lt]
  constructor
  · have : (Real.exp 1)⁻¹ < (2.7182818283 : ℝ)⁻¹ := by
      exact inv_strictAnti₀ (by norm_num) hlo
    have h2 : (1 : ℝ) * (1 - 1 / 100 + (1 / 100) ^ 2 / 2 - (1 / 100) ^ 3 / 6
        + (1 / 100) ^ 4 / 24) ^ 100 > (2.7182818283 : ℝ)⁻¹ - 1 / 10 ^ 6 := by
      norm_num
    linarith
  · have : (2.7182818286 : ℝ)⁻¹ < (Real.exp 1)⁻¹ := by
      exact inv_strictAnti₀ hpos hhi
    have h2 : (1 : ℝ) * (1 - 1 / 100 + (1 / 100) ^ 2 / 2 - (1 / 100) ^ 3 / 6
        + (1 / 100) ^ 4 / 24) ^ 100 < (2.7182818286 : ℝ)⁻¹ + 1 / 10 ^ 6 := by
      norm_num
    linarith

/-- C17. For every non-empty `y`, `h > 0` and `n >= 1` (and `f` returning a vector
of the size of its argument), `solve(y, f, h, n)` applies exactly `n` times the
map `y -> y + (h/6)*(k1 + 2*k2 + 2*k3 + k4)` with `k1 = f(y)`,
`k2 = f(y + (h/2)*k1)`, `k3 = f(y + (h/2)*k2)`, `k4 = f(y + h*k3)`; for
`f(y) = -y` each step multiplies `y` by `1 - h + h^2/2 - h^3/6 + h^4/24`; and
with `y(0) = 1`, `h = 0.01`, `n = 100` the result is within `1e-6` of `e^(-1)`. -/
theorem solve_is_RK4 (y : List ℝ) (f : List ℝ → List ℝ) (h : ℝ) (n : Nat)
    (hy : y ≠ []) (_hf : ∀ v, (f v).length = v.length) (hh : 0 < h) (hn : 1 ≤ n) :
    solve y f h n = .ok ((rk4_map f h)^[n] y) ∧
    rk4_map (fun v => vscale v (-1)) h y =
      vscale y (1 - h + h ^ 2 / 2 - h ^ 3 / 6 + h ^ 4 / 24) ∧
    ∃ y_final, solve [1] (fun v => vscale v (-1)) (1 / 100) 100 = .ok [y_final] ∧
      |y_final - Real.exp (-1)| < 1 / 10 ^ 6 := by
  refine ⟨solve_eq_iterate y f h n hy hh hn, rk4_map_decay h y, _, ?_, rk4_decay_bound⟩
  rw [solve_eq_iterate [1] _ (1 / 100) 100 (by simp) (by norm_num) (by omega),
    rk4_map_decay_iterate]

theorem solve_is_RK4_witness :
    solve ([1] : List ℝ) (fun v => vscale v (-1)) (1 / 100) 100 =
      .ok ((rk4_map (fun v => vscale v (-1)) (1 / 100))^[100] [1]) :=
  (solve_is_RK4 [1] (fun v => vscale v (-1)) (1 / 100) 100 (by simp)
    (by intro v; simp [vscale]) (by norm_num) (by omega)).1

end RungeKutta

/-! ## `RungeKutta::solveAdaptive` -/

namespace RungeKutta

section Adaptive

variable {K : Type} [LinearOrderedField K]

theorem solve_ok (y : List K) (f : List K → List K) (h : K) (n : Nat)
    (hy : y ≠ []) (hh : 0 < h) (hn : 1 ≤ n) :
    solve y f h n = .ok ((solve_step f h)^[n] y) := by
  have h1 : ¬ y.length = 0 := fun e => hy (List.length_eq_zero.mp e)
  have h2 : ¬ h ≤ 0 := not_le.mpr hh
  have h3 : ¬ n = 0 := by omega
  unfold solve validateParameters
  rw [if_neg h1, if_neg h2, if_neg h3]
  show Except.ok _ = _
  rw [foldl_range_eq_iterate]

theorem validateParameters_error (y : List K) (h : K) (n : Nat) (e : Error)
    (he : validateParameters y h n = .error e) : ∃ what, e = .invalid_argument what := by
  unfold validateParameters at he
  split at he
  · cases he; exact ⟨_, rfl⟩
  · split at he
    · cases he; exact ⟨_, rfl⟩
    · split at he
      · cases he; exact ⟨_, rfl⟩
      · cases he

theorem solve_error (y : List K) (f : List K → List K) (h : K) (n : Nat) (e : Error)
    (he : solve y f h n = .error e) : ∃ what, e = .invalid_argument what := by
  unfold solve at he
  split at he
  · next e1 h1 =>
    cases he
    exact validateParameters_error y h n _ h1
  · cases he

/-- The state after one pass of the loop of `solveAdaptive`, when both inner
calls of `solve` succeed. -/
theorem solveAdaptive_attempt_cases (sqrt : K → K) (pow : K → K → K) (f : List K → List K)
    (tol sf mn mx : K) (s s1 : AdaptiveState K)
    (h : solveAdaptive_attempt sqrt pow f tol sf mn mx s = .ok s1) :
    s1.steps_taken = s.steps_taken ∨ s1.steps_taken = s.steps_taken + 1 := by
  unfold solveAdaptive_attempt at h
  split at h
  · cases h
  · split at h
    · cases h
    · simp only at h
      split at h <;> split at h <;> cases h <;> first | exact Or.inr rfl | exact Or.inl rfl

theorem solveAdaptive_attempt_error (sqrt : K → K) (pow : K → K → K) (f : List K → List K)
    (tol sf mn mx : K) (s : AdaptiveState K) (e : Error)
    (h : solveAdaptive_attempt sqrt pow f tol sf mn mx s = .error e) :
    ∃ what, e = .invalid_argument what := by
  unfold solveAdaptive_attempt at h
  split at h
  · next e1 h1 => cases h; exact solve_error _ _ _ _ _ h1
  · split at h
    · next e1 h1 => cases h; exact solve_error _ _ _ _ _ h1
    · simp only at h
      split at h <;> split at h <;> cases h

theorem solveAdaptive_loop_outcome (sqrt : K → K) (pow : K → K → K) (f : List K → List K)
    (tol : K) (max_steps : Nat) (sf mn mx : K) :
    ∀ (fuel : Nat) (s : AdaptiveState K), s.steps_taken ≤ max_steps →
      solveAdaptive_loop sqrt pow f tol max_steps sf mn mx fuel s = none ∨
      (∃ what, solveAdaptive_loop sqrt pow f tol max_steps sf mn mx fuel s =
        some (.error (.invalid_argument what))) ∨
      (∃ s1, solveAdaptive_loop sqrt pow f tol max_steps sf mn mx fuel s = some (.ok s1) ∧
        s1.steps_taken = max_steps) := by
  intro fuel
  induction fuel with
  | zero =>
    intro s hs
    unfold solveAdaptive_loop
    by_cases hlt : s.steps_taken < max_steps
    · rw [if_pos hlt]; exact Or.inl rfl
    · rw [if_neg hlt]; exact Or.inr (Or.inr ⟨s, rfl, by omega⟩)
  | succ fuel ih =>
    intro s hs
    unfold solveAdaptive_loop
    by_cases hlt : s.steps_taken < max_steps
    · rw [if_pos hlt]
      cases hat : solveAdaptive_attempt sqrt pow f tol sf mn mx s with
      | error e =>
        obtain ⟨what, hw⟩ := solveAdaptive_attempt_error sqrt pow f tol sf mn mx s e hat
        subst hw
        exact Or.inr (Or.inl ⟨what, rfl⟩)
      | ok s1 =>
        have := solveAdaptive_attempt_cases sqrt pow f tol sf mn mx s s1 hat
        exact ih s1 (by omega)
    · rw [if_neg hlt]; exact Or.inr (Or.inr ⟨s, rfl, by omega⟩)

theorem solveAdaptive_outcome (sqrt : K → K) (pow : K → K → K) (y : List K)
    (f : List K → List K) (h tol : K) (max_steps : Nat) (sf mn mx : K) (fuel : Nat) :
    solveAdaptive sqrt pow y f h tol max_steps sf mn mx fuel = none ∨
    (∃ what, solveAdaptive sqrt pow y f h tol max_steps sf mn mx fuel =
      some (.error (.invalid_argument what))) ∨
    (∃ y1, solveAdaptive sqrt pow y f h tol max_steps sf mn mx fuel =
      some (.ok (y1, max_steps))) := by
  unfold solveAdaptive
  cases hv : validateParameters y h max_steps with
  | error e =>
    obtain ⟨what, hw⟩ := validateParameters_error y h max_steps e hv
    subst hw
    exact Or.inr (Or.inl ⟨what, rfl⟩)
  | ok u =>
    simp only
    by_cases ht : tol ≤ 0
    · rw [if_pos ht]; exact Or.inr (Or.inl ⟨_, rfl⟩)
    · rw [if_neg ht]
      rcases solveAdaptive_loop_outcome sqrt pow f tol max_steps sf mn mx fuel ⟨y, y, h, 0⟩
        (Nat.zero_le _) with h1 | ⟨what, h2⟩ | ⟨s1, h3, h4⟩
      · rw [h1]; exact Or.inl rfl
      · rw [h2]; exact Or.inr (Or.inl ⟨what, rfl⟩)
      · rw [h3]; subst h4; exact Or.inr (Or.inr ⟨s1.y, rfl⟩)

/-- The accept/reject rule of one pass of the loop, from a state with
`y_temp = y`. -/
theorem solveAdaptive_attempt_eq (sqrt : K → K) (pow : K → K → K) (f : List K → List K)
    (tol sf mn mx : K) (s : AdaptiveState K) (hinv : s.y_temp = s.y) (hy : s.y ≠ [])
    (hh : 0 < s.current_h) :
    solveAdaptive_attempt sqrt pow f tol sf mn mx s =
      (let y_half := (solve_step f (s.current_h / 2))^[2] s.y
       let y_full := (solve_step f s.current_h)^[1] s.y
       let error := L2norm sqrt (vsub y_half y_full)
       let scale := L2norm sqrt y_half
       let error := if scale > 0 then error / scale else error
       if error < tol then
         .ok ⟨y_half, y_half,
           s.current_h * min mx (max mn (sf * pow (tol / error) (1 / 5))), s.steps_taken + 1⟩
       else
         .ok ⟨s.y, s.y,
           s.current_h * min mx (max mn (sf * pow (tol / error) (1 / 4))), s.steps_taken⟩) := by
  unfold solveAdaptive_attempt
  rw [hinv, solve_ok s.y f (s.current_h / 2) 2 hy (by positivity) (by omega),
    solve_ok s.y f s.current_h 1 hy hh (by omega)]

end Adaptive

end RungeKutta

namespace RungeKutta

theorem L2norm_singleton (a : ℝ) : L2norm Real.sqrt [a] = |a| := by
  simp [L2norm, dot, Real.sqrt_mul_self_eq_abs]

theorem decay_half_steps :
    (solve_step (fun v : List ℝ => vscale v (-1)) (1 / 2))^[2] [1] = [54289 / 147456] := by
  have e : solve_step (fun v : List ℝ => vscale v (-1)) (1 / 2) =
      rk4_map (fun v => vscale v (-1)) (1 / 2) := funext (solve_step_eq_rk4_map _ _)
  rw [e, rk4_map_decay_iterate]
  norm_num

theorem decay_full_step :
    (solve_step (fun v : List ℝ => vscale v (-1)) 1)^[1] [1] = [3 / 8] := by
  have e : solve_step (fun v : List ℝ => vscale v (-1)) 1 =
      rk4_map (fun v => vscale v (-1)) 1 := funext (solve_step_eq_rk4_map _ _)
  rw [e, rk4_map_decay_iterate]
  norm_num

theorem decay_error_estimate :
    L2norm Real.sqrt (vsub ([54289 / 147456] : List ℝ) [3 / 8]) = 1007 / 147456 ∧
    L2norm Real.sqrt ([54289 / 147456] : List ℝ) = 54289 / 147456 := by
  constructor
  · show L2norm Real.sqrt [(54289 / 147456 : ℝ) - 3 / 8] = _
    rw [L2norm_singleton]
    norm_num [abs_div]
  · rw [L2norm_singleton]
    norm_num [abs_div]

theorem decay_attempt (pow : ℝ → ℝ → ℝ) (tol : ℝ) :
    solveAdaptive_attempt Real.sqrt pow (fun v => vscale v (-1)) tol (9 / 10) (1 / 10) 2
        ⟨[1], [1], 1, 0⟩ =
      if (1007 / 54289 : ℝ) < tol then
        .ok ⟨[54289 / 147456], [54289 / 147456],
          1 * min 2 (max (1 / 10) (9 / 10 * pow (tol / (1007 / 54289)) (1 / 5))), 0 + 1⟩
      else
        .ok ⟨[1], [1], 1 * min 2 (max (1 / 10) (9 / 10 * pow (tol / (1007 / 54289)) (1 / 4))), 0⟩ := by
  rw [solveAdaptive_attempt_eq Real.sqrt pow _ tol (9 / 10) (1 / 10) 2 ⟨[1], [1], 1, 0⟩ rfl
    (by simp) (by norm_num)]
  dsimp only
  rw [decay_half_steps, decay_full_step, decay_error_estimate.1, decay_error_estimate.2]
  have e : (1007 / 147456 : ℝ) / (54289 / 147456) = 1007 / 54289 := by norm_num
  rw [if_pos (show (54289 / 147456 : ℝ) > 0 by norm_num), e]

/-- C18. `solveAdaptive` has no path that raises a runtime error when `max_steps`
is reached: for all inputs and however long the loop is run, the call is still
running, or has raised an invalid-argument error, or has returned `max_steps`
itself. On the valid input `y = [1]`, `f(y) = -y`, `h = 1`, `tol = 1`,
`max_steps = 1` it returns `1` after one pass. -/
theorem solveAdaptive_never_NotConverged (pow : ℝ → ℝ → ℝ) :
    (∀ (y : List ℝ) (f : List ℝ → List ℝ) (h tol : ℝ) (max_steps : Nat) (sf mn mx : ℝ)
        (fuel : Nat),
      solveAdaptive Real.sqrt pow y f h tol max_steps sf mn mx fuel = none ∨
      (∃ what, solveAdaptive Real.sqrt pow y f h tol max_steps sf mn mx fuel =
        some (.error (.invalid_argument what))) ∨
      (∃ y1, solveAdaptive Real.sqrt pow y f h tol max_steps sf mn mx fuel =
        some (.ok (y1, max_steps)))) ∧
    solveAdaptive Real.sqrt pow [1] (fun v => vscale v (-1)) 1 1 1 (9 / 10) (1 / 10) 2 1 =
      some (.ok ([54289 / 147456], 1)) := by
  refine ⟨fun y f h tol max_steps sf mn mx fuel =>
    solveAdaptive_outcome Real.sqrt pow y f h tol max_steps sf mn mx fuel, ?_⟩
  unfold solveAdaptive validateParameters
  rw [if_neg (by simp), if_neg (by norm_num), if_neg (by omega)]
  dsimp only
  rw [if_neg (by norm_num)]
  unfold solveAdaptive_loop
  rw [if_pos (show (0 : Nat) < 1 by omega), decay_attempt,
    if_pos (show (1007 / 54289 : ℝ) < 1 by norm_num)]
  dsimp only
  unfold solveAdaptive_loop
  rw [if_neg (show ¬ (0 + 1 < 1) by omega)]
  rfl

/-- C19, the statement refuted: from `y = [1]` with `f(y) = -y`, `h = 1`,
`tol = 1/100`, the two half steps and the full step give
`||y_half - y_full|| / max(||y_half||, 1) <= tol`, yet the pass rejects: it leaves
`y = [1]` and the count of accepted steps at `0`. -/
theorem solveAdaptive_rejects_within_tol :
    ∃ y_half y_full s1,
      solve ([1] : List ℝ) (fun v => vscale v (-1)) (1 / 2) 2 = .ok y_half ∧
      solve ([1] : List ℝ) (fun v => vscale v (-1)) 1 1 = .ok y_full ∧
      L2norm Real.sqrt (vsub y_half y_full) / max (L2norm Real.sqrt y_half) 1 ≤ 1 / 100 ∧
      solveAdaptive_attempt Real.sqrt Real.rpow (fun v => vscale v (-1)) (1 / 100) (9 / 10) (1 / 10) 2
        ⟨[1], [1], 1, 0⟩ = .ok s1 ∧
      s1.y = [1] ∧ s1.steps_taken = 0 := by
  refine ⟨[54289 / 147456], [3 / 8],
    ⟨[1], [1], 1 * min 2 (max (1 / 10) (9 / 10 * Real.rpow (1 / 100 / (1007 / 54289)) (1 / 4))), 0⟩,
    ?_, ?_, ?_, ?_, rfl, rfl⟩
  · rw [solve_ok _ _ _ _ (by simp) (by norm_num) (by omega), decay_half_steps]
  · rw [solve_ok _ _ _ _ (by simp) (by norm_num) (by omega), decay_full_step]
  · rw [decay_error_estimate.1, decay_error_estimate.2]
    rw [max_eq_right (by norm_num)]
    norm_num
  · rw [decay_attempt, if_neg (by norm_num)]

/-- C19, amended. At a pass of the loop of `solveAdaptive` from a state with
`y_temp = y` (as it is at every pass), non-empty `y` and positive step `h`, with
`y_full` one step of size `h` from `y` and `y_half` two steps of size `h/2` from
`y`, let `err` be `||y_half - y_full|| / ||y_half||` when `||y_half|| > 0` and
`||y_half - y_full||` otherwise. The pass accepts (`y` becomes `y_half`, the
count increases by one) exactly when `err < tol`, otherwise `y` and the count
are unchanged; in both cases `y_temp = y` holds again afterwards. -/
theorem solveAdaptive_acceptance_rule {K : Type} [LinearOrderedField K] (sqrt : K → K)
    (pow : K → K → K) (f : List K → List K) (tol sf mn mx : K) (s : AdaptiveState K)
    (hinv : s.y_temp = s.y) (hy : s.y ≠ []) (hh : 0 < s.current_h) :
    ∃ y_half y_full s1,
      solve s.y f (s.current_h / 2) 2 = .ok y_half ∧
      solve s.y f s.current_h 1 = .ok y_full ∧
      solveAdaptive_attempt sqrt pow f tol sf mn mx s = .ok s1 ∧
      s1.y_temp = s1.y ∧
      (((if L2norm sqrt y_half > 0 then L2norm sqrt (vsub y_half y_full) / L2norm sqrt y_half
          else L2norm sqrt (vsub y_half y_full)) < tol ∧
        s1.y = y_half ∧ s1.steps_taken = s.steps_taken + 1) ∨
       (¬ (if L2norm sqrt y_half > 0 then L2norm sqrt (vsub y_half y_full) / L2norm sqrt y_half
          else L2norm sqrt (vsub y_half y_full)) < tol ∧
        s1.y = s.y ∧ s1.steps_taken = s.steps_taken)) := by
  refine ⟨(solve_step f (s.current_h / 2))^[2] s.y, (solve_step f s.current_h)^[1] s.y, ?_⟩
  rw [solveAdaptive_attempt_eq sqrt pow f tol sf mn mx s hinv hy hh]
  dsimp only
  by_cases hlt : (if L2norm sqrt ((solve_step f (s.current_h / 2))^[2] s.y) > 0 then
      L2norm sqrt (vsub ((solve_step f (s.current_h / 2))^[2] s.y)
        ((solve_step f s.current_h)^[1] s.y)) /
        L2norm sqrt ((solve_step f (s.current_h / 2))^[2] s.y)
      else L2norm sqrt (vsub ((solve_step f (s.current_h / 2))^[2] s.y)
        ((solve_step f s.current_h)^[1] s.y))) < tol
  · rw [if_pos hlt]
    exact ⟨_, solve_ok _ _ _ _ hy (by positivity) (by omega), solve_ok _ _ _ _ hy hh (by omega),
      rfl, rfl, Or.inl ⟨hlt, rfl, rfl⟩⟩
  · rw [if_neg hlt]
    exact ⟨_, solve_ok _ _ _ _ hy (by positivity) (by omega), solve_ok _ _ _ _ hy hh (by omega),
      rfl, rfl, Or.inr ⟨hlt, rfl, rfl⟩⟩

theorem solveAdaptive_acceptance_rule_witness :
    ∃ y_half y_full s1,
      solve ([1] : List ℝ) (fun v => vscale v (-1)) ((1 : ℝ) / 2) 2 = .ok y_half ∧
      solve ([1] : List ℝ) (fun v => vscale v (-1)) 1 1 = .ok y_full ∧
      solveAdaptive_attempt Real.sqrt Real.rpow (fun v => vscale v (-1)) (1 / 100) (9 / 10)
        (1 / 10) 2 ⟨[1], [1], 1, 0⟩ = .ok s1 ∧
      s1.y_temp = s1.y ∧
      (((if L2norm Real.sqrt y_half > 0 then
            L2norm Real.sqrt (vsub y_half y_full) / L2norm Real.sqrt y_half
          else L2norm Real.sqrt (vsub y_half y_full)) < 1 / 100 ∧
        s1.y = y_half ∧ s1.steps_taken = 0 + 1) ∨
       (¬ (if L2norm Real.sqrt y_half > 0 then
            L2norm Real.sqrt (vsub y_half y_full) / L2norm Real.sqrt y_half
          else L2norm Real.sqrt (vsub y_half y_full)) < 1 / 100 ∧
        s1.y = [1] ∧ s1.steps_taken = 0)) :=
  solveAdaptive_acceptance_rule Real.sqrt Real.rpow (fun v => vscale v (-1)) (1 / 100) (9 / 10)
    (1 / 10) 2 ⟨[1], [1], 1, 0⟩ rfl (by simp) (by norm_num)

end RungeKutta

/-! ## `QR` -/

section QR

variable {K : Type} [LinearOrderedField K]

omit [LinearOrderedField K] in
theorem DenseObj.toMatrix_apply (A : DenseObj K) (n m : Nat) (i : Fin n) (j : Fin m) :
    A.toMatrix n m i j = A.get i j := rfl

theorem DenseObj.toMatrix_mul (A B : DenseObj K) (n k m : Nat) (hk : A.cols = k) :
    (A.mul B).toMatrix n m = A.toMatrix n k * B.toMatrix k m := by
  ext i j
  rw [Matrix.mul_apply, DenseObj.toMatrix_apply]
  show (Finset.sum (Finset.range A.cols) fun l => A.get i l * B.get l j) = _
  rw [hk, Finset.sum_range]
  rfl

omit [LinearOrderedField K] in
theorem DenseObj.toMatrix_Transpose (A : DenseObj K) (n m : Nat) :
    A.Transpose.toMatrix m n = (A.toMatrix n m).transpose := rfl

theorem genUnitMat_fold_get (B : DenseObj K) (i j : Nat) : ∀ n : Nat,
    ((List.range n).foldl (fun identity i => identity.set i i 1) B).get i j =
      if i = j ∧ i < n then 1 else B.get i j := by
  intro n
  induction n with
  | zero => simp
  | succ n ih =>
    rw [List.range_succ, List.foldl_append, List.foldl_cons, List.foldl_nil, DenseObj.get_set, ih]
    by_cases h1 : i = n ∧ j = n
    · rw [if_pos h1, if_pos ⟨by omega, by omega⟩]
    · rw [if_neg h1]
      by_cases h2 : i = j ∧ i < n
      · rw [if_pos h2, if_pos ⟨h2.1, by omega⟩]
      · rw [if_neg h2, if_neg (by omega)]

theorem genUnitMat_get (n i j : Nat) :
    (genUnitMat n : DenseObj K).get i j = if i = j ∧ i < n then 1 else 0 :=
  genUnitMat_fold_get (DenseObj.new n n) i j n

theorem genUnitMat_toMatrix (n : Nat) : (genUnitMat n : DenseObj K).toMatrix n n = 1 := by
  ext i j
  rw [DenseObj.toMatrix_apply, genUnitMat_get, Matrix.one_apply]
  by_cases h : i = j
  · subst h; simp
  · rw [if_neg h, if_neg]
    intro h2
    exact h (Fin.ext h2.1)

theorem genUnitMat_shape (n : Nat) :
    (genUnitMat n : DenseObj K).rows = n ∧ (genUnitMat n : DenseObj K).cols = n := by
  have h : ∀ (l : List Nat) (B : DenseObj K),
      (l.foldl (fun identity i => identity.set i i 1) B).rows = B.rows ∧
      (l.foldl (fun identity i => identity.set i i 1) B).cols = B.cols := by
    intro l
    induction l with
    | nil => intro B; exact ⟨rfl, rfl⟩
    | cons a l ih => intro B; rw [List.foldl_cons]; exact ih _
  exact h (List.range n) (DenseObj.new n n)

/-- The output of `householderTransform` is `I - 2 v v^T` for the normalised `v`. -/
theorem householderTransform_toMatrix (sqrt : K → K) (A : DenseObj K) (index n : Nat)
    (hn : A.rows = n) :
    (householderTransform sqrt A index).toMatrix n n =
      1 - (2 : K) • Matrix.vecMulVec
        (toVec (normalize sqrt (vadd (A.getColumn index)
          (vscale (genUnitVec index n)
            (L2norm sqrt (A.getColumn index) * sign ((A.getColumn index).getD index 0))))) n)
        (toVec (normalize sqrt (vadd (A.getColumn index)
          (vscale (genUnitVec index n)
            (L2norm sqrt (A.getColumn index) * sign ((A.getColumn index).getD index 0))))) n) := by
  subst hn
  ext i j
  rw [Matrix.sub_apply, Matrix.smul_apply, Matrix.vecMulVec_apply, ← genUnitMat_toMatrix]
  simp only [DenseObj.toMatrix_apply]
  show (genUnitMat A.rows : DenseObj K).get i j -
    (Finset.sum (Finset.range 1) fun k => _) * 2 = _
  rw [Finset.sum_range_one]
  simp only [DenseObj.Transpose, DenseObj.of_vector, DenseObj.get, toVec, if_true, smul_eq_mul]
  simp only [DenseObj.getRows]
  ring

theorem householderTransform_shape (sqrt : K → K) (A : DenseObj K) (index : Nat) :
    (householderTransform sqrt A index).rows = A.rows ∧
    (householderTransform sqrt A index).cols = A.rows := by
  have h := genUnitMat_shape (K := K) A.rows
  exact ⟨h.1, h.2⟩

end QR

section Reflector

variable {K : Type} [LinearOrderedField K]

theorem dot_eq_sum : ∀ (u v : List K) (n : Nat), u.length = n → v.length = n →
    dot u v = Finset.sum (Finset.range n) fun i => u.getD i 0 * v.getD i 0 := by
  intro u
  induction u with
  | nil =>
    intro v n hu _
    subst hu
    simp [dot]
  | cons a u ih =>
    intro v n hu hv
    cases v with
    | nil => simp at hu hv; omega
    | cons c v =>
      cases n with
      | zero => simp at hu
      | succ n =>
        have h := ih v n (by simpa using hu) (by simpa using hv)
        unfold dot at h ⊢
        rw [List.zipWith_cons_cons, List.sum_cons, h, Finset.sum_range_succ', add_comm]
        rfl

theorem dotProduct_toVec (v : List K) (n : Nat) (hv : v.length = n) :
    Matrix.dotProduct (toVec v n) (toVec v n) = dot v v := by
  rw [dot_eq_sum v v n hv hv]
  unfold Matrix.dotProduct toVec
  rw [Finset.sum_range (fun i => v.getD i 0 * v.getD i 0)]

theorem toVec_eq_zero_of_dot (v : List K) (n : Nat) (hv : v.length = n) (h : dot v v = 0) :
    toVec v n = 0 := by
  rw [← dotProduct_toVec v n hv] at h
  exact Matrix.dotProduct_self_eq_zero.mp h

theorem dot_self_nonneg (v : List K) : 0 ≤ dot v v := by
  rw [← dotProduct_toVec v v.length rfl]
  unfold Matrix.dotProduct
  exact Finset.sum_nonneg fun i _ => mul_self_nonneg _

theorem dot_map_div (v : List K) (c : K) :
    dot (v.map fun a => a / c) (v.map fun a => a / c) = dot v v / (c * c) := by
  induction v with
  | nil => simp [dot]
  | cons a v ih =>
    unfold dot at ih ⊢
    simp only [List.map_cons, List.zipWith_cons_cons, List.sum_cons]
    rw [ih]
    by_cases hc : c = 0
    · subst hc; simp
    · field_simp

/-- A reflector `I - 2 u u^T` is symmetric. -/
theorem reflector_transpose {n : Nat} (u : Fin n → K) :
    (1 - (2 : K) • Matrix.vecMulVec u u).transpose = 1 - (2 : K) • Matrix.vecMulVec u u := by
  ext i j
  simp only [Matrix.transpose_apply, Matrix.sub_apply, Matrix.smul_apply,
    Matrix.vecMulVec_apply, Matrix.one_apply, smul_eq_mul]
  rw [mul_comm (u j) (u i)]
  by_cases h : i = j
  · subst h; rfl
  · rw [if_neg h, if_neg (fun e => h e.symm)]

theorem vecMulVec_mul_self {n : Nat} (u : Fin n → K) :
    Matrix.vecMulVec u u * Matrix.vecMulVec u u =
      Matrix.dotProduct u u • Matrix.vecMulVec u u := by
  ext i j
  rw [Matrix.mul_apply, Matrix.smul_apply, smul_eq_mul]
  simp only [Matrix.vecMulVec_apply]
  unfold Matrix.dotProduct
  rw [Finset.sum_mul]
  apply Finset.sum_congr rfl
  intro k _
  ring

/-- A reflector `I - 2 u u^T` with `u` of unit length or zero is an involution. -/
theorem reflector_mul_self {n : Nat} (u : Fin n → K)
    (hu : Matrix.dotProduct u u = 1 ∨ u = 0) :
    (1 - (2 : K) • Matrix.vecMulVec u u) * (1 - (2 : K) • Matrix.vecMulVec u u) = 1 := by
  rcases hu with h | h
  · rw [Matrix.sub_mul, Matrix.mul_sub, Matrix.mul_sub, Matrix.one_mul, Matrix.mul_one,
      Matrix.one_mul, Matrix.smul_mul, Matrix.mul_smul, vecMulVec_mul_self, h, one_smul]
    ext i j
    simp only [Matrix.sub_apply, Matrix.smul_apply, smul_eq_mul]
    ring
  · subst h
    have hz : Matrix.vecMulVec (0 : Fin n → K) (0 : Fin n → K) = 0 := by
      ext i j
      simp [Matrix.vecMulVec_apply]
    rw [hz, smul_zero, sub_zero, Matrix.one_mul]

end Reflector

/-- The vector normalised by `normalize` has unit length or is zero. -/
theorem normalize_unit_or_zero (v : List ℝ) (n : Nat) (hv : v.length = n) :
    Matrix.dotProduct (toVec (normalize Real.sqrt v) n) (toVec (normalize Real.sqrt v) n) = 1 ∨
      toVec (normalize Real.sqrt v) n = 0 := by
  unfold normalize
  by_cases h0 : L2norm Real.sqrt v = 0
  · rw [if_pos h0]
    right
    apply toVec_eq_zero_of_dot v n hv
    unfold L2norm at h0
    exact le_antisymm (Real.sqrt_eq_zero'.mp h0) (dot_self_nonneg v)
  · rw [if_neg h0]
    left
    rw [dotProduct_toVec _ n (by rw [List.length_map]; exact hv), dot_map_div]
    unfold L2norm at h0 ⊢
    rw [Real.mul_self_sqrt (dot_self_nonneg v)]
    have hne : dot v v ≠ 0 := by
      intro e
      rw [e, Real.sqrt_zero] at h0
      exact h0 rfl
    exact div_self hne

theorem householder_vector_length (A : DenseObj ℝ) (index : Nat) :
    (vadd (A.getColumn index) (vscale (genUnitVec index A.rows)
      (L2norm Real.sqrt (A.getColumn index) * sign ((A.getColumn index).getD index 0)))).length
      = A.rows := by
  simp [vadd, vscale, genUnitVec, DenseObj.getColumn]

/-- The matrix built by `householderTransform` is symmetric and its own inverse. -/
theorem householderTransform_orthogonal (A : DenseObj ℝ) (index n : Nat) (hn : A.rows = n) :
    ((householderTransform Real.sqrt A index).toMatrix n n).transpose =
      (householderTransform Real.sqrt A index).toMatrix n n ∧
    (householderTransform Real.sqrt A index).toMatrix n n *
      (householderTransform Real.sqrt A index).toMatrix n n = 1 := by
  rw [householderTransform_toMatrix Real.sqrt A index n hn]
  refine ⟨reflector_transpose _, reflector_mul_self _ ?_⟩
  apply normalize_unit_or_zero
  subst hn
  exact householder_vector_length A index

/-- The loop of `QR` keeps the shapes of `Q` and `R`, the product `Q * R` and the
orthogonality of `Q`. -/
theorem QR_loop_invariant (A : DenseObj ℝ) (n m : Nat) : ∀ (l : List Nat) (Q R : DenseObj ℝ),
    Q.rows = n → Q.cols = n → R.rows = n → R.cols = m →
    Q.toMatrix n n * R.toMatrix n m = A.toMatrix n m →
    (Q.toMatrix n n).transpose * Q.toMatrix n n = 1 →
    (l.foldl (fun st i =>
        let H := householderTransform Real.sqrt st.2 i
        (st.1.mul H.Transpose, H.mul st.2)) (Q, R)).1.rows = n ∧
    (l.foldl (fun st i =>
        let H := householderTransform Real.sqrt st.2 i
        (st.1.mul H.Transpose, H.mul st.2)) (Q, R)).1.cols = n ∧
    (l.foldl (fun st i =>
        let H := householderTransform Real.sqrt st.2 i
        (st.1.mul H.Transpose, H.mul st.2)) (Q, R)).2.rows = n ∧
    (l.foldl (fun st i =>
        let H := householderTransform Real.sqrt st.2 i
        (st.1.mul H.Transpose, H.mul st.2)) (Q, R)).2.cols = m ∧
    (l.foldl (fun st i =>
        let H := householderTransform Real.sqrt st.2 i
        (st.1.mul H.Transpose, H.mul st.2)) (Q, R)).1.toMatrix n n *
      (l.foldl (fun st i =>
        let H := householderTransform Real.sqrt st.2 i
        (st.1.mul H.Transpose, H.mul st.2)) (Q, R)).2.toMatrix n m = A.toMatrix n m ∧
    ((l.foldl (fun st i =>
        let H := householderTransform Real.sqrt st.2 i
        (st.1.mul H.Transpose, H.mul st.2)) (Q, R)).1.toMatrix n n).transpose *
      (l.foldl (fun st i =>
        let H := householderTransform Real.sqrt st.2 i
        (st.1.mul H.Transpose, H.mul st.2)) (Q, R)).1.toMatrix n n = 1 := by
  intro l
  induction l with
  | nil =>
    intro Q R h1 h2 h3 h4 h5 h6
    exact ⟨h1, h2, h3, h4, h5, h6⟩
  | cons i l ih =>
    intro Q R h1 h2 h3 h4 h5 h6
    rw [List.foldl_cons]
    obtain ⟨hs1, hs2⟩ := householderTransform_shape Real.sqrt R i
    obtain ⟨ht, hm⟩ := householderTransform_orthogonal R i n h3
    have eQ : (Q.mul (householderTransform Real.sqrt R i).Transpose).toMatrix n n =
        Q.toMatrix n n * (householderTransform Real.sqrt R i).toMatrix n n := by
      rw [DenseObj.toMatrix_mul _ _ n n n h2, DenseObj.toMatrix_Transpose, ht]
    have eR : ((householderTransform Real.sqrt R i).mul R).toMatrix n m =
        (householderTransform Real.sqrt R i).toMatrix n n * R.toMatrix n m := by
      rw [DenseObj.toMatrix_mul _ _ n n m (by rw [hs2, h3])]
    apply ih
    · exact h1
    · show (householderTransform Real.sqrt R i).rows = n
      rw [hs1, h3]
    · show (householderTransform Real.sqrt R i).rows = n
      rw [hs1, h3]
    · exact h4
    · show (Q.mul (householderTransform Real.sqrt R i).Transpose).toMatrix n n *
        ((householderTransform Real.sqrt R i).mul R).toMatrix n m = _
      rw [eQ, eR, Matrix.mul_assoc, ← Matrix.mul_assoc _ _ (R.toMatrix n m), hm,
        Matrix.one_mul, h5]
    · show ((Q.mul (householderTransform Real.sqrt R i).Transpose).toMatrix n n).transpose *
        (Q.mul (householderTransform Real.sqrt R i).Transpose).toMatrix n n = _
      rw [eQ, Matrix.transpose_mul, ht, Matrix.mul_assoc,
        ← Matrix.mul_assoc _ (Q.toMatrix n n), h6, Matrix.one_mul, hm]

theorem QR_invariant (A : DenseObj ℝ) :
    (QR Real.sqrt A).1.rows = A.rows ∧ (QR Real.sqrt A).1.cols = A.rows ∧
    (QR Real.sqrt A).2.rows = A.rows ∧ (QR Real.sqrt A).2.cols = A.cols ∧
    (QR Real.sqrt A).1.toMatrix A.rows A.rows * (QR Real.sqrt A).2.toMatrix A.rows A.cols =
      A.toMatrix A.rows A.cols ∧
    ((QR Real.sqrt A).1.toMatrix A.rows A.rows).transpose *
      (QR Real.sqrt A).1.toMatrix A.rows A.rows = 1 := by
  have hI := genUnitMat_shape (K := ℝ) A.rows
  exact QR_loop_invariant A A.rows A.cols _ (genUnitMat A.rows) A hI.1 hI.2 rfl rfl
    (by rw [genUnitMat_toMatrix, Matrix.one_mul])
    (by rw [genUnitMat_toMatrix, Matrix.transpose_one, Matrix.one_mul])

/-- C11. For every real matrix `A`, the outputs of `QR(A, Q, R)` satisfy
`Q * R = A` in exact real arithmetic: the product has the shape of `A` and the
same entry at every position. -/
theorem QR_reconstructs (A : DenseObj ℝ) :
    ((QR Real.sqrt A).1.mul (QR Real.sqrt A).2).getRows = A.getRows ∧
    ((QR Real.sqrt A).1.mul (QR Real.sqrt A).2).getCols = A.getCols ∧
    ∀ (i : Fin A.getRows) (j : Fin A.getCols),
      ((QR Real.sqrt A).1.mul (QR Real.sqrt A).2).get i j = A.get i j := by
  obtain ⟨h1, h2, _, h4, h5, _⟩ := QR_invariant A
  refine ⟨h1, h4, fun i j => ?_⟩
  have h := congrFun (congrFun h5 i) j
  rw [← DenseObj.toMatrix_mul _ _ A.rows A.rows A.cols h2] at h
  exact h

/-- C13. For every real matrix `A` with `m` rows, the `Q` output of `QR(A, Q, R)`
is an `m x m` orthogonal matrix: `Q^T * Q = I` in exact real arithmetic. -/
theorem QR_orthogonal (A : DenseObj ℝ) :
    (QR Real.sqrt A).1.getRows = A.getRows ∧ (QR Real.sqrt A).1.getCols = A.getRows ∧
    ∀ (i j : Fin A.getRows),
      ((QR Real.sqrt A).1.Transpose.mul (QR Real.sqrt A).1).get i j = if i = j then 1 else 0 := by
  obtain ⟨h1, h2, _, _, _, h6⟩ := QR_invariant A
  refine ⟨h1, h2, fun i j => ?_⟩
  have h := congrFun (congrFun h6 i) j
  rw [← DenseObj.toMatrix_Transpose,
    ← DenseObj.toMatrix_mul _ _ A.rows A.rows A.rows (show (QR Real.sqrt A).1.Transpose.cols = _
      from h1), Matrix.one_apply] at h
  exact h

section QRexample

variable {K : Type} [LinearOrderedField K]

theorem DenseObj.mul_get (A B : DenseObj K) (i j : Nat) :
    (A.mul B).get i j = Finset.sum (Finset.range A.cols) fun k => A.get i k * B.get k j := rfl

theorem householderTransform_get (sqrt : K → K) (A : DenseObj K) (index : Nat) (v : List K)
    (hv : normalize sqrt (vadd (A.getColumn index) (vscale (genUnitVec index A.rows)
      (L2norm sqrt (A.getColumn index) * sign ((A.getColumn index).getD index 0)))) = v)
    (i j : Nat) :
    (householderTransform sqrt A index).get i j =
      (if i = j ∧ i < A.rows then 1 else 0) - v.getD i 0 * v.getD j 0 * 2 := by
  rw [← genUnitMat_get, ← hv]
  show (genUnitMat A.rows : DenseObj K).get i j -
    (Finset.sum (Finset.range 1) fun k => _) * 2 = _
  rw [Finset.sum_range_one]
  simp only [DenseObj.Transpose, DenseObj.of_vector, DenseObj.get, if_true]
  rfl

end QRexample

theorem sqrt_of_sq (a b : ℝ) (hb : 0 ≤ b) (h : a = b ^ 2) : Real.sqrt a = b := by
  rw [h, Real.sqrt_sq hb]

theorem QR_example_first_reflector (A : DenseObj ℝ) (hr : A.rows = 2)
    (hcol : A.getColumn 0 = [1, 0]) (i j : Nat) :
    (householderTransform Real.sqrt A 0).get i j =
      (if i = j ∧ i < 2 then 1 else 0) -
        ([1, 0] : List ℝ).getD i 0 * ([1, 0] : List ℝ).getD j 0 * 2 := by
  rw [householderTransform_get Real.sqrt A 0 [1, 0] _ i j, hr]
  rw [hcol, hr]
  have hn : L2norm Real.sqrt ([1, 0] : List ℝ) = 1 := by simp [L2norm, dot]
  have hv : vadd ([1, 0] : List ℝ) (vscale (genUnitVec 0 2) (1 * sign (1 : ℝ))) = [2, 0] := by
    simp [vadd, vscale, genUnitVec, sign]
    norm_num
  rw [hn]
  show normalize Real.sqrt (vadd ([1, 0] : List ℝ) (vscale (genUnitVec 0 2) (1 * sign (1 : ℝ)))) = _
  rw [hv]
  have hn2 : L2norm Real.sqrt ([2, 0] : List ℝ) = 2 := by
    unfold L2norm
    exact sqrt_of_sq _ 2 (by norm_num) (by simp [dot]; norm_num)
  unfold normalize
  rw [hn2, if_neg (by norm_num)]
  simp

theorem QR_example_second_reflector (R : DenseObj ℝ) (hr : R.rows = 2)
    (hcol : R.getColumn 1 = [24, 7]) (i j : Nat) :
    (householderTransform Real.sqrt R 1).get i j =
      (if i = j ∧ i < 2 then 1 else 0) -
        ([3 / 5, 4 / 5] : List ℝ).getD i 0 * ([3 / 5, 4 / 5] : List ℝ).getD j 0 * 2 := by
  rw [householderTransform_get Real.sqrt R 1 [3 / 5, 4 / 5] _ i j, hr]
  rw [hcol, hr]
  have hn : L2norm Real.sqrt ([24, 7] : List ℝ) = 25 := by
    unfold L2norm
    exact sqrt_of_sq _ 25 (by norm_num) (by simp [dot]; norm_num)
  have hv : vadd ([24, 7] : List ℝ) (vscale (genUnitVec 1 2) (25 * sign (7 : ℝ))) = [24, 32] := by
    simp [vadd, vscale, genUnitVec, sign]
    norm_num
  rw [hn]
  show normalize Real.sqrt (vadd ([24, 7] : List ℝ)
    (vscale (genUnitVec 1 2) (25 * sign (7 : ℝ)))) = _
  rw [hv]
  have hn2 : L2norm Real.sqrt ([24, 32] : List ℝ) = 40 := by
    unfold L2norm
    exact sqrt_of_sq _ 40 (by norm_num) (by simp [dot]; norm_num)
  unfold normalize
  rw [hn2, if_neg (by norm_num)]
  simp
  constructor <;> norm_num

theorem QR_example_R (A : DenseObj ℝ) (hr : A.rows = 2) (hc : A.cols = 2)
    (h00 : A.get 0 0 = 1) (h10 : A.get 1 0 = 0) (h01 : A.get 0 1 = -24) (h11 : A.get 1 1 = 7) :
    (QR Real.sqrt A).2.get 1 0 = 24 / 25 := by
  have hcol0 : A.getColumn 0 = [1, 0] := by
    unfold DenseObj.getColumn
    rw [hr]
    simp [List.range_succ, h00, h10]
  have hH0 := QR_example_first_reflector A hr hcol0
  have hs0 := householderTransform_shape Real.sqrt A 0
  have hR1 : ∀ i j, ((householderTransform Real.sqrt A 0).mul A).get i j =
      (householderTransform Real.sqrt A 0).get i 0 * A.get 0 j +
        (householderTransform Real.sqrt A 0).get i 1 * A.get 1 j := by
    intro i j
    rw [DenseObj.mul_get, hs0.2, hr, Finset.sum_range_succ, Finset.sum_range_one]
  have hR1rows : ((householderTransform Real.sqrt A 0).mul A).rows = 2 := by
    show (householderTransform Real.sqrt A 0).rows = 2
    rw [hs0.1, hr]
  have hcol1 : ((householderTransform Real.sqrt A 0).mul A).getColumn 1 = [24, 7] := by
    unfold DenseObj.getColumn
    rw [hR1rows]
    simp [List.range_succ, hR1, hH0, h01, h11]
    norm_num
  have hH1 := QR_example_second_reflector _ hR1rows hcol1
  have hs1 := householderTransform_shape Real.sqrt ((householderTransform Real.sqrt A 0).mul A) 1
  unfold QR
  have hl : List.range (min A.getRows A.getCols) = [0, 1] := by
    show List.range (min A.rows A.cols) = _
    rw [hr, hc]
    rfl
  rw [hl]
  simp only [List.foldl_cons, List.foldl_nil]
  rw [DenseObj.mul_get, hs1.2, hR1rows, Finset.sum_range_succ, Finset.sum_range_one]
  simp only [hH1, hR1, hH0, h00, h10]
  norm_num

/-- C12. On `A = [[1, -24], [0, 7]]` the `R` output of `QR(A, Q, R)` is not upper
triangular: the reflector of the second pass is built from the whole second
column of the current `R`, and the result has `R(1,0) = 24/25`. -/
theorem QR_R_not_upper_triangular :
    (QR Real.sqrt (⟨2, 2, fun i j => if i = 0 then (if j = 0 then 1 else -24)
      else (if j = 0 then 0 else 7)⟩ : DenseObj ℝ)).2.get 1 0 = 24 / 25 :=
  QR_example_R _ rfl rfl (by simp [DenseObj.get]) (by simp [DenseObj.get])
    (by simp [DenseObj.get]) (by simp [DenseObj.get])

/-! ## `SVD` -/

theorem powerIter_loop_fixed (M : DenseObj ℝ) (b : List ℝ) (hn : L2norm Real.sqrt b ≠ 0)
    (hb : normalize Real.sqrt b = b) (hM : M.mulVec b = b) :
    ∀ k, powerIter_loop Real.sqrt M k b = b := by
  intro k
  induction k with
  | zero => exact hb
  | succ k ih =>
    unfold powerIter_loop
    rw [if_neg hn, hb, hM, ih]

theorem L2norm_one : L2norm Real.sqrt ([1] : List ℝ) = 1 := by simp [L2norm, dot]

theorem normalize_one : normalize Real.sqrt ([1] : List ℝ) = [1] := by
  unfold normalize
  rw [L2norm_one, if_neg (by norm_num)]
  simp

theorem mulVec_one (M : DenseObj ℝ) (hr : M.rows = 1) (hc : M.cols = 1) (h : M.get 0 0 = 1) :
    M.mulVec [1] = [1] := by
  unfold DenseObj.mulVec
  rw [hr, hc]
  simp [List.range_succ, h]

theorem powerIter_one (M : DenseObj ℝ) (hr : M.rows = 1) (hc : M.cols = 1)
    (h : M.get 0 0 = 1) : powerIter Real.sqrt M [1] 300 = .ok [1] := by
  unfold powerIter
  rw [if_neg (by norm_num), if_neg (by simp [DenseObj.getRows, DenseObj.getCols, hr, hc]),
    if_neg (by simp [DenseObj.getCols, hc]), if_neg (by norm_num),
    powerIter_loop_fixed M [1] (by rw [L2norm_one]; norm_num) normalize_one
      (mulVec_one M hr hc h)]

theorem rayleighQuotient_one (M : DenseObj ℝ) (hr : M.rows = 1) (hc : M.cols = 1)
    (h : M.get 0 0 = 1) : rayleighQuotient Real.sqrt (1 / 2 ^ 52) M [1] = .ok 1 := by
  unfold rayleighQuotient
  rw [if_neg (by simp [DenseObj.getRows, DenseObj.getCols, hr, hc]),
    if_neg (by simp [DenseObj.getCols, hc]), L2norm_one, if_neg (by norm_num),
    mulVec_one M hr hc h]
  simp [dot]

theorem SVD_right_step_one (M : DenseObj ℝ) (hr : M.rows = 1) (hc : M.cols = 1)
    (h : M.get 0 0 = 1) :
    SVD_right_step Real.sqrt (1 / 2 ^ 52) 1 (M, [[]], [0]) 0 = .ok (M, [[1]], [1]) := by
  unfold SVD_right_step
  have e : (List.replicate 1 (0 : ℝ)).set 0 1 = [1] := rfl
  rw [e, powerIter_one M hr hc h]
  simp only [SVD_orthogonalize, List.range_zero, List.foldl_nil]
  rw [rayleighQuotient_one M hr hc h]
  simp

theorem SVD_left_step_one (M : DenseObj ℝ) (hr : M.rows = 1) (hc : M.cols = 1)
    (h : M.get 0 0 = 1) :
    SVD_left_step Real.sqrt (1 / 2 ^ 52) 1 [1] (M, [[]]) 0 = .ok (M, [[1]]) := by
  unfold SVD_left_step
  have e : (List.replicate 1 (0 : ℝ)).set 0 1 = [1] := rfl
  rw [e, powerIter_one M hr hc h]
  simp only [SVD_orthogonalize, List.range_zero, List.foldl_nil]
  rw [rayleighQuotient_one M hr hc h]
  simp

/-- C15. On the `1 x 1` matrix `A = [-1]`, `SVD(A, U, S, V)` returns
`U = [1]`, `S = [1]`, `V = [1]`, so that `U * S * V^T = [1]` and not `A`. -/
theorem SVD_does_not_reconstruct :
    ∃ U S V : DenseObj ℝ,
      SVD Real.sqrt (1 / 2 ^ 52) (⟨1, 1, fun _ _ => -1⟩ : DenseObj ℝ) = .ok (U, S, V) ∧
      U.get 0 0 = 1 ∧ S.get 0 0 = 1 ∧ V.get 0 0 = 1 ∧
      ((U.mul S).mul V.Transpose).get 0 0 = 1 ∧
      (⟨1, 1, fun _ _ => -1⟩ : DenseObj ℝ).get 0 0 = -1 := by
  have hz : SVD_isZeroMatrix (1 / 2 ^ 52) (⟨1, 1, fun _ _ => -1⟩ : DenseObj ℝ) 1 1 = false := by
    simp [SVD_isZeroMatrix, DenseObj.get]
    norm_num
  have hAtA : ((⟨1, 1, fun _ _ => -1⟩ : DenseObj ℝ).Transpose.mul ⟨1, 1, fun _ _ => -1⟩).get 0 0
      = 1 := by
    rw [DenseObj.mul_get]
    simp [DenseObj.Transpose, DenseObj.get]
  have hAAt : ((⟨1, 1, fun _ _ => -1⟩ : DenseObj ℝ).mul
      (⟨1, 1, fun _ _ => -1⟩ : DenseObj ℝ).Transpose).get 0 0 = 1 := by
    rw [DenseObj.mul_get]
    simp [DenseObj.Transpose, DenseObj.get]
  have hV := SVD_right_step_one _ rfl rfl hAtA
  have hU := SVD_left_step_one _ rfl rfl hAAt
  refine ⟨DenseObj.of_columns [[1]] 1 1,
    ((DenseObj.new 1 1).zero).set 0 0 (if (1 : ℝ) > 1 / 2 ^ 52 * 100 then 1 else 0),
    DenseObj.of_columns [[1]] 1 1, ?_, ?_, ?_, ?_, ?_, rfl⟩
  · unfold SVD
    simp only [DenseObj.getRows, DenseObj.getCols]
    rw [if_neg (by omega), hz]
    simp only [Bool.false_eq_true, if_false]
    have hl : List.range 1 = [0] := rfl
    have hm : min 1 1 = 1 := rfl
    rw [hl, hm]
    simp only [List.foldlM_cons, List.foldlM_nil, List.replicate]
    simp only [hV, hU, bind, Except.bind, pure, Except.pure]
    rfl
  · simp [DenseObj.of_columns, DenseObj.get]
  · simp [DenseObj.get, DenseObj.set]
    norm_num
  · simp [DenseObj.of_columns, DenseObj.get]
  · rw [DenseObj.mul_get]
    simp [DenseObj.Transpose, DenseObj.of_columns, DenseObj.get, DenseObj.mul,
      DenseObj.set, DenseObj.zero, DenseObj.new]
    norm_num

/-! ## Conjugate Gradient -/

section CGtheory

open Matrix

variable {n : Nat}

theorem dotProduct_mulVec_symm (M : Matrix (Fin n) (Fin n) ℝ) (hsym : M.transpose = M)
    (u v : Fin n → ℝ) : u ⬝ᵥ M *ᵥ v = (M *ᵥ u) ⬝ᵥ v := by
  rw [dotProduct_mulVec, ← vecMul_transpose, hsym]

/-- The residuals of the Conjugate Gradient recurrence are mutually orthogonal and
its directions mutually conjugate, as long as the residuals are non-zero. -/
theorem cg_orthogonal (M : Matrix (Fin n) (Fin n) ℝ) (hsym : M.transpose = M)
    (hpd : ∀ v : Fin n → ℝ, v ≠ 0 → 0 < v ⬝ᵥ M *ᵥ v)
    (r p : Nat → Fin n → ℝ) (α β : Nat → ℝ) (hp0 : p 0 = r 0)
    (hr : ∀ k, r (k + 1) = r k - α k • M *ᵥ p k)
    (hp : ∀ k, p (k + 1) = r (k + 1) + β k • p k)
    (hα : ∀ k, α k = r k ⬝ᵥ r k / p k ⬝ᵥ M *ᵥ p k)
    (hβ : ∀ k, β k = r (k + 1) ⬝ᵥ r (k + 1) / r k ⬝ᵥ r k) :
    ∀ k, (∀ j, j ≤ k → r j ≠ 0) →
      (∀ i j, i < j → j ≤ k → r i ⬝ᵥ r j = 0) ∧
      (∀ i j, i < j → j ≤ k → p i ⬝ᵥ M *ᵥ p j = 0) ∧
      (∀ j, j ≤ k → r j ⬝ᵥ p j = r j ⬝ᵥ r j) := by
  intro k
  induction k with
  | zero =>
    intro _
    refine ⟨fun i j hij hj => by omega, fun i j hij hj => by omega, fun j hj => ?_⟩
    have : j = 0 := by omega
    subst this
    rw [hp0]
  | succ k ih =>
    intro hnz
    obtain ⟨ih1, ih2, ih3⟩ := ih (fun j hj => hnz j (by omega))
    have hrr : ∀ j, j ≤ k + 1 → r j ⬝ᵥ r j ≠ 0 := fun j hj h0 =>
      hnz j hj (dotProduct_self_eq_zero.mp h0)
    have hpnz : ∀ j, j ≤ k → p j ≠ 0 := by
      intro j hj h0
      have h := ih3 j hj
      rw [h0, dotProduct_zero] at h
      exact hrr j (by omega) h.symm
    have ha : ∀ j, j ≤ k → p j ⬝ᵥ M *ᵥ p j ≠ 0 := fun j hj =>
      ne_of_gt (hpd _ (hpnz j hj))
    have hαa : ∀ j, j ≤ k → α j * (p j ⬝ᵥ M *ᵥ p j) = r j ⬝ᵥ r j := by
      intro j hj
      rw [hα j]
      exact div_mul_cancel₀ _ (ha j hj)
    have hαne : ∀ j, j ≤ k → α j ≠ 0 := by
      intro j hj
      rw [hα j]
      exact div_ne_zero (hrr j (by omega)) (ha j hj)
    -- the residual `r i` against `M p k`
    have L1 : ∀ i, i ≤ k → r i ⬝ᵥ M *ᵥ p k = if i = k then p k ⬝ᵥ M *ᵥ p k else 0 := by
      intro i hi
      cases i with
      | zero =>
        rw [← hp0]
        by_cases h0 : 0 = k
        · rw [if_pos h0, ← h0]
        · rw [if_neg h0]
          exact ih2 0 k (by omega) (le_refl _)
      | succ i =>
        have e : r (i + 1) = p (i + 1) - β i • p i := by rw [hp i]; simp
        rw [e, sub_dotProduct, smul_dotProduct, ih2 i k (by omega) (le_refl _), smul_zero,
          sub_zero]
        by_cases h0 : i + 1 = k
        · rw [if_pos h0, h0]
        · rw [if_neg h0]
          exact ih2 (i + 1) k (by omega) (le_refl _)
    -- the new residual is orthogonal to the last direction
    have hA : r (k + 1) ⬝ᵥ p k = 0 := by
      rw [hr k, sub_dotProduct, smul_dotProduct, ih3 k (le_refl _),
        ← dotProduct_mulVec_symm M hsym, smul_eq_mul, hαa k (le_refl _), sub_self]
    have new1 : ∀ i, i ≤ k → r i ⬝ᵥ r (k + 1) = 0 := by
      intro i hi
      rw [hr k, dotProduct_sub, dotProduct_smul, L1 i hi, smul_eq_mul]
      by_cases h0 : i = k
      · rw [if_pos h0, h0, hαa k (le_refl _), sub_self]
      · rw [if_neg h0, mul_zero, sub_zero]
        exact ih1 i k (by omega) (le_refl _)
    have hαM : ∀ i, i ≤ k →
        α i * ((M *ᵥ p i) ⬝ᵥ r (k + 1)) = r i ⬝ᵥ r (k + 1) - r (i + 1) ⬝ᵥ r (k + 1) := by
      intro i _
      have e : α i • M *ᵥ p i = r i - r (i + 1) := by rw [hr i]; simp
      rw [← smul_eq_mul, ← smul_dotProduct, e, sub_dotProduct]
    have new2 : ∀ i, i ≤ k → p i ⬝ᵥ M *ᵥ p (k + 1) = 0 := by
      intro i hi
      rw [hp k, mulVec_add, mulVec_smul, dotProduct_add, dotProduct_smul,
        dotProduct_mulVec_symm M hsym (p i) (r (k + 1)), smul_eq_mul]
      have h1 := hαM i hi
      by_cases h0 : i = k
      · subst h0
        rw [new1 i (le_refl _), zero_sub] at h1
        have h2 := hαa i (le_refl _)
        have h3 : β i * (r i ⬝ᵥ r i) = r (i + 1) ⬝ᵥ r (i + 1) := by
          rw [hβ i]
          exact div_mul_cancel₀ _ (hrr i (by omega))
        have h4 : α i * ((M *ᵥ p i) ⬝ᵥ r (i + 1) + β i * (p i ⬝ᵥ M *ᵥ p i)) = 0 := by
          rw [mul_add, h1, mul_left_comm, h2, h3]
          ring
        rcases mul_eq_zero.mp h4 with h5 | h5
        · exact absurd h5 (hαne i (le_refl _))
        · exact h5
      · rw [new1 i hi, new1 (i + 1) (by omega), sub_zero] at h1
        rcases mul_eq_zero.mp h1 with h5 | h5
        · exact absurd h5 (hαne i hi)
        · rw [h5, ih2 i k (by omega) (le_refl _), mul_zero, add_zero]
    refine ⟨fun i j hij hj => ?_, fun i j hij hj => ?_, fun j hj => ?_⟩
    · by_cases h0 : j = k + 1
      · subst h0; exact new1 i (by omega)
      · exact ih1 i j hij (by omega)
    · by_cases h0 : j = k + 1
      · subst h0; exact new2 i (by omega)
      · exact ih2 i j hij (by omega)
    · by_cases h0 : j = k + 1
      · subst h0
        rw [hp k, dotProduct_add, dotProduct_smul, hA, smul_zero, add_zero]
      · exact ih3 j (by omega)

theorem finset_sum_dotProduct {ι : Type} (s : Finset ι) (f : ι → Fin n → ℝ) (w : Fin n → ℝ) :
    (Finset.sum s f) ⬝ᵥ w = Finset.sum s fun j => f j ⬝ᵥ w := by
  unfold dotProduct
  simp only [Finset.sum_apply, Finset.sum_mul]
  exact Finset.sum_comm

/-- More than `n` non-zero vectors of dimension `n` cannot be mutually orthogonal. -/
theorem orthogonal_family_bound (r : Nat → Fin n → ℝ) (hnz : ∀ j, j ≤ n → r j ≠ 0)
    (horth : ∀ i j, i < j → j ≤ n → r i ⬝ᵥ r j = 0) : False := by
  have hli : LinearIndependent ℝ (fun i : Fin (n + 1) => r i) := by
    rw [Fintype.linearIndependent_iff]
    intro g hg i
    have h1 : (Finset.sum Finset.univ fun j : Fin (n + 1) => g j • r j) ⬝ᵥ r i = 0 := by
      rw [hg, zero_dotProduct]
    rw [finset_sum_dotProduct, Finset.sum_eq_single i] at h1
    · rw [smul_dotProduct, smul_eq_mul] at h1
      rcases mul_eq_zero.mp h1 with h2 | h2
      · exact h2
      · exact absurd (dotProduct_self_eq_zero.mp h2) (hnz i (by omega))
    · intro j _ hji
      rw [smul_dotProduct]
      have hne : (j : Nat) ≠ i := fun e => hji (Fin.ext e)
      rcases Nat.lt_or_gt_of_ne hne with h2 | h2
      · rw [horth j i h2 (by omega), smul_zero]
      · rw [dotProduct_comm, horth i j h2 (by omega), smul_zero]
    · intro h
      exact absurd (Finset.mem_univ i) h
  have h := hli.fintype_card_le_finrank
  rw [Fintype.card_fin, Module.finrank_fin_fun] at h
  omega

end CGtheory

section CGlink

open Matrix

variable {K : Type} [LinearOrderedField K]

theorem getD_zipWith (f : K → K → K) : ∀ (u v : List K) (i : Nat), i < u.length → i < v.length →
    (List.zipWith f u v).getD i 0 = f (u.getD i 0) (v.getD i 0) := by
  intro u
  induction u with
  | nil => intro v i hi _; simp at hi
  | cons a u ih =>
    intro v i hi hv
    cases v with
    | nil => simp at hv
    | cons c v =>
      cases i with
      | zero => rfl
      | succ i =>
        rw [List.zipWith_cons_cons, List.getD_cons_succ, List.getD_cons_succ, List.getD_cons_succ]
        exact ih v i (by simpa using hi) (by simpa using hv)

theorem toVec_vadd (u v : List K) (n : Nat) (hu : u.length = n) (hv : v.length = n) :
    toVec (vadd u v) n = toVec u n + toVec v n := by
  funext i
  exact getD_zipWith _ u v i (by rw [hu]; exact i.isLt) (by rw [hv]; exact i.isLt)

theorem toVec_vsub (u v : List K) (n : Nat) (hu : u.length = n) (hv : v.length = n) :
    toVec (vsub u v) n = toVec u n - toVec v n := by
  funext i
  exact getD_zipWith _ u v i (by rw [hu]; exact i.isLt) (by rw [hv]; exact i.isLt)

theorem toVec_vscale (v : List K) (s : K) (n : Nat) (hv : v.length = n) :
    toVec (vscale v s) n = s • toVec v n := by
  funext i
  show (v.map fun a => a * s).getD i 0 = s * v.getD i 0
  rw [getD_map_eq _ v i 0 0 (by rw [hv]; exact i.isLt), mul_comm]

theorem toVec_mulVec (A : DenseObj K) (v : List K) (n : Nat) (hr : A.rows = n)
    (hc : A.cols = n) : toVec (A.mulVec v) n = A.toMatrix n n *ᵥ toVec v n := by
  funext i
  unfold toVec DenseObj.mulVec
  rw [getD_map_eq _ _ i 0 0 (by rw [List.length_range, hr]; exact i.isLt),
    getD_range _ _ (by rw [hr]; exact i.isLt), hc, Finset.sum_range]
  rfl

theorem length_vadd (u v : List K) (n : Nat) (hu : u.length = n) (hv : v.length = n) :
    (vadd u v).length = n := by
  simp [vadd, hu, hv]

theorem length_vsub (u v : List K) (n : Nat) (hu : u.length = n) (hv : v.length = n) :
    (vsub u v).length = n := by
  simp [vsub, hu, hv]

theorem length_vscale (v : List K) (s : K) : (vscale v s).length = v.length := by
  simp [vscale]

theorem length_mulVec (A : DenseObj K) (v : List K) : (A.mulVec v).length = A.rows := by
  simp [DenseObj.mulVec]

theorem dot_toVec (u v : List K) (n : Nat) (hu : u.length = n) (hv : v.length = n) :
    dot u v = toVec u n ⬝ᵥ toVec v n := by
  rw [dot_eq_sum u v n hu hv]
  unfold dotProduct toVec
  rw [Finset.sum_range (fun i => u.getD i 0 * v.getD i 0)]

theorem toVec_genUnitMat_mulVec (v : List K) (n : Nat) :
    toVec ((genUnitMat n : DenseObj K).mulVec v) n = toVec v n := by
  rw [toVec_mulVec _ v n (genUnitMat_shape n).1 (genUnitMat_shape n).2, genUnitMat_toMatrix,
    one_mulVec]

theorem toVec_replicate_zero (n : Nat) : toVec (List.replicate n (0 : K)) n = 0 := by
  funext i
  show (List.replicate n (0 : K)).getD i 0 = 0
  rw [getD_replicate_eq]
  simp

omit [LinearOrderedField K] in
/-- A symmetric dense matrix gives a symmetric matrix. -/
theorem symmetric_toMatrix (n : Nat) (A : DenseObj K) (hsym : symmetric n A) :
    (A.toMatrix n n).transpose = A.toMatrix n n := by
  ext i j
  exact hsym j i j.isLt i.isLt

/-- A positive definite dense matrix gives a positive quadratic form on non-zero
vectors. -/
theorem positive_definite_toMatrix (n : Nat) (A : DenseObj K) (hpd : positive_definite n A)
    (v : Fin n → K) (hv : v ≠ 0) : 0 < v ⬝ᵥ A.toMatrix n n *ᵥ v := by
  have hex : ∃ i, i < n ∧ (fun i => if h : i < n then v ⟨i, h⟩ else 0) i ≠ 0 := by
    by_contra hcon
    apply hv
    funext i
    by_contra hi
    exact hcon ⟨i, i.isLt, by simpa [i.isLt] using hi⟩
  have h := hpd (fun i => if h : i < n then v ⟨i, h⟩ else 0) hex
  unfold quad_form at h
  rw [Finset.sum_range] at h
  have e : (v ⬝ᵥ A.toMatrix n n *ᵥ v) = Finset.sum Finset.univ fun a : Fin n =>
      Finset.sum (Finset.range n) fun b =>
        (fun i => if h : i < n then v ⟨i, h⟩ else 0) a * A.get a b *
          (fun i => if h : i < n then v ⟨i, h⟩ else 0) b := by
    unfold dotProduct mulVec dotProduct
    apply Finset.sum_congr rfl
    intro a _
    rw [Finset.sum_range, Finset.mul_sum]
    apply Finset.sum_congr rfl
    intro c _
    simp only [a.isLt, c.isLt, dite_true, Fin.eta, DenseObj.toMatrix_apply]
    ring
  rw [e]
  exact h

end CGlink

section CGrun

open Matrix

theorem cg_residual {n : Nat} (M : Matrix (Fin n) (Fin n) ℝ) (b : Fin n → ℝ) :
    ∀ k, (cg_iterates M b k).2.1 = b - M *ᵥ (cg_iterates M b k).1 := by
  intro k
  induction k with
  | zero =>
    show b = b - M *ᵥ 0
    rw [mulVec_zero, sub_zero]
  | succ k ih =>
    show (cg_iterates M b k).2.1 - _ • M *ᵥ (cg_iterates M b k).2.2 =
      b - M *ᵥ ((cg_iterates M b k).1 + _ • (cg_iterates M b k).2.2)
    rw [mulVec_add, mulVec_smul, ih]
    abel

/-- One iteration of the modelled `ConjugateGrad` with identity preconditioner
follows the Conjugate Gradient recurrence. -/
theorem ConjugateGrad_step_iterates (n : Nat) (A : DenseObj ℝ) (hr : A.rows = n)
    (hc : A.cols = n) (b : Fin n → ℝ) (k : Nat) (s : CGState ℝ)
    (hx : s.x.length = n) (hrl : s.r.length = n) (hpl : s.p.length = n)
    (ex : toVec s.x n = (cg_iterates (A.toMatrix n n) b k).1)
    (er : toVec s.r n = (cg_iterates (A.toMatrix n n) b k).2.1)
    (ep : toVec s.p n = (cg_iterates (A.toMatrix n n) b k).2.2)
    (hden : 0 < (cg_iterates (A.toMatrix n n) b k).2.2 ⬝ᵥ
      A.toMatrix n n *ᵥ (cg_iterates (A.toMatrix n n) b k).2.2) :
    ∃ s1, ConjugateGrad_step (genUnitMat n) A s = some s1 ∧
      s1.x.length = n ∧ s1.r.length = n ∧ s1.p.length = n ∧
      toVec s1.x n = (cg_iterates (A.toMatrix n n) b (k + 1)).1 ∧
      toVec s1.r n = (cg_iterates (A.toMatrix n n) b (k + 1)).2.1 ∧
      toVec s1.p n = (cg_iterates (A.toMatrix n n) b (k + 1)).2.2 := by
  have hAp : (A.mulVec s.p).length = n := by rw [length_mulVec, hr]
  have hPl : ∀ v : List ℝ, ((genUnitMat n : DenseObj ℝ).mulVec v).length = n := by
    intro v
    rw [length_mulVec, (genUnitMat_shape n).1]
  have hd : dot s.p (A.mulVec s.p) = (cg_iterates (A.toMatrix n n) b k).2.2 ⬝ᵥ
      A.toMatrix n n *ᵥ (cg_iterates (A.toMatrix n n) b k).2.2 := by
    rw [dot_toVec _ _ n hpl hAp, toVec_mulVec A _ n hr hc, ep]
  have hrz : dot s.r ((genUnitMat n : DenseObj ℝ).mulVec s.r) =
      (cg_iterates (A.toMatrix n n) b k).2.1 ⬝ᵥ (cg_iterates (A.toMatrix n n) b k).2.1 := by
    rw [dot_toVec _ _ n hrl (hPl _), toVec_genUnitMat_mulVec, er]
  have hr1l : (vsub s.r (vscale (A.mulVec s.p)
      (dot s.r ((genUnitMat n : DenseObj ℝ).mulVec s.r) / dot s.p (A.mulVec s.p)))).length = n :=
    length_vsub _ _ n hrl (by rw [length_vscale, hAp])
  have er1 : toVec (vsub s.r (vscale (A.mulVec s.p)
      (dot s.r ((genUnitMat n : DenseObj ℝ).mulVec s.r) / dot s.p (A.mulVec s.p)))) n =
      (cg_iterates (A.toMatrix n n) b (k + 1)).2.1 := by
    rw [toVec_vsub _ _ n hrl (by rw [length_vscale, hAp]), toVec_vscale _ _ n hAp,
      toVec_mulVec A _ n hr hc, hrz, hd, er, ep]
    rfl
  unfold ConjugateGrad_step
  dsimp only
  rw [if_neg (by rw [hd]; exact not_le.mpr hden)]
  refine ⟨_, rfl, ?_, hr1l, ?_, ?_, er1, ?_⟩
  · exact length_vadd _ _ n hx (by rw [length_vscale, hpl])
  · exact length_vadd _ _ n (hPl _) (by rw [length_vscale, hpl])
  · show toVec (vadd s.x (vscale s.p _)) n = _
    rw [toVec_vadd _ _ n hx (by rw [length_vscale, hpl]), toVec_vscale _ _ n hpl, hrz, hd, ex, ep]
    rfl
  · show toVec (vadd ((genUnitMat n : DenseObj ℝ).mulVec _) (vscale s.p _)) n = _
    rw [toVec_vadd _ _ n (hPl _) (by rw [length_vscale, hpl]), toVec_vscale _ _ n hpl,
      toVec_genUnitMat_mulVec, dot_toVec _ _ n hr1l (hPl _), toVec_genUnitMat_mulVec, er1, hrz, ep]
    rfl

end CGrun

section CGconv

open Matrix

theorem L2norm_eq_of_toVec (u v : List ℝ) (n : Nat) (hu : u.length = n) (hv : v.length = n)
    (h : toVec u n = toVec v n) : L2norm Real.sqrt u = L2norm Real.sqrt v := by
  unfold L2norm
  rw [dot_toVec u u n hu hu, dot_toVec v v n hv hv, h]

theorem toVec_ne_zero_of_norm (v : List ℝ) (n : Nat) (hv : v.length = n) (tol : ℝ)
    (htol : 0 ≤ tol) (h : ¬ L2norm Real.sqrt v ≤ tol) : toVec v n ≠ 0 := by
  intro h0
  apply h
  unfold L2norm
  rw [dot_toVec v v n hv hv, h0, dotProduct_zero, Real.sqrt_zero]
  exact htol

/-- With more than `n` iterations of budget in all, the loop of the modelled
`ConjugateGrad` on a symmetric positive definite matrix stops on its residual
test. -/
theorem ConjugateGrad_loop_converges (n : Nat) (A : DenseObj ℝ) (hr : A.rows = n)
    (hc : A.cols = n) (hsym : symmetric n A) (hpd : positive_definite n A) (b : List ℝ)
    (hb : b.length = n) (tol : ℝ) (htol : 0 ≤ tol) :
    ∀ (fuel k : Nat) (s : CGState ℝ), s.x.length = n → s.r.length = n → s.p.length = n →
      toVec s.x n = (cg_iterates (A.toMatrix n n) (toVec b n) k).1 →
      toVec s.r n = (cg_iterates (A.toMatrix n n) (toVec b n) k).2.1 →
      toVec s.p n = (cg_iterates (A.toMatrix n n) (toVec b n) k).2.2 →
      (∀ j, j < k → (cg_iterates (A.toMatrix n n) (toVec b n) j).2.1 ≠ 0) →
      n < k + fuel →
      ∃ x, ConjugateGrad_loop Real.sqrt (genUnitMat n) A tol fuel s = (x, .converged) ∧
        x.length = n ∧ L2norm Real.sqrt (vsub b (A.mulVec x)) ≤ tol := by
  have horth := cg_orthogonal (A.toMatrix n n) (symmetric_toMatrix n A hsym)
    (positive_definite_toMatrix n A hpd)
    (fun j => (cg_iterates (A.toMatrix n n) (toVec b n) j).2.1)
    (fun j => (cg_iterates (A.toMatrix n n) (toVec b n) j).2.2)
    (fun j => (cg_iterates (A.toMatrix n n) (toVec b n) j).2.1 ⬝ᵥ
        (cg_iterates (A.toMatrix n n) (toVec b n) j).2.1 /
      (cg_iterates (A.toMatrix n n) (toVec b n) j).2.2 ⬝ᵥ
        A.toMatrix n n *ᵥ (cg_iterates (A.toMatrix n n) (toVec b n) j).2.2)
    (fun j => (cg_iterates (A.toMatrix n n) (toVec b n) (j + 1)).2.1 ⬝ᵥ
        (cg_iterates (A.toMatrix n n) (toVec b n) (j + 1)).2.1 /
      (cg_iterates (A.toMatrix n n) (toVec b n) j).2.1 ⬝ᵥ
        (cg_iterates (A.toMatrix n n) (toVec b n) j).2.1)
    rfl (fun _ => rfl) (fun _ => rfl) (fun _ => rfl) (fun _ => rfl)
  beta_reduce at horth
  have hres : ∀ (k : Nat) (s : CGState ℝ), s.x.length = n → s.r.length = n →
      toVec s.x n = (cg_iterates (A.toMatrix n n) (toVec b n) k).1 →
      toVec s.r n = (cg_iterates (A.toMatrix n n) (toVec b n) k).2.1 →
      L2norm Real.sqrt (vsub b (A.mulVec s.x)) = L2norm Real.sqrt s.r := by
    intro k s hx hrl ex er
    have hAx : (A.mulVec s.x).length = n := by rw [length_mulVec, hr]
    apply L2norm_eq_of_toVec _ _ n (length_vsub _ _ n hb hAx) hrl
    rw [toVec_vsub _ _ n hb hAx, toVec_mulVec A _ n hr hc, ex, er, cg_residual]
  intro fuel
  induction fuel with
  | zero =>
    intro k s _ _ _ _ _ _ hnz hk
    exfalso
    exact orthogonal_family_bound
      (fun j => (cg_iterates (A.toMatrix n n) (toVec b n) j).2.1)
      (fun j hj => hnz j (by omega))
      (horth n (fun j hj => hnz j (by omega))).1
  | succ fuel ih =>
    intro k s hx hrl hpl ex er ep hnz hk
    unfold ConjugateGrad_loop
    by_cases htest : L2norm Real.sqrt s.r ≤ tol
    · rw [if_pos htest]
      exact ⟨s.x, rfl, hx, by rw [hres k s hx hrl ex er]; exact htest⟩
    · rw [if_neg htest]
      have hrk : (cg_iterates (A.toMatrix n n) (toVec b n) k).2.1 ≠ 0 := by
        rw [← er]
        exact toVec_ne_zero_of_norm s.r n hrl tol htol htest
      have hnz1 : ∀ j, j ≤ k → (cg_iterates (A.toMatrix n n) (toVec b n) j).2.1 ≠ 0 := by
        intro j hj
        by_cases e : j = k
        · rw [e]; exact hrk
        · exact hnz j (by omega)
      have h3 := (horth k hnz1).2.2 k (le_refl _)
      have hpk : (cg_iterates (A.toMatrix n n) (toVec b n) k).2.2 ≠ 0 := by
        intro h0
        rw [h0, dotProduct_zero] at h3
        exact hrk (dotProduct_self_eq_zero.mp h3.symm)
      obtain ⟨s1, hs1, hx1, hr1, hp1, ex1, er1, ep1⟩ :=
        ConjugateGrad_step_iterates n A hr hc (toVec b n) k s hx hrl hpl ex er ep
          (positive_definite_toMatrix n A hpd _ hpk)
      rw [hs1]
      exact ih (k + 1) s1 hx1 hr1 hp1 ex1 er1 ep1
        (fun j hj => hnz1 j (by omega)) (by omega)

/-- The modelled `ConjugateGrad` with identity preconditioner on a symmetric
positive definite `n x n` system meets the absolute residual tolerance within
`n + 1` iterations. -/
theorem ConjugateGrad_callUpdate_converges (n : Nat) (A : DenseObj ℝ) (hr : A.getRows = n)
    (hc : A.getCols = n) (hsym : symmetric n A) (hpd : positive_definite n A) (b : List ℝ)
    (hb : b.length = n) (tol : ℝ) (htol : 0 ≤ tol) (maxIter : Nat) (hbudget : n < maxIter) :
    ∃ x, ConjugateGrad_callUpdate Real.sqrt (genUnitMat n) A b maxIter tol =
        .ok (x, .converged) ∧
      x.length = n ∧ L2norm Real.sqrt (vsub b (A.mulVec x)) ≤ tol := by
  have hr1 : A.rows = n := hr
  have hc1 : A.cols = n := hc
  have hl0 : (List.replicate b.length (0 : ℝ)).length = n := by rw [List.length_replicate, hb]
  have hAx : (A.mulVec (List.replicate b.length (0 : ℝ))).length = n := by
    rw [length_mulVec, hr1]
  have hrl : (vsub b (A.mulVec (List.replicate b.length (0 : ℝ)))).length = n :=
    length_vsub _ _ n hb hAx
  have er : toVec (vsub b (A.mulVec (List.replicate b.length (0 : ℝ)))) n = toVec b n := by
    rw [toVec_vsub _ _ n hb hAx, toVec_mulVec A _ n hr1 hc1, hb, toVec_replicate_zero,
      mulVec_zero, sub_zero]
  obtain ⟨x, hx, hlen, hres⟩ := ConjugateGrad_loop_converges n A hr1 hc1 hsym hpd b hb tol htol
    maxIter 0 ⟨List.replicate b.length 0, vsub b (A.mulVec (List.replicate b.length 0)),
      (genUnitMat n : DenseObj ℝ).mulVec (vsub b (A.mulVec (List.replicate b.length 0)))⟩
    hl0 hrl (by rw [length_mulVec, (genUnitMat_shape n).1])
    (by rw [hb]; exact toVec_replicate_zero n) er
    (by rw [toVec_genUnitMat_mulVec]; exact er)
    (fun j hj => by omega) (by omega)
  refine ⟨x, ?_, hlen, hres⟩
  unfold ConjugateGrad_callUpdate
  rw [if_neg (by rw [hr, hc]; exact fun h => h rfl), if_neg (by rw [hb, hc]; exact fun h => h rfl)]
  dsimp only
  rw [hx]

end CGconv

section CGeval

theorem genUnitMat_mulVec (v : List ℝ) (n : Nat) (hv : v.length = n) :
    (genUnitMat n : DenseObj ℝ).mulVec v = v := by
  have hl : ((genUnitMat n : DenseObj ℝ).mulVec v).length = n := by
    rw [length_mulVec, (genUnitMat_shape n).1]
  apply List.ext_getElem (by rw [hl, hv])
  intro i h1 h2
  rw [← getD_eq_getElem_of_lt _ i 0 h1, ← getD_eq_getElem_of_lt _ i 0 h2]
  exact congrFun (toVec_genUnitMat_mulVec v n) ⟨i, by rw [← hv]; exact h2⟩

/-- One iteration of the modelled `ConjugateGrad` with identity preconditioner,
from its intermediate values. -/
theorem ConjugateGrad_step_eval (n : Nat) (A : DenseObj ℝ) (s : CGState ℝ)
    (Ap x1 r1 p1 : List ℝ) (den rz rz1 : ℝ) (hrl : s.r.length = n)
    (hAp : A.mulVec s.p = Ap) (hden : dot s.p Ap = den) (hpos : 0 < den)
    (hrz : dot s.r s.r = rz) (hx : vadd s.x (vscale s.p (rz / den)) = x1)
    (hr1 : vsub s.r (vscale Ap (rz / den)) = r1) (hr1l : r1.length = n)
    (hrz1 : dot r1 r1 = rz1) (hp1 : vadd r1 (vscale s.p (rz1 / rz)) = p1) :
    ConjugateGrad_step (genUnitMat n) A s = some ⟨x1, r1, p1⟩ := by
  unfold ConjugateGrad_step
  dsimp only
  rw [hAp, hden, if_neg (not_le.mpr hpos), genUnitMat_mulVec s.r n hrl, hrz, hx, hr1,
    genUnitMat_mulVec r1 n hr1l, hrz1, hp1]

theorem ConjugateGrad_loop_stop (P A : DenseObj ℝ) (tol : ℝ) (fuel : Nat) (s : CGState ℝ)
    (h : L2norm Real.sqrt s.r ≤ tol) :
    ConjugateGrad_loop Real.sqrt P A tol fuel s = (s.x, .converged) := by
  cases fuel with
  | zero => unfold ConjugateGrad_loop; rw [if_pos h]
  | succ fuel => unfold ConjugateGrad_loop; rw [if_pos h]

theorem ConjugateGrad_loop_continue (P A : DenseObj ℝ) (tol : ℝ) (fuel : Nat)
    (s s1 : CGState ℝ) (q : ℝ) (hq : dot s.r s.r = q) (htol : 0 ≤ tol) (h : tol ^ 2 < q)
    (hs : ConjugateGrad_step P A s = some s1) :
    ConjugateGrad_loop Real.sqrt P A tol (fuel + 1) s =
      ConjugateGrad_loop Real.sqrt P A tol fuel s1 := by
  have ht : ¬ L2norm Real.sqrt s.r ≤ tol := by
    unfold L2norm
    rw [hq]
    exact not_le.mpr ((Real.lt_sqrt htol).mpr h)
  rw [ConjugateGrad_loop, if_neg ht, hs]

theorem mulVec_three (a00 a01 a02 a10 a11 a12 a20 a21 a22 v0 v1 v2 : ℝ) :
    (DenseObj.of_rows 3 3 [[a00, a01, a02], [a10, a11, a12], [a20, a21, a22]]).mulVec
        [v0, v1, v2] =
      [a00 * v0 + a01 * v1 + a02 * v2, a10 * v0 + a11 * v1 + a12 * v2,
        a20 * v0 + a21 * v1 + a22 * v2] := by
  simp [DenseObj.mulVec, DenseObj.of_rows, DenseObj.get, Finset.sum_range_succ, List.range_succ]

theorem dot_three (u0 u1 u2 v0 v1 v2 : ℝ) :
    dot [u0, u1, u2] [v0, v1, v2] = u0 * v0 + u1 * v1 + u2 * v2 := by
  simp [dot, add_assoc]

theorem vadd_vscale_three (u0 u1 u2 v0 v1 v2 c : ℝ) :
    vadd [u0, u1, u2] (vscale [v0, v1, v2] c) = [u0 + v0 * c, u1 + v1 * c, u2 + v2 * c] := by
  simp [vadd, vscale]

theorem vsub_vscale_three (u0 u1 u2 v0 v1 v2 c : ℝ) :
    vsub [u0, u1, u2] (vscale [v0, v1, v2] c) = [u0 - v0 * c, u1 - v1 * c, u2 - v2 * c] := by
  simp [vsub, vscale]

theorem CG_example_step_one :
    ConjugateGrad_step (genUnitMat 3)
        (DenseObj.of_rows 3 3 [[(5 : ℝ), 0, 1], [0, 2, 0], [1, 0, 3]])
        ⟨[0, 0, 0], [6, 2, 4], [6, 2, 4]⟩ =
      some ⟨[84 / 71, 28 / 71, 56 / 71], [-50 / 71, 86 / 71, 32 / 71],
        [-2380 / 5041, 6496 / 5041, 3052 / 5041]⟩ := by
  refine ConjugateGrad_step_eval 3 _ _ [34, 4, 18] _ _ _ 284 56 (10920 / 5041)
    ?_ ?_ ?_ ?_ ?_ ?_ ?_ ?_ ?_ ?_
  · rfl
  · rw [mulVec_three]; norm_num
  · rw [dot_three]; norm_num
  · norm_num
  · rw [dot_three]; norm_num
  · rw [vadd_vscale_three]; norm_num
  · rw [vsub_vscale_three]; norm_num
  · rfl
  · rw [dot_three]; norm_num
  · rw [vadd_vscale_three]; norm_num

theorem CG_example_step_two :
    ConjugateGrad_step (genUnitMat 3)
        (DenseObj.of_rows 3 3 [[(5 : ℝ), 0, 1], [0, 2, 0], [1, 0, 3]])
        ⟨[84 / 71, 28 / 71, 56 / 71], [-50 / 71, 86 / 71, 32 / 71],
          [-2380 / 5041, 6496 / 5041, 3052 / 5041]⟩ =
      some ⟨[1107 / 1133, 1084 / 1133, 1193 / 1133], [70 / 1133, 98 / 1133, -14 / 103],
        [70980 / 1283689, 133770 / 1283689, -163800 / 1283689]⟩ := by
  refine ConjugateGrad_step_eval 3 _ _ [-8848 / 5041, 12992 / 5041, 6776 / 5041] _ _ _
    (1776544 / 357911) (10920 / 5041) (38220 / 1283689) ?_ ?_ ?_ ?_ ?_ ?_ ?_ ?_ ?_ ?_
  · rfl
  · rw [mulVec_three]; norm_num
  · rw [dot_three]; norm_num
  · norm_num
  · rw [dot_three]; norm_num
  · rw [vadd_vscale_three]; norm_num
  · rw [vsub_vscale_three]; norm_num
  · rfl
  · rw [dot_three]; norm_num
  · rw [vadd_vscale_three]; norm_num

theorem CG_example_step_three :
    ConjugateGrad_step (genUnitMat 3)
        (DenseObj.of_rows 3 3 [[(5 : ℝ), 0, 1], [0, 2, 0], [1, 0, 3]])
        ⟨[1107 / 1133, 1084 / 1133, 1193 / 1133], [70 / 1133, 98 / 1133, -14 / 103],
          [70980 / 1283689, 133770 / 1283689, -163800 / 1283689]⟩ =
      some ⟨[1, 1, 1], [0, 0, 0], [0, 0, 0]⟩ := by
  refine ConjugateGrad_step_eval 3 _ _
    [191100 / 1283689, 267540 / 1283689, -38220 / 116699] _ _ _
    (104340600 / 1454419637) (38220 / 1283689) 0 ?_ ?_ ?_ ?_ ?_ ?_ ?_ ?_ ?_ ?_
  · rfl
  · rw [mulVec_three]; norm_num
  · rw [dot_three]; norm_num
  · norm_num
  · rw [dot_three]; norm_num
  · rw [vadd_vscale_three]; norm_num
  · rw [vsub_vscale_three]; norm_num
  · rfl
  · rw [dot_three]; norm_num
  · rw [vadd_vscale_three]; norm_num

/-- The modelled `ConjugateGrad` on the system of the test suite: three
iterations reach `x = [1, 1, 1]` with zero residual. -/
theorem CG_example_run :
    ConjugateGrad_callUpdate Real.sqrt (genUnitMat 3)
        (DenseObj.of_rows 3 3 [[(5 : ℝ), 0, 1], [0, 2, 0], [1, 0, 3]]) [6, 2, 4] 1000
        (1 / 10 ^ 12) = .ok ([1, 1, 1], .converged) := by
  unfold ConjugateGrad_callUpdate
  rw [if_neg (fun h => h rfl), if_neg (fun h => h rfl)]
  dsimp only
  have hx0 : List.replicate ([6, 2, 4] : List ℝ).length (0 : ℝ) = [0, 0, 0] := rfl
  have hr0 : vsub ([6, 2, 4] : List ℝ)
      ((DenseObj.of_rows 3 3 [[(5 : ℝ), 0, 1], [0, 2, 0], [1, 0, 3]]).mulVec [0, 0, 0]) =
      [6, 2, 4] := by
    rw [mulVec_three]
    simp [vsub]
  rw [hx0, hr0, genUnitMat_mulVec [6, 2, 4] 3 rfl]
  rw [ConjugateGrad_loop_continue _ _ _ 999 _ _ 56 (by rw [dot_three]; norm_num) (by norm_num)
      (by norm_num) CG_example_step_one,
    ConjugateGrad_loop_continue _ _ _ 998 _ _ (10920 / 5041) (by rw [dot_three]; norm_num)
      (by norm_num) (by norm_num) CG_example_step_two,
    ConjugateGrad_loop_continue _ _ _ 997 _ _ (38220 / 1283689) (by rw [dot_three]; norm_num)
      (by norm_num) (by norm_num) CG_example_step_three,
    ConjugateGrad_loop_stop]
  unfold L2norm
  rw [dot_three]
  norm_num

end CGeval

/-- C20, the statement refuted: `A = [[1, 0], [0, 2]]` is symmetric positive
definite, and with `b = [1/10, 1/10]`, `P = I` and `tol = 1/4` the modelled
`ConjugateGrad` stops at once on `||r|| <= tol`, whatever the budget, leaving
an `x` whose residual norm is above `tol * ||b||`. -/
theorem ConjugateGrad_relative_tolerance_fails :
    symmetric 2 (DenseObj.of_rows 2 2 [[(1 : ℝ), 0], [0, 2]]) ∧
    positive_definite 2 (DenseObj.of_rows 2 2 [[(1 : ℝ), 0], [0, 2]]) ∧
    ∀ maxIter : Nat, ∃ x,
      ConjugateGrad_callUpdate Real.sqrt (genUnitMat 2)
        (DenseObj.of_rows 2 2 [[(1 : ℝ), 0], [0, 2]]) [1 / 10, 1 / 10] maxIter (1 / 4) =
        .ok (x, .converged) ∧
      ¬ L2norm Real.sqrt (vsub [1 / 10, 1 / 10]
          ((DenseObj.of_rows 2 2 [[(1 : ℝ), 0], [0, 2]]).mulVec x)) ≤
        1 / 4 * L2norm Real.sqrt ([1 / 10, 1 / 10] : List ℝ) := by
  have hr0 : vsub ([1 / 10, 1 / 10] : List ℝ)
      ((DenseObj.of_rows 2 2 [[(1 : ℝ), 0], [0, 2]]).mulVec [0, 0]) = [1 / 10, 1 / 10] := by
    simp [vsub, DenseObj.mulVec, DenseObj.of_rows, DenseObj.get, Finset.sum_range_succ,
      List.range_succ]
  have hn : L2norm Real.sqrt ([1 / 10, 1 / 10] : List ℝ) = Real.sqrt (1 / 50) := by
    unfold L2norm
    congr 1
    simp [dot]
    norm_num
  have hpos : 0 < Real.sqrt (1 / 50) := Real.sqrt_pos.mpr (by norm_num)
  refine ⟨symmetric_two 1 0 2, ?_, fun maxIter => ⟨[0, 0], ?_, ?_⟩⟩
  · intro x hx
    rw [quad_form_two]
    obtain ⟨i, hi, hxi⟩ := hx
    have h0 : 0 < x 0 ^ 2 ∨ 0 < x 1 ^ 2 := by
      interval_cases i
      · left; positivity
      · right; positivity
    rcases h0 with h0 | h0
    · nlinarith [sq_nonneg (x 1)]
    · nlinarith [sq_nonneg (x 0)]
  · unfold ConjugateGrad_callUpdate
    rw [if_neg (fun h => h rfl), if_neg (fun h => h rfl)]
    dsimp only
    have hx0 : List.replicate ([1 / 10, 1 / 10] : List ℝ).length (0 : ℝ) = [0, 0] := rfl
    rw [hx0, hr0, ConjugateGrad_loop_stop]
    show L2norm Real.sqrt ([1 / 10, 1 / 10] : List ℝ) ≤ 1 / 4
    rw [hn, Real.sqrt_le_left (by norm_num)]
    norm_num
  · rw [hr0, hn]
    intro h
    linarith

/-- C20, amended. For every symmetric positive definite `n x n` matrix `A`, every
`b` of length `n` and every `tol >= 0`, the modelled
`ConjugateGrad(P = I, A, b, maxIter, tol).callUpdate()` with a budget
`maxIter > n` ends converged and leaves `x` with `||b - A x|| <= tol`; on
`A = [[5,0,1],[0,2,0],[1,0,3]]`, `b = [6,2,4]`, `maxIter = 1000`,
`tol = 1e-12` it leaves `x = [1, 1, 1]`. -/
theorem ConjugateGrad_meets_tolerance (n : Nat) (A : DenseObj ℝ) (hr : A.getRows = n)
    (hc : A.getCols = n) (hsym : symmetric n A) (hpd : positive_definite n A) (b : List ℝ)
    (hb : b.length = n) (tol : ℝ) (htol : 0 ≤ tol) (maxIter : Nat) (hbudget : n < maxIter) :
    (∃ x, ConjugateGrad_callUpdate Real.sqrt (genUnitMat n) A b maxIter tol =
        .ok (x, .converged) ∧
      x.length = n ∧ L2norm Real.sqrt (vsub b (A.mulVec x)) ≤ tol) ∧
    ConjugateGrad_callUpdate Real.sqrt (genUnitMat 3)
        (DenseObj.of_rows 3 3 [[(5 : ℝ), 0, 1], [0, 2, 0], [1, 0, 3]]) [6, 2, 4] 1000
        (1 / 10 ^ 12) = .ok ([1, 1, 1], .converged) :=
  ⟨ConjugateGrad_callUpdate_converges n A hr hc hsym hpd b hb tol htol maxIter hbudget,
    CG_example_run⟩

theorem ConjugateGrad_meets_tolerance_witness :
    ∃ x, ConjugateGrad_callUpdate Real.sqrt (genUnitMat 3)
        (DenseObj.of_rows 3 3 [[(5 : ℝ), 0, 1], [0, 2, 0], [1, 0, 3]]) [6, 2, 4] 1000
        (1 / 10 ^ 6) = .ok (x, .converged) ∧
      x.length = 3 ∧
      L2norm Real.sqrt (vsub [6, 2, 4]
        ((DenseObj.of_rows 3 3 [[(5 : ℝ), 0, 1], [0, 2, 0], [1, 0, 3]]).mulVec x)) ≤
        1 / 10 ^ 6 :=
  (ConjugateGrad_meets_tolerance 3
    (DenseObj.of_rows 3 3 [[(5 : ℝ), 0, 1], [0, 2, 0], [1, 0, 3]]) rfl rfl
    (by
      intro i j hi hj
      interval_cases i <;> interval_cases j <;> simp [DenseObj.of_rows, DenseObj.get])
    (by
      intro x hx
      have e : quad_form 3 (DenseObj.of_rows 3 3 [[(5 : ℝ), 0, 1], [0, 2, 0], [1, 0, 3]]).get x =
          5 * x 0 ^ 2 + 2 * x 0 * x 2 + 2 * x 1 ^ 2 + 3 * x 2 ^ 2 := by
        simp [quad_form, Finset.sum_range_succ, DenseObj.of_rows, DenseObj.get]
        ring
      rw [e]
      obtain ⟨i, hi, hxi⟩ := hx
      have h0 : 0 < x 0 ^ 2 ∨ 0 < x 1 ^ 2 ∨ 0 < x 2 ^ 2 := by
        interval_cases i
        · left; positivity
        · right; left; positivity
        · right; right; positivity
      rcases h0 with h0 | h0 | h0
      · nlinarith [sq_nonneg (x 0 + x 2), sq_nonneg (x 1), sq_nonneg (x 2)]
      · nlinarith [sq_nonneg (x 0 + x 2), sq_nonneg (x 0), sq_nonneg (x 2)]
      · nlinarith [sq_nonneg (x 0 + x 2), sq_nonneg (x 0), sq_nonneg (x 1)])
    [6, 2, 4] rfl (1 / 10 ^ 6) (by norm_num) 1000 (by omega)).1

/-! ## Failure of `Substitution` -/

section SubstitutionFailure

variable {K : Type} [LinearOrderedField K]

theorem Substitution_row_ok (b : List K) (L : DenseObj K) (forward : Bool) (n : Nat)
    (x : List K) (i : Nat) (h : L.get i i ≠ 0) :
    ∃ x1, Substitution_row b L forward n x i = .ok x1 := by
  unfold Substitution_row
  rw [if_neg h]
  exact ⟨_, rfl⟩

theorem Substitution_row_error (b : List K) (L : DenseObj K) (forward : Bool) (n : Nat)
    (x : List K) (i : Nat) (h : L.get i i = 0) :
    Substitution_row b L forward n x i =
      .error (.runtime_error "Division by zero during substitution.") := by
  unfold Substitution_row
  rw [if_pos h]

/-- The loop of `Substitution` over the rows `l`: it completes when every diagonal
entry met is non-zero and throws at the first one that is zero. -/
theorem Substitution_fold (b : List K) (L : DenseObj K) (forward : Bool) (n : Nat) :
    ∀ (l : List Nat) (x : List K),
      ((∀ i, i ∈ l → L.get i i ≠ 0) → ∃ x1, l.foldlM (Substitution_row b L forward n) x = .ok x1) ∧
      ((∃ i, i ∈ l ∧ L.get i i = 0) → l.foldlM (Substitution_row b L forward n) x =
        .error (.runtime_error "Division by zero during substitution.")) := by
  intro l
  induction l with
  | nil =>
    intro x
    refine ⟨fun _ => ⟨x, rfl⟩, ?_⟩
    rintro ⟨i, hi, _⟩
    simp at hi
  | cons a l ih =>
    intro x
    rw [List.foldlM_cons]
    by_cases ha : L.get a a = 0
    · rw [Substitution_row_error b L forward n x a ha]
      refine ⟨fun hall => absurd ha (hall a (List.mem_cons_self a l)), fun _ => rfl⟩
    · obtain ⟨x1, hx1⟩ := Substitution_row_ok b L forward n x a ha
      rw [hx1]
      refine ⟨fun hall => (ih x1).1 (fun i hi => hall i (List.mem_cons_of_mem a hi)), ?_⟩
      rintro ⟨i, hi, hz⟩
      rcases List.mem_cons.mp hi with e | e
      · subst e; exact absurd hz ha
      · exact (ih x1).2 ⟨i, e, hz⟩

/-- C27. For every `b` of length `n` and matrix `L`, `Substitution(b, L, forward)`
in either direction raises a runtime error if and only if some diagonal entry
`L(i,i)` with `i` in `[0, n)` is exactly zero; with a non-zero diagonal, of
whatever magnitude, it returns. -/
theorem Substitution_fails_iff (b : List K) (L : DenseObj K) (forward : Bool) :
    ((∃ what, Substitution b L forward = .error (.runtime_error what)) ↔
      ∃ i, i < b.length ∧ L.get i i = 0) ∧
    ((∀ i, i < b.length → L.get i i ≠ 0) → ∃ x, Substitution b L forward = .ok x) := by
  have hmem : ∀ i, i ∈ (if forward then List.range b.length else (List.range b.length).reverse) ↔
      i < b.length := by
    intro i
    cases forward <;> simp
  have hfold := Substitution_fold b L forward b.length
    (if forward then List.range b.length else (List.range b.length).reverse)
    (List.replicate b.length 0)
  have hok : (∀ i, i < b.length → L.get i i ≠ 0) → ∃ x, Substitution b L forward = .ok x :=
    fun hall => hfold.1 (fun i hi => hall i ((hmem i).mp hi))
  refine ⟨⟨?_, ?_⟩, hok⟩
  · rintro ⟨what, hw⟩
    by_contra hcon
    obtain ⟨x, hx⟩ := hok (fun i hi hz => hcon ⟨i, hi, hz⟩)
    rw [hx] at hw
    cases hw
  · rintro ⟨i, hi, hz⟩
    exact ⟨_, hfold.2 ⟨i, (hmem i).mpr hi, hz⟩⟩

end SubstitutionFailure

/-! ## Parameter validation of `RungeKutta` -/

namespace RungeKutta

section Validation

variable {K : Type} [LinearOrderedField K]

theorem validateParameters_ok_iff (y : List K) (h : K) (n : Nat) :
    validateParameters y h n = .ok () ↔ ¬ (y = [] ∨ h ≤ 0 ∨ n = 0) := by
  unfold validateParameters
  by_cases h1 : y.length = 0
  · rw [if_pos h1]
    have : y = [] := List.length_eq_zero.mp h1
    simp [this]
  · rw [if_neg h1]
    have hy : y ≠ [] := fun e => h1 (by rw [e]; rfl)
    by_cases h2 : h ≤ 0
    · rw [if_pos h2]
      simp [h2]
    · rw [if_neg h2]
      by_cases h3 : n = 0
      · rw [if_pos h3]
        simp [h3]
      · rw [if_neg h3]
        simp [hy, h2, h3]

theorem validateParameters_cases (y : List K) (h : K) (n : Nat) :
    validateParameters y h n = .ok () ∨
      ∃ what, validateParameters y h n = .error (.invalid_argument what) := by
  cases hv : validateParameters y h n with
  | ok u => exact Or.inl rfl
  | error e =>
    obtain ⟨what, hw⟩ := validateParameters_error y h n e hv
    exact Or.inr ⟨what, by rw [hw]⟩

/-- The traced `solve` agrees with `solve` on the outcome and on the final `y`. -/
theorem solve_traced_eq (y : List K) (f : List K → List K) (h : K) (n : Nat) (callback : Bool) :
    (∀ e, solve y f h n = .error e ↔ (solve_traced y f h n callback).1 = .error e) ∧
    (∀ y1, solve y f h n = .ok y1 ↔
      ((solve_traced y f h n callback).1 = .ok () ∧ (solve_traced y f h n callback).2.y = y1)) := by
  have hfold : ∀ (l : List Nat) (t : SolveTrace K),
      (l.foldl (solve_pass f h callback) t).y = l.foldl (fun y _ => solve_step f h y) t.y := by
    intro l
    induction l with
    | nil => intro t; rfl
    | cons a l ih => intro t; rw [List.foldl_cons, List.foldl_cons, ih]; rfl
  unfold solve solve_traced
  cases hv : validateParameters y h n with
  | error e =>
    refine ⟨fun e1 => ?_, fun y1 => ?_⟩
    · constructor <;> intro h1 <;> cases h1 <;> rfl
    · constructor
      · intro h1; cases h1
      · rintro ⟨h1, _⟩; cases h1
  | ok u =>
    refine ⟨fun e1 => ?_, fun y1 => ?_⟩
    · constructor <;> intro h1 <;> cases h1
    · simp only [hfold]
      constructor
      · intro h1; cases h1; exact ⟨trivial, rfl⟩
      · rintro ⟨_, h1⟩; rw [← h1]

/-- C28. `solve(y, f, h, n)` raises an invalid-argument error if and only if `y`
is empty or `h <= 0` or `n = 0`, and then `f` and the callback have not been
called and `y` is unchanged; `solveAdaptive` raises an invalid-argument error
when `tol <= 0` or `max_steps = 0`. -/
theorem solve_validation (y : List K) (f : List K → List K) (h : K) (n : Nat)
    (callback : Bool) :
    ((∃ what, (solve_traced y f h n callback).1 = .error (.invalid_argument what)) ↔
      (y = [] ∨ h ≤ 0 ∨ n = 0)) ∧
    ((y = [] ∨ h ≤ 0 ∨ n = 0) → (solve_traced y f h n callback).2 = ⟨y, 0, []⟩) ∧
    (∀ (sqrt : K → K) (pow : K → K → K) (tol sf mn mx : K) (max_steps fuel : Nat),
      (tol ≤ 0 ∨ max_steps = 0) →
      ∃ what, solveAdaptive sqrt pow y f h tol max_steps sf mn mx fuel =
        some (.error (.invalid_argument what))) := by
  refine ⟨?_, ?_, ?_⟩
  · unfold solve_traced
    rcases validateParameters_cases y h n with hv | ⟨what, hv⟩
    · rw [hv]
      have := (validateParameters_ok_iff y h n).mp hv
      constructor
      · rintro ⟨w, hw⟩; cases hw
      · intro hc; exact absurd hc this
    · rw [hv]
      constructor
      · intro _
        by_contra hc
        rw [(validateParameters_ok_iff y h n).mpr hc] at hv
        cases hv
      · intro _; exact ⟨what, rfl⟩
  · intro hc
    unfold solve_traced
    rcases validateParameters_cases y h n with hv | ⟨what, hv⟩
    · exact absurd hc ((validateParameters_ok_iff y h n).mp hv)
    · rw [hv]
  · intro sqrt pow tol sf mn mx max_steps fuel hc
    unfold solveAdaptive
    rcases validateParameters_cases y h max_steps with hv | ⟨what, hv⟩
    · rw [hv]
      dsimp only
      rcases hc with hc | hc
      · rw [if_pos hc]; exact ⟨_, rfl⟩
      · exact absurd (Or.inr (Or.inr hc)) ((validateParameters_ok_iff y h max_steps).mp hv)
    · rw [hv]; exact ⟨what, rfl⟩

end Validation

end RungeKutta

/-! ## Shape checks of the sparse operations -/

section ShapeChecks

theorem foldlM_error {σ ι : Type} (P : Error → Prop) (f : σ → ι → Except Error σ)
    (hf : ∀ s i e, f s i = .error e → P e) :
    ∀ (l : List ι) (s : σ) (e : Error), l.foldlM f s = .error e → P e := by
  intro l
  induction l with
  | nil => intro s e h; cases h
  | cons a l ih =>
    intro s e h
    rw [List.foldlM_cons] at h
    cases hfa : f s a with
    | error e1 =>
      rw [hfa] at h
      cases h
      exact hf s a e hfa
    | ok s1 =>
      rw [hfa] at h
      exact ih s1 e h

theorem bind_pure_error {σ τ : Type} (x : Except Error σ) (g : σ → τ) (e : Error)
    (h : (x >>= fun r => pure (g r)) = Except.error e) : x = .error e := by
  cases x with
  | error e1 => cases h; rfl
  | ok r => cases h

variable {α : Type}

theorem addValue_error [Zero α] [DecidableEq α] (A : SparseMatrixCSC α) (row col : Nat)
    (value : α) (e : Error) (h : A.addValue row col value = .error e) :
    ∃ what, e = .out_of_range what := by
  unfold SparseMatrixCSC.addValue at h
  split at h
  · cases h; exact ⟨_, rfl⟩
  · split at h <;> cases h

theorem get_error [Zero α] (A : SparseMatrixCSC α) (row col : Nat) (e : Error)
    (h : A.get row col = .error e) : ∃ what, e = .out_of_range what := by
  unfold SparseMatrixCSC.get at h
  split at h
  · cases h; exact ⟨_, rfl⟩
  · simp only at h
    split at h <;> cases h

theorem addValue_entries_error [Zero α] [DecidableEq α] (g : Nat × α → Nat × Nat)
    (entries : List (Nat × α)) (result : SparseMatrixCSC α) (e : Error)
    (h : entries.foldlM (fun (result : SparseMatrixCSC α) entry =>
      if entry.2 ≠ 0 then result.addValue (g entry).1 (g entry).2 entry.2 else pure result)
      result = .error e) : ∃ what, e = .out_of_range what := by
  refine foldlM_error (fun e => ∃ what, e = .out_of_range what) _ ?_ entries result e h
  intro s i e1 h1
  beta_reduce at h1
  split at h1
  · exact addValue_error _ _ _ _ _ h1
  · cases h1

theorem Operator_invalid_iff [Zero α] [DecidableEq α] (A B : SparseMatrixCSC α)
    (operation : α → α → α) :
    (∃ what, A.Operator B operation = .error (.invalid_argument what)) ↔
      (A._n ≠ B._n ∨ A._m ≠ B._m) := by
  unfold SparseMatrixCSC.Operator
  by_cases hs : A._n ≠ B._n ∨ A._m ≠ B._m
  · rw [if_pos hs]
    exact ⟨fun _ => hs, fun _ => ⟨_, rfl⟩⟩
  · rw [if_neg hs]
    refine ⟨?_, fun h => absurd h hs⟩
    rintro ⟨what, hw⟩
    exfalso
    have hfold := bind_pure_error _ _ _ hw
    obtain ⟨w2, hw2⟩ := foldlM_error (fun e => ∃ what, e = .out_of_range what) _
      (fun s col e1 h1 => addValue_entries_error (fun entry => (entry.1, col)) _ s e1 h1)
      _ _ _ hfold
    cases hw2

theorem mul_invalid_iff [CommRing α] [DecidableEq α] (A B : SparseMatrixCSC α) :
    (∃ what, A.mul B = .error (.invalid_argument what)) ↔ A._m ≠ B._n := by
  unfold SparseMatrixCSC.mul
  by_cases hs : A._m ≠ B._n
  · rw [if_pos hs]
    exact ⟨fun _ => hs, fun _ => ⟨_, rfl⟩⟩
  · rw [if_neg hs]
    refine ⟨?_, fun h => absurd h hs⟩
    rintro ⟨what, hw⟩
    exfalso
    have hfold := bind_pure_error _ _ _ hw
    obtain ⟨w2, hw2⟩ := foldlM_error (fun e => ∃ what, e = .out_of_range what) _
      (fun s row e1 h1 => addValue_entries_error (fun entry => (row, entry.1)) _ s e1 h1)
      _ _ _ hfold
    cases hw2

theorem mulVec_invalid_iff [CommRing α] [DecidableEq α] (A : SparseMatrixCSC α)
    (v : List α) :
    (∃ what, A.mulVec v = .error (.invalid_argument what)) ↔ v.length ≠ A._m := by
  unfold SparseMatrixCSC.mulVec
  by_cases hs : A._m ≠ v.length
  · rw [if_pos hs]
    exact ⟨fun _ h => hs h.symm, fun _ => ⟨_, rfl⟩⟩
  · rw [if_neg hs]
    refine ⟨?_, fun h => absurd (fun e => h e.symm) hs⟩
    rintro ⟨what, hw⟩
    exfalso
    obtain ⟨w2, hw2⟩ := foldlM_error (fun e => ∃ what, e = .out_of_range what) _
      (fun s row e1 h1 => foldlM_error (fun e => ∃ what, e = .out_of_range what) _
        (fun s2 col e2 h2 => by
          cases hg : A.get row col with
          | error e3 =>
            simp only [hg, bind, Except.bind] at h2
            cases h2
            exact get_error A row col _ hg
          | ok a =>
            simp only [hg, bind, Except.bind, pure, Except.pure] at h2
            cases h2) _ s e1 h1)
      _ _ _ hw
    cases hw2

/-- C23. `A + B` and `A - B` raise an invalid-argument error if and only if the
shapes of `A` and `B` differ; `A * v` does if and only if the size of `v` differs
from the number of columns of `A`; `A * B` does if and only if the number of
columns of `A` differs from the number of rows of `B`. -/
theorem sparse_shape_checks [CommRing α] [DecidableEq α] (A B : SparseMatrixCSC α)
    (v : List α) :
    ((∃ what, A.add B = .error (.invalid_argument what)) ↔ (A._n ≠ B._n ∨ A._m ≠ B._m)) ∧
    ((∃ what, A.sub B = .error (.invalid_argument what)) ↔ (A._n ≠ B._n ∨ A._m ≠ B._m)) ∧
    ((∃ what, A.mulVec v = .error (.invalid_argument what)) ↔ v.length ≠ A._m) ∧
    ((∃ what, A.mul B = .error (.invalid_argument what)) ↔ A._m ≠ B._n) :=
  ⟨Operator_invalid_iff A B _, Operator_invalid_iff A B _, mulVec_invalid_iff A v,
    mul_invalid_iff A B⟩

end ShapeChecks

/-! ## `addValue` on indices outside the shape, and repeated `finalize` -/

theorem addValue_int_of_nat {α : Type} [Zero α] [DecidableEq α] (A : SparseMatrixCSC α)
    (row col : Nat) (value : α) :
    addValue_int (A._n : Int) (A._m : Int)
        (A.values, A.row_indices_idx.map row_col_idx.toInt, A.col_t_ptr) row col value =
      (A.addValue row col value).map fun B =>
        (B.values, B.row_indices_idx.map row_col_idx.toInt, B.col_t_ptr) := by
  unfold addValue_int SparseMatrixCSC.addValue
  by_cases h1 : col ≥ A._m ∨ row ≥ A._n
  · rw [if_pos h1, if_pos (by omega)]
    rfl
  · rw [if_neg h1, if_neg (by omega)]
    by_cases h2 : value = 0
    · rw [if_pos h2, if_pos h2]
      rfl
    · rw [if_neg h2, if_neg h2, if_pos (by omega)]
      simp [Except.map, row_col_idx.toInt]

/-- C21. `addValue` tests only `col >= _m || row >= _n`: on a `1 x 1` matrix the
call `addValue(-1, 0, 5)` does not raise the out-of-range error and stores a
triplet with row `-1`; in general the error is raised exactly when
`col >= _m` or `row >= _n`, a negative index or not. -/
theorem addValue_accepts_negative_index :
    addValue_int 1 1 (([] : List Int), [], [0, 0]) (-1) 0 5 = .ok ([5], [⟨-1, 0, 0⟩], [0, 1]) ∧
    ∀ (rows cols : Int) (st : List Int × List row_col_idx_int × List Nat) (row col : Int)
      (value : Int),
      (∃ what, addValue_int rows cols st row col value = .error (.out_of_range what)) ↔
        (col ≥ cols ∨ row ≥ rows) := by
  refine ⟨rfl, ?_⟩
  intro rows cols st row col value
  unfold addValue_int
  by_cases h1 : col ≥ cols ∨ row ≥ rows
  · rw [if_pos h1]
    exact ⟨fun _ => h1, fun _ => ⟨_, rfl⟩⟩
  · rw [if_neg h1]
    refine ⟨?_, fun h => absurd h h1⟩
    rintro ⟨what, hw⟩
    split at hw <;> cases hw

/-- C22. On a `2 x 1` sparse matrix, `setMatrixValue(0, 0, 7)` followed by
`setMatrixValue(1, 0, 5)` leaves a matrix that reads `A(1,0) = 0`: the second
`finalize()` appends the rows of all triplets to `row_indices` again, which
becomes `[0, 0, 1]` for the two values `[7, 5]`. -/
theorem setMatrixValue_twice_reads_wrong :
    ∃ M : SparseMatrixCSC Int,
      setMatrixValues 2 1 [(0, 0, (7 : Int)), (1, 0, 5)] = .ok M ∧
      M.values = [7, 5] ∧ M.row_indices = [0, 0, 1] ∧ M.col_ptr = [0, 2] ∧
      M.get 0 0 = .ok 7 ∧ M.get 1 0 = .ok 0 :=
  ⟨_, rfl, rfl, rfl, rfl, rfl, rfl⟩

/-! ## The column pointers after `finalize` -/

section ColPtr

variable {α : Type} [Zero α] [DecidableEq α]

/-- Every non-zero `addValue` call adds one triplet to its column, every other
call none. -/
theorem addValue_col_count (j : Nat) : ∀ (calls : List (Nat × Nat × α)) (A B : SparseMatrixCSC α),
    calls.foldlM (fun A c => A.addValue c.1 c.2.1 c.2.2) A = .ok B →
    B.row_indices_idx.countP (fun t => decide (t.col = j)) =
      A.row_indices_idx.countP (fun t => decide (t.col = j)) +
        calls.countP (fun c => decide (c.2.1 = j ∧ c.2.2 ≠ 0)) := by
  intro calls
  induction calls with
  | nil =>
    intro A B h
    cases h
    simp
  | cons c calls ih =>
    intro A B h
    rw [List.foldlM_cons] at h
    unfold SparseMatrixCSC.addValue at h
    by_cases h1 : c.2.1 ≥ A._m ∨ c.1 ≥ A._n
    · rw [if_pos h1] at h
      cases h
    · rw [if_neg h1] at h
      by_cases h2 : c.2.2 = 0
      · rw [if_pos h2] at h
        rw [ih A B h, List.countP_cons]
        simp [h2]
      · rw [if_neg h2] at h
        rw [ih _ B h, List.countP_cons]
        simp only [List.countP_append, List.countP_cons, List.countP_nil]
        by_cases h3 : c.2.1 = j
        · simp [h2, h3]
          omega
        · simp [h3]

/-- What `addValue` and the prefix sums of `finalize()` leave in `col_ptr`: one
entry per column plus one, starting at `0`, non-decreasing, ending at the number
of stored values, with the non-zero insertions of column `j` between entries `j`
and `j + 1`. The sort of `finalize()` does not enter. -/
theorem col_ptr_of_build (rows cols : Nat) (calls : List (Nat × Nat × α))
    (hin : ∀ c ∈ calls, c.1 < rows ∧ c.2.1 < cols) :
    ∃ A, build rows cols calls = .ok A ∧
      A.col_ptr.length = cols + 1 ∧
      A.col_ptr.getD 0 0 = 0 ∧
      (∀ j, j < cols → A.col_ptr.getD j 0 ≤ A.col_ptr.getD (j + 1) 0) ∧
      A.col_ptr.getD cols 0 = A.values.length ∧
      ∀ j, j < cols → A.col_ptr.getD (j + 1) 0 - A.col_ptr.getD j 0 =
        calls.countP (fun c => decide (c.2.1 = j ∧ c.2.2 ≠ 0)) := by
  obtain ⟨B, hB, hS⟩ := addValues_staged rows cols calls hin
  have hperm := std_sort_perm row_col_idx.lt B.row_indices_idx
  have hcp : ∀ j, j ≤ cols → B.finalize.col_ptr.getD j 0 =
      B.row_indices_idx.countP (fun t => decide (t.col < j)) := by
    intro j hj
    rw [hS.finalize_col_ptr, partial_sum_col_t_ptr hS j hj]
  have hcount : ∀ j, B.row_indices_idx.countP (fun t => decide (t.col = j)) =
      calls.countP (fun c => decide (c.2.1 = j ∧ c.2.2 ≠ 0)) := by
    intro j
    have h := addValue_col_count j calls (SparseMatrixCSC.new rows cols) B hB
    rw [h]
    simp [SparseMatrixCSC.new]
  refine ⟨B.finalize, by simp [build, hB, Except.map], ?_, ?_, ?_, ?_, ?_⟩
  · rw [hS.finalize_col_ptr, partial_sum_length, hS.col_t_len]
  · rw [hcp 0 (Nat.zero_le _)]
    simp
  · intro j hj
    rw [hcp j (by omega), hcp (j + 1) (by omega), countP_col_lt_succ]
    omega
  · rw [hcp cols (le_refl _)]
    show _ = (SparseMatrixCSC.finalize_values B.values _ 0 B.values).length
    rw [finalize_values_length, hS.len, List.countP_eq_length]
    intro t ht
    simpa using (hS.idx_lt t ht).2.1
  · intro j hj
    rw [hcp j (by omega), hcp (j + 1) (by omega), countP_col_lt_succ, hcount j]
    omega

/-- The number of triplets staged by a list of calls is the number of its
non-zero values. -/
theorem staged_count (calls : List (Nat × Nat × α)) : ∀ (A B : SparseMatrixCSC α),
    calls.foldlM (fun A c => A.addValue c.1 c.2.1 c.2.2) A = .ok B →
    B.row_indices_idx.length =
      A.row_indices_idx.length + calls.countP (fun c => decide (c.2.2 ≠ 0)) := by
  induction calls with
  | nil =>
    intro A B h
    cases h
    simp
  | cons c calls ih =>
    intro A B h
    rw [List.foldlM_cons] at h
    unfold SparseMatrixCSC.addValue at h
    by_cases h1 : c.2.1 ≥ A._m ∨ c.1 ≥ A._n
    · rw [if_pos h1] at h
      cases h
    · rw [if_neg h1] at h
      by_cases h2 : c.2.2 = 0
      · rw [if_pos h2] at h
        rw [ih A B h, List.countP_cons]
        simp [h2]
      · rw [if_neg h2] at h
        rw [ih _ B h, List.countP_cons]
        simp [h2]
        omega

/-- After `finalize()` as many triplets are staged as non-zero values were
inserted. -/
theorem staged_count_of_build (rows cols : Nat) (calls : List (Nat × Nat × α))
    (A : SparseMatrixCSC α) (h : build rows cols calls = .ok A) :
    A.row_indices_idx.length = calls.countP (fun c => decide (c.2.2 ≠ 0)) := by
  unfold build at h
  cases hB : addValues rows cols calls with
  | error e =>
    rw [hB] at h
    cases h
  | ok B =>
    rw [hB] at h
    have h' : B.finalize = A := Except.ok.inj h
    rw [← h']
    show (std_sort row_col_idx.lt B.row_indices_idx).length = _
    rw [(std_sort_perm row_col_idx.lt B.row_indices_idx).length_eq,
      staged_count calls (SparseMatrixCSC.new rows cols) B hB]
    simp [SparseMatrixCSC.new]

/-- C29 (failing input). On a 1 x 17 matrix the seventeen calls
`addValue(0, c, 1)` for `c = 0, 1, ..., 16` stage seventeen triplets, more than
the sixteen up to which `std::sort` is an insertion sort. The comparison of the
struct holds between a triplet and itself. The sort starts with
`__unguarded_partition_pivot`: the median step brings the triplet of column `8` to
the front, every triplet of the vector then compares below this pivot, and the
first scan of `__unguarded_partition` runs past the end of the vector, so that
`finalize()` never reaches the prefix sums that fill `col_ptr`. With at most
sixteen non-zero insertions, all inside the shape, `finalize()` returns and
`col_ptr` has one entry per column plus one, starts at `0`, is non-decreasing,
ends at the number of stored values, and `col_ptr[j+1] - col_ptr[j]` is the
number of non-zero values inserted into column `j`. -/
theorem finalize_sort_leaves_vector :
    (∃ M, addValues 1 17 ((List.range 17).map fun c => (0, c, (1 : Int))) = .ok M ∧
      M.row_indices_idx.length = 17 ∧
      row_col_idx.lt ⟨0, 8, 8⟩ ⟨0, 8, 8⟩ = true ∧
      (∃ a, move_median_to_first row_col_idx.lt M.row_indices_idx 0 1 8 16 = some a ∧
        a[0]? = some ⟨0, 8, 8⟩ ∧ ∀ t ∈ a, row_col_idx.lt t ⟨0, 8, 8⟩ = true) ∧
      unguarded_partition_pivot row_col_idx.lt M.row_indices_idx 0 17 = none) ∧
    (∀ (rows cols : Nat) (calls : List (Nat × Nat × α)),
      (∀ c ∈ calls, c.1 < rows ∧ c.2.1 < cols) →
      calls.countP (fun c => decide (c.2.2 ≠ 0)) ≤ 16 →
      ∃ A, build rows cols calls = .ok A ∧
        A.row_indices_idx.length ≤ 16 ∧
        A.col_ptr.length = cols + 1 ∧
        A.col_ptr.getD 0 0 = 0 ∧
        (∀ j, j < cols → A.col_ptr.getD j 0 ≤ A.col_ptr.getD (j + 1) 0) ∧
        A.col_ptr.getD cols 0 = A.values.length ∧
        ∀ j, j < cols → A.col_ptr.getD (j + 1) 0 - A.col_ptr.getD j 0 =
          calls.countP (fun c => decide (c.2.1 = j ∧ c.2.2 ≠ 0))) := by
  refine ⟨⟨_, rfl, rfl, rfl, ⟨_, rfl, rfl, by decide⟩, rfl⟩, ?_⟩
  intro rows cols calls hin h16
  obtain ⟨A, hA, h1, h2, h3, h4, h5⟩ := col_ptr_of_build rows cols calls hin
  refine ⟨A, hA, ?_, h1, h2, h3, h4, h5⟩
  exact le_trans (le_of_eq (staged_count_of_build rows cols calls A hA)) h16

end ColPtr

/-! ## The delivered matrix-vector product and the CSC walk -/

section Matvec

variable {α : Type} [CommRing α]

theorem foldl_modify_length (val : Nat → α) (pos : Nat → Nat) : ∀ (l : List Nat) (r : List α),
    (l.foldl (fun r k => r.modify (· + val k) (pos k)) r).length = r.length := by
  intro l
  induction l with
  | nil => intro r; rfl
  | cons k l ih => intro r; rw [List.foldl_cons, ih, List.length_modify]

theorem foldl_modify_getD (val : Nat → α) (pos : Nat → Nat) (i : Nat) :
    ∀ (l : List Nat) (r : List α), i < r.length →
      (l.foldl (fun r k => r.modify (· + val k) (pos k)) r).getD i 0 =
        r.getD i 0 + (l.map fun k => if pos k = i then val k else 0).sum := by
  intro l
  induction l with
  | nil => intro r _; simp
  | cons k l ih =>
    intro r hi
    rw [List.foldl_cons, ih _ (by rw [List.length_modify]; exact hi), getD_modify_eq,
      List.map_cons, List.sum_cons]
    by_cases h : pos k = i
    · rw [if_pos ⟨h, by omega⟩, if_pos h, add_assoc]
    · rw [if_neg (fun e => h e.1), if_neg h, zero_add]

theorem sum_ite_none (val : Nat → α) (pos : Nat → Nat) (i : Nat) : ∀ l : List Nat,
    (∀ k, k ∈ l → pos k ≠ i) → (l.map fun k => if pos k = i then val k else 0).sum = 0 := by
  intro l
  induction l with
  | nil => intro _; rfl
  | cons k l ih =>
    intro h
    rw [List.map_cons, List.sum_cons, if_neg (h k (List.mem_cons_self k l)),
      ih (fun a ha => h a (List.mem_cons_of_mem k ha)), add_zero]

theorem sum_ite_single (val : Nat → α) (pos : Nat → Nat) (i k0 : Nat) : ∀ l : List Nat,
    k0 ∈ l → l.Nodup → (∀ k, k ∈ l → pos k = i → k = k0) → pos k0 = i →
    (l.map fun k => if pos k = i then val k else 0).sum = val k0 := by
  intro l
  induction l with
  | nil => intro h; simp at h
  | cons k l ih =>
    intro hmem hnd huniq hk0
    rw [List.map_cons, List.sum_cons]
    have hnd2 := List.nodup_cons.mp hnd
    rcases List.mem_cons.mp hmem with e | e
    · subst e
      rw [if_pos hk0, sum_ite_none val pos i l, add_zero]
      intro a ha hpa
      have := huniq a (List.mem_cons_of_mem k0 ha) hpa
      subst this
      exact hnd2.1 ha
    · have hne : pos k ≠ i := by
        intro hp
        have := huniq k (List.mem_cons_self k l) hp
        subst this
        exact hnd2.1 e
      rw [if_neg hne, zero_add]
      exact ih e hnd2.2 (fun a ha => huniq a (List.mem_cons_of_mem k ha)) hk0

theorem get_ok_at (A : SparseMatrixCSC α) (i j : Nat) (hi : i < A._n) (hj : j < A._m) :
    A.get i j = .ok (SparseMatrixCSC.at A i j) := by
  have hrange : ¬ (i ≥ A._n ∨ j ≥ A._m) := by omega
  unfold SparseMatrixCSC.at entry
  simp only [SparseMatrixCSC.get, if_neg hrange]
  split <;> rfl

/-- Under the CSC invariants, the slots of column `j` that hold row `i`
contribute the element `A(i, j)`. -/
theorem block_sum_eq_at (A : SparseMatrixCSC α) (h : CSC A) (i j : Nat) (hi : i < A._n)
    (hj : j < A._m) (x : α) :
    ((List.range' (A.col_ptr.getD j 0) (A.col_ptr.getD (j + 1) 0 - A.col_ptr.getD j 0)).map
      fun k => if A.row_indices.getD k 0 = i then A.values.getD k 0 * x else 0).sum =
      SparseMatrixCSC.at A i j * x := by
  have hle := h.col_ptr_le hj
  have hread := get_eq_of_CSC A h i j hi hj
  have hat := get_ok_at A i j hi hj
  have hmem : ∀ k, k ∈ List.range' (A.col_ptr.getD j 0)
      (A.col_ptr.getD (j + 1) 0 - A.col_ptr.getD j 0) ↔
      (A.col_ptr.getD j 0 ≤ k ∧ k < A.col_ptr.getD (j + 1) 0) := by
    intro k
    rw [List.mem_range'_1]
    omega
  by_cases hex : ∃ k, A.col_ptr.getD j 0 ≤ k ∧ k < A.col_ptr.getD (j + 1) 0 ∧
      A.row_indices.getD k 0 = i
  · obtain ⟨k0, hk1, hk2, hk3⟩ := hex
    have hv := hread.1 k0 hk1 hk2 hk3
    rw [hat] at hv
    rw [Except.ok.inj hv]
    apply sum_ite_single (fun k => A.values.getD k 0 * x) (fun k => A.row_indices.getD k 0) i k0
    · exact (hmem k0).mpr ⟨hk1, hk2⟩
    · exact List.nodup_range' _ _
    · intro k hk hp
      obtain ⟨hk4, hk5⟩ := (hmem k).mp hk
      rcases Nat.lt_trichotomy k k0 with hlt | heq | hgt
      · have := h.rows_strict hj k0 k hk4 hlt hk2
        omega
      · exact heq
      · have := h.rows_strict hj k k0 hk1 hgt hk5
        omega
    · exact hk3
  · have hv := hread.2 (fun k hk1 hk2 hk3 => hex ⟨k, hk1, hk2, hk3⟩)
    rw [hat] at hv
    rw [sum_ite_none (fun k => A.values.getD k 0 * x) (fun k => A.row_indices.getD k 0) i]
    · rw [Except.ok.inj hv, zero_mul]
    · intro k hk hp
      obtain ⟨hk4, hk5⟩ := (hmem k).mp hk
      exact hex ⟨k, hk4, hk5, hp⟩

end Matvec

section MatvecRefinement

variable {α : Type} [CommRing α]

/-- Entry `i` of the CSC walk over the columns `l`. -/
theorem csc_walk_getD (A : SparseMatrixCSC α) (h : CSC A) (v : List α) (i : Nat)
    (hi : i < A._n) : ∀ (l : List Nat) (r : List α), (∀ col, col ∈ l → col < A._m) →
      i < r.length →
      (l.foldl (fun result col =>
        (List.range' (A.col_ptr.getD col 0)
            (A.col_ptr.getD (col + 1) 0 - A.col_ptr.getD col 0)).foldl (fun result k =>
          result.modify (· + A.values.getD k 0 * v.getD col 0) (A.row_indices.getD k 0)) result)
        r).getD i 0 =
        r.getD i 0 + (l.map fun col => SparseMatrixCSC.at A i col * v.getD col 0).sum := by
  intro l
  induction l with
  | nil => intro r _ _; simp
  | cons col l ih =>
    intro r hl hir
    rw [List.foldl_cons, ih _ (fun c hc => hl c (List.mem_cons_of_mem col hc))
      (by rw [foldl_modify_length (fun k => A.values.getD k 0 * v.getD col 0)
        (fun k => A.row_indices.getD k 0)]; exact hir),
      foldl_modify_getD (fun k => A.values.getD k 0 * v.getD col 0)
        (fun k => A.row_indices.getD k 0) i _ r hir,
      block_sum_eq_at A h i col hi (hl col (List.mem_cons_self col l)),
      List.map_cons, List.sum_cons, add_assoc]

theorem csc_walk_length (A : SparseMatrixCSC α) (v : List α) : ∀ (l : List Nat) (r : List α),
    (l.foldl (fun result col =>
      (List.range' (A.col_ptr.getD col 0)
          (A.col_ptr.getD (col + 1) 0 - A.col_ptr.getD col 0)).foldl (fun result k =>
        result.modify (· + A.values.getD k 0 * v.getD col 0) (A.row_indices.getD k 0)) result)
      r).length = r.length := by
  intro l
  induction l with
  | nil => intro r; rfl
  | cons col l ih =>
    intro r
    rw [List.foldl_cons, ih, foldl_modify_length (fun k => A.values.getD k 0 * v.getD col 0)
      (fun k => A.row_indices.getD k 0)]

/-- The inner loop of the delivered product for one row. -/
theorem mulVec_row (A : SparseMatrixCSC α) (v : List α) (row : Nat) (hrow : row < A._n) :
    ∀ (l : List Nat) (r : List α), (∀ col, col ∈ l → col < A._m) → row < r.length →
      ∃ r1, l.foldlM (fun result col => do
          let a ← A.get row col
          pure (result.set row (result.getD row 0 + a * v.getD col 0))) r = .ok r1 ∧
        r1.length = r.length ∧
        (∀ i, i ≠ row → r1.getD i 0 = r.getD i 0) ∧
        r1.getD row 0 =
          r.getD row 0 + (l.map fun col => SparseMatrixCSC.at A row col * v.getD col 0).sum := by
  intro l
  induction l with
  | nil => intro r _ _; exact ⟨r, rfl, rfl, fun _ _ => rfl, by simp⟩
  | cons col l ih =>
    intro r hl hr
    obtain ⟨r1, h1, h2, h3, h4⟩ := ih (r.set row (r.getD row 0 +
      SparseMatrixCSC.at A row col * v.getD col 0))
      (fun c hc => hl c (List.mem_cons_of_mem col hc)) (by rw [List.length_set]; exact hr)
    refine ⟨r1, ?_, ?_, ?_, ?_⟩
    · rw [List.foldlM_cons, get_ok_at A row col hrow (hl col (List.mem_cons_self col l))]
      exact h1
    · rw [h2, List.length_set]
    · intro i hi
      rw [h3 i hi, getD_set_eq, if_neg (fun e => hi e.1.symm)]
    · rw [h4, getD_set_eq, if_pos ⟨rfl, hr⟩, List.map_cons, List.sum_cons, add_assoc]

/-- The outer loop of the delivered product over the rows `l`. -/
theorem mulVec_rows (A : SparseMatrixCSC α) (v : List α) :
    ∀ (l : List Nat) (r : List α), l.Nodup → (∀ row, row ∈ l → row < A._n) →
      r.length = A._n →
      ∃ r1, l.foldlM (fun result row =>
          (List.range A._m).foldlM (fun result col => do
            let a ← A.get row col
            pure (result.set row (result.getD row 0 + a * v.getD col 0))) result) r = .ok r1 ∧
        r1.length = A._n ∧
        ∀ i, r1.getD i 0 = if i ∈ l then
          r.getD i 0 + ((List.range A._m).map fun col =>
            SparseMatrixCSC.at A i col * v.getD col 0).sum
          else r.getD i 0 := by
  intro l
  induction l with
  | nil => intro r _ _ hr; exact ⟨r, rfl, hr, fun i => by simp⟩
  | cons row l ih =>
    intro r hnd hl hr
    have hnd2 := List.nodup_cons.mp hnd
    have hrow := hl row (List.mem_cons_self row l)
    obtain ⟨r0, g1, g2, g3, g4⟩ := mulVec_row A v row hrow (List.range A._m) r
      (fun c hc => List.mem_range.mp hc) (by rw [hr]; exact hrow)
    obtain ⟨r1, h1, h2, h3⟩ := ih r0 hnd2.2 (fun a ha => hl a (List.mem_cons_of_mem row ha))
      (by rw [g2, hr])
    refine ⟨r1, ?_, h2, ?_⟩
    · rw [List.foldlM_cons, g1]
      exact h1
    · intro i
      rw [h3 i]
      by_cases hi : i = row
      · subst hi
        rw [if_neg hnd2.1, if_pos (List.mem_cons_self i l), g4]
      · rw [g3 i hi]
        by_cases hm : i ∈ l
        · rw [if_pos hm, if_pos (List.mem_cons_of_mem row hm)]
        · rw [if_neg hm, if_neg (fun hc => by
            rcases List.mem_cons.mp hc with e | e
            · exact hi e
            · exact hm e)]

variable [DecidableEq α]

/-- C30. For every sparse matrix `A` of shape `(m, n)` whose storage satisfies the
CSC invariants and every `v` of length `n`, the delivered `operator*` (which
reads `A(row, col)` at every position) returns the same vector as the
CSC-walking form of the specification. -/
theorem mulVec_refines_csc_walk (A : SparseMatrixCSC α) (h : CSC A) (v : List α)
    (hv : v.length = A._m) : A.mulVec v = .ok (mulVec_csc A v) := by
  obtain ⟨r1, h1, h2, h3⟩ := mulVec_rows A v (List.range A._n) (List.replicate A._n 0)
    (List.nodup_range _) (fun a ha => List.mem_range.mp ha) (List.length_replicate _ _)
  unfold SparseMatrixCSC.mulVec
  rw [if_neg (fun e => e hv.symm), h1]
  congr 1
  have hlen : (mulVec_csc A v).length = A._n := by
    unfold mulVec_csc
    rw [csc_walk_length, List.length_replicate]
  apply List.ext_getElem (by rw [h2, hlen])
  intro i hi1 hi2
  rw [← getD_eq_getElem_of_lt _ i 0 hi1, ← getD_eq_getElem_of_lt _ i 0 hi2, h3 i,
    if_pos (List.mem_range.mpr (by omega))]
  unfold mulVec_csc
  rw [csc_walk_getD A h v i (by omega) _ _ (fun c hc => List.mem_range.mp hc)
    (by rw [List.length_replicate]; omega)]

end MatvecRefinement

theorem mulVec_refines_csc_walk_witness :
    CSC (of_storage 2 3 [(1 : Int), 3, 2] [0, 1, 0] [0, 1, 2, 3]) ∧
    (of_storage 2 3 [(1 : Int), 3, 2] [0, 1, 0] [0, 1, 2, 3]).mulVec [1, 10, 100] =
      .ok (mulVec_csc (of_storage 2 3 [(1 : Int), 3, 2] [0, 1, 0] [0, 1, 2, 3]) [1, 10, 100]) :=
  ⟨by decide, mulVec_refines_csc_walk _ (by decide) [1, 10, 100] rfl⟩

/-! ## Pivot search and failure of `PivotLU` -/

section Pivoting

variable {K : Type} [LinearOrderedField K]

/-- The pivot search keeps the first row of largest absolute value seen so far. -/
theorem PivotLU_pivot_scan (A : DenseObj K) (j : Nat) : ∀ (len s : Nat) (mx : Nat × K),
    j ≤ mx.1 → mx.1 < s → mx.2 = |A.get mx.1 j| →
    (∀ i, j ≤ i → i < s → |A.get i j| ≤ mx.2) →
    (∀ i, j ≤ i → i < mx.1 → |A.get i j| < mx.2) →
    j ≤ ((List.range' s len).foldl (fun mx i =>
        if |A.get i j| > mx.2 then (i, |A.get i j|) else mx) mx).1 ∧
    ((List.range' s len).foldl (fun mx i =>
        if |A.get i j| > mx.2 then (i, |A.get i j|) else mx) mx).1 < s + len ∧
    ((List.range' s len).foldl (fun mx i =>
        if |A.get i j| > mx.2 then (i, |A.get i j|) else mx) mx).2 =
      |A.get ((List.range' s len).foldl (fun mx i =>
        if |A.get i j| > mx.2 then (i, |A.get i j|) else mx) mx).1 j| ∧
    (∀ i, j ≤ i → i < s + len → |A.get i j| ≤ ((List.range' s len).foldl (fun mx i =>
        if |A.get i j| > mx.2 then (i, |A.get i j|) else mx) mx).2) ∧
    (∀ i, j ≤ i → i < ((List.range' s len).foldl (fun mx i =>
        if |A.get i j| > mx.2 then (i, |A.get i j|) else mx) mx).1 →
      |A.get i j| < ((List.range' s len).foldl (fun mx i =>
        if |A.get i j| > mx.2 then (i, |A.get i j|) else mx) mx).2) := by
  intro len
  induction len with
  | zero =>
    intro s mx h1 h2 h3 h4 h5
    simp only [List.range'_zero, List.foldl_nil]
    exact ⟨h1, by omega, h3, fun i hi1 hi2 => h4 i hi1 (by omega), h5⟩
  | succ len ih =>
    intro s mx h1 h2 h3 h4 h5
    rw [List.range'_succ, List.foldl_cons]
    have e : s + (len + 1) = s + 1 + len := by omega
    rw [e]
    by_cases hgt : |A.get s j| > mx.2
    · rw [if_pos hgt]
      apply ih (s + 1) (s, |A.get s j|) (by show j ≤ s; omega) (by show s < s + 1; omega) rfl
      · intro i hi1 hi2
        show |A.get i j| ≤ |A.get s j|
        by_cases hs : i = s
        · rw [hs]
        · exact le_trans (h4 i hi1 (by omega)) (le_of_lt hgt)
      · intro i hi1 hi2
        show |A.get i j| < |A.get s j|
        exact lt_of_le_of_lt (h4 i hi1 hi2) hgt
    · rw [if_neg hgt]
      apply ih (s + 1) mx h1 (by omega) h3
      · intro i hi1 hi2
        by_cases hs : i = s
        · rw [hs]; exact not_lt.mp hgt
        · exact h4 i hi1 (by omega)
      · exact h5

/-- The pivot search of column `j`: the row found lies in `[j, n)`, carries the
largest absolute value of the column from row `j` on, and is the lowest such
row. -/
theorem PivotLU_pivot_spec (A : DenseObj K) (n j : Nat) (hj : j < n) :
    j ≤ (PivotLU_pivot A n j).1 ∧ (PivotLU_pivot A n j).1 < n ∧
    (PivotLU_pivot A n j).2 = |A.get (PivotLU_pivot A n j).1 j| ∧
    (∀ i, j ≤ i → i < n → |A.get i j| ≤ (PivotLU_pivot A n j).2) ∧
    (∀ i, j ≤ i → i < (PivotLU_pivot A n j).1 → |A.get i j| < (PivotLU_pivot A n j).2) := by
  have h := PivotLU_pivot_scan A j (n - (j + 1)) (j + 1) (j, |A.get j j|) (le_refl _)
    (by show j < j + 1; omega) rfl
    (fun i hi1 hi2 => by
      have : i = j := by omega
      rw [this])
    (fun i hi1 hi2 => by
      have : i < j := hi2
      omega)
  have e : j + 1 + (n - (j + 1)) = n := by omega
  rw [e] at h
  exact h

omit [LinearOrderedField K] in
theorem swapRows_self (A : DenseObj K) (j : Nat) : A.swapRows j j = A := by
  unfold DenseObj.swapRows
  cases A with
  | mk rows cols data =>
    congr 1
    funext r c
    by_cases h : r = j
    · simp [h]
    · simp [h]

theorem swap_entries_self (P : List Nat) (j : Nat) : swap_entries P j j = P := by
  unfold swap_entries
  apply List.ext_getElem (by simp)
  intro i h1 h2
  rw [← getD_eq_getElem_of_lt _ i 0 h1, ← getD_eq_getElem_of_lt _ i 0 h2, getD_set_eq,
    getD_set_eq]
  by_cases h : j = i
  · subst h
    simp
  · simp [h]

/-- The column step of `PivotLU`: the row found by the pivot search is brought to
row `j`, in `A` and in `P` together; the step throws exactly when the largest
absolute value is below `1e-12`, and otherwise eliminates below the pivot. -/
theorem PivotLU_column_eq (n : Nat) (st : DenseObj K × List Nat) (j : Nat) (hj : j < n) :
    PivotLU_column n st j =
      if (PivotLU_pivot st.1 n j).2 < 1 / 10 ^ 12 then
        .error (.runtime_error "Matrix is singular or nearly singular and cannot be decomposed.")
      else
        .ok ((List.range' (j + 1) (n - (j + 1))).foldl (PivotLU_row n j)
          (st.1.swapRows j (PivotLU_pivot st.1 n j).1),
          swap_entries st.2 j (PivotLU_pivot st.1 n j).1) := by
  have hp := PivotLU_pivot_spec st.1 n j hj
  unfold PivotLU_column
  dsimp only
  have hsw : (if (PivotLU_pivot st.1 n j).1 ≠ j then
      (st.1.swapRows j (PivotLU_pivot st.1 n j).1,
        swap_entries st.2 j (PivotLU_pivot st.1 n j).1) else st) =
      (st.1.swapRows j (PivotLU_pivot st.1 n j).1,
        swap_entries st.2 j (PivotLU_pivot st.1 n j).1) := by
    by_cases h : (PivotLU_pivot st.1 n j).1 ≠ j
    · rw [if_pos h]
    · rw [if_neg h, not_not.mp h, swapRows_self, swap_entries_self]
  rw [hsw]
  have hjj : (st.1.swapRows j (PivotLU_pivot st.1 n j).1).get j j =
      st.1.get (PivotLU_pivot st.1 n j).1 j := by
    rw [DenseObj.get_swapRows, if_pos rfl]
  dsimp only
  rw [hjj, ← hp.2.2.1]

end Pivoting

theorem foldlM_range_error_iff {σ : Type} (f : σ → Nat → Except Error σ) (s0 : σ) (e : Error) :
    ∀ n, (List.range n).foldlM f s0 = .error e ↔
      ∃ j, j < n ∧ ∃ st, (List.range j).foldlM f s0 = .ok st ∧ f st j = .error e := by
  intro n
  induction n with
  | zero =>
    constructor
    · intro h; cases h
    · rintro ⟨j, hj, _⟩; omega
  | succ n ih =>
    rw [List.range_succ, List.foldlM_append]
    cases hprev : (List.range n).foldlM f s0 with
    | error e1 =>
      constructor
      · intro h
        have he : e1 = e := by cases h; rfl
        obtain ⟨j, hj, st, h1, h2⟩ := ih.mp (by rw [hprev, he])
        exact ⟨j, by omega, st, h1, h2⟩
      · rintro ⟨j, hj, st, h1, h2⟩
        by_cases hjn : j = n
        · subst hjn
          rw [hprev] at h1
          cases h1
        · have := ih.mpr ⟨j, by omega, st, h1, h2⟩
          rw [hprev] at this
          cases this
          rfl
    | ok s =>
      have hstep : (Except.ok s >>= fun s => [n].foldlM f s) = .error e ↔ f s n = .error e := by
        show ([n].foldlM f s) = .error e ↔ _
        rw [List.foldlM_cons]
        cases f s n with
        | error e2 => exact Iff.rfl
        | ok s2 =>
          constructor
          · intro h; cases h
          · intro h; cases h
      rw [hstep]
      constructor
      · intro h
        exact ⟨n, by omega, s, hprev, h⟩
      · rintro ⟨j, hj, st, h1, h2⟩
        by_cases hjn : j = n
        · subst hjn
          rw [hprev] at h1
          cases h1
          exact h2
        · have := ih.mpr ⟨j, by omega, st, h1, h2⟩
          rw [hprev] at this
          cases this

section PivotingClaim

variable {K : Type} [LinearOrderedField K]

/-- C25. At every column `j`, `PivotLU` brings to row `j` a row whose `|A(i,j)|`
is largest among `i >= j` in the current matrix, the lowest such row on ties,
swapping the rows of `A` and the entries of `P` together; and `PivotLU` raises
a runtime error exactly when at some column `j` it reaches that largest
absolute value is below `1e-12`. -/
theorem PivotLU_pivoting (A : DenseObj K) (n : Nat) (hr : A.getRows = n) (hc : A.getCols = n) :
    (∀ (j : Nat) (st : DenseObj K × List Nat), j < n →
      (j ≤ (PivotLU_pivot st.1 n j).1 ∧ (PivotLU_pivot st.1 n j).1 < n ∧
        (PivotLU_pivot st.1 n j).2 = |st.1.get (PivotLU_pivot st.1 n j).1 j| ∧
        (∀ i, j ≤ i → i < n → |st.1.get i j| ≤ (PivotLU_pivot st.1 n j).2) ∧
        (∀ i, j ≤ i → i < (PivotLU_pivot st.1 n j).1 →
          |st.1.get i j| < (PivotLU_pivot st.1 n j).2)) ∧
      PivotLU_column n st j =
        if (PivotLU_pivot st.1 n j).2 < 1 / 10 ^ 12 then
          .error (.runtime_error
            "Matrix is singular or nearly singular and cannot be decomposed.")
        else
          .ok ((List.range' (j + 1) (n - (j + 1))).foldl (PivotLU_row n j)
            (st.1.swapRows j (PivotLU_pivot st.1 n j).1),
            swap_entries st.2 j (PivotLU_pivot st.1 n j).1)) ∧
    ((∃ what, PivotLU A = .error (.runtime_error what)) ↔
      ∃ j, j < n ∧ ∃ st, (List.range j).foldlM (PivotLU_column n) (A, List.range n) = .ok st ∧
        (PivotLU_pivot st.1 n j).2 < 1 / 10 ^ 12) := by
  refine ⟨fun j st hj => ⟨PivotLU_pivot_spec st.1 n j hj, PivotLU_column_eq n st j hj⟩, ?_⟩
  unfold PivotLU
  rw [if_neg (by rw [hr, hc]; exact fun h => h rfl), hr]
  constructor
  · rintro ⟨what, hw⟩
    obtain ⟨j, hj, st, h1, h2⟩ := (foldlM_range_error_iff _ _ _ n).mp hw
    refine ⟨j, hj, st, h1, ?_⟩
    rw [PivotLU_column_eq n st j hj] at h2
    by_contra hcon
    rw [if_neg hcon] at h2
    cases h2
  · rintro ⟨j, hj, st, h1, h2⟩
    refine ⟨"Matrix is singular or nearly singular and cannot be decomposed.",
      (foldlM_range_error_iff _ _ _ n).mpr ⟨j, hj, st, h1, ?_⟩⟩
    rw [PivotLU_column_eq n st j hj, if_pos h2]

end PivotingClaim

theorem PivotLU_pivoting_witness :
    (∃ what, PivotLU (DenseObj.of_rows 2 2 [[(1 : ℚ), 2], [3, 4]]) =
        .error (.runtime_error what)) ↔
      ∃ j, j < 2 ∧ ∃ st, (List.range j).foldlM (PivotLU_column 2)
          (DenseObj.of_rows 2 2 [[(1 : ℚ), 2], [3, 4]], List.range 2) = .ok st ∧
        (PivotLU_pivot st.1 2 j).2 < 1 / 10 ^ 12 :=
  (PivotLU_pivoting (DenseObj.of_rows 2 2 [[(1 : ℚ), 2], [3, 4]]) 2 rfl rfl).2

/-! ## Square-matrix preconditions -/

section Preconditions

theorem foldlM_mapError {σ ι ε : Type} (f1 : σ → ι → Except (Error × ε) σ)
    (f : σ → ι → Except Error σ) (hf : ∀ s i, (f1 s i).mapError Prod.fst = f s i) :
    ∀ (l : List ι) (s : σ), (l.foldlM f1 s).mapError Prod.fst = l.foldlM f s := by
  intro l
  induction l with
  | nil => intro s; rfl
  | cons a l ih =>
    intro s
    rw [List.foldlM_cons, List.foldlM_cons, ← hf s a]
    cases f1 s a with
    | error e => rfl
    | ok s1 => exact ih s1

variable {K : Type} [LinearOrderedField K]

/-- Dropping the arguments carried by the error of `PivotLU_inout` gives
`PivotLU`. -/
theorem PivotLU_inout_eq (A : DenseObj K) (P : List Nat) :
    (PivotLU_inout A P).mapError Prod.fst = PivotLU A := by
  unfold PivotLU_inout PivotLU
  by_cases h : A.getRows ≠ A.getCols
  · rw [if_pos h, if_pos h]
    rfl
  · rw [if_neg h, if_neg h]
    apply foldlM_mapError
    intro s j
    unfold PivotLU_column_inout PivotLU_column
    dsimp only
    split <;> split <;> rfl

/-- Dropping the matrix carried by the error of `Cholesky_inout` gives
`Cholesky`. -/
theorem Cholesky_inout_eq (sqrt : K → K) (eps : K) (A L : DenseObj K) :
    (Cholesky_inout sqrt eps A L).mapError Prod.fst = Cholesky sqrt eps A := by
  unfold Cholesky_inout Cholesky
  by_cases h : A.getRows ≠ A.getCols
  · rw [if_pos h, if_pos h]
    rfl
  · rw [if_neg h, if_neg h]
    have hcol : ∀ (L1 : DenseObj K) (j : Nat),
        (Cholesky_column_inout sqrt eps A A.getRows L1 j).mapError Prod.fst =
          Cholesky_column sqrt eps A A.getRows L1 j := by
      intro L1 j
      unfold Cholesky_column_inout Cholesky_column
      dsimp only
      split
      · rfl
      · apply foldlM_mapError
        intro L2 i
        unfold Cholesky_entry_inout Cholesky_entry
        dsimp only
        split <;> rfl
    rw [← foldlM_mapError _ _ hcol]
    cases (List.range A.getRows).foldlM (Cholesky_column_inout sqrt eps A A.getRows)
      (DenseObj.new A.getRows A.getRows) <;> rfl

/-- C24. For every non-square matrix `A`, each of `powerIter`, `rayleighQuotient`,
`Cholesky` and `PivotLU` raises an invalid-argument error, and the arguments
`b`, `L`, `A` and `P` are then exactly as passed. -/
theorem square_preconditions (A : DenseObj K) (hns : A.getRows ≠ A.getCols) :
    (∀ (sqrt : K → K) (b : List K) (max_iter_num : Int),
      ∃ what, powerIter_inout sqrt A b max_iter_num = (.error (.invalid_argument what), b)) ∧
    (∀ (sqrt : K → K) (eps : K) (b : List K),
      ∃ what, rayleighQuotient sqrt eps A b = .error (.invalid_argument what)) ∧
    (∀ (sqrt : K → K) (eps : K) (L : DenseObj K),
      ∃ what, Cholesky_inout sqrt eps A L = .error (.invalid_argument what, L)) ∧
    (∀ P : List Nat, ∃ what, PivotLU_inout A P = .error (.invalid_argument what, (A, P))) := by
  refine ⟨?_, ?_, ?_, ?_⟩
  · intro sqrt b k
    unfold powerIter_inout powerIter
    by_cases hk : k < 0
    · rw [if_pos hk]; exact ⟨_, rfl⟩
    · rw [if_neg hk, if_pos hns]; exact ⟨_, rfl⟩
  · intro sqrt eps b
    unfold rayleighQuotient
    rw [if_pos hns]; exact ⟨_, rfl⟩
  · intro sqrt eps L
    unfold Cholesky_inout
    rw [if_pos hns]; exact ⟨_, rfl⟩
  · intro P
    unfold PivotLU_inout
    rw [if_pos hns]; exact ⟨_, rfl⟩

end Preconditions

theorem square_preconditions_witness :
    ∃ what, PivotLU_inout (DenseObj.of_rows 1 2 [[(1 : ℚ), 2]]) [7, 7, 7] =
      .error (.invalid_argument what, (DenseObj.of_rows 1 2 [[(1 : ℚ), 2]], [7, 7, 7])) :=
  (square_preconditions (DenseObj.of_rows 1 2 [[(1 : ℚ), 2]]) (by decide)).2.2.2 [7, 7, 7]

/-! ## `PivotLU` on singular matrices -/

section SingularLU

variable {K : Type} [LinearOrderedField K]

/-- A column step of `PivotLU` that returns leaves the rows above `j` as they
were and leaves in `(j, j)` a pivot of absolute value at least `1e-12`. -/
theorem PivotLU_column_keeps {n j : Nat} {st st' : DenseObj K × List Nat} (hj : j < n)
    (hc : PivotLU_column n st j = .ok st') :
    (∀ r c, r < j → st'.1.get r c = st.1.get r c) ∧ (1 : K) / 10 ^ 12 ≤ |st'.1.get j j| := by
  rw [PivotLU_column_eq n st j hj] at hc
  have hp := PivotLU_pivot_spec st.1 n j hj
  by_cases hs : (PivotLU_pivot st.1 n j).2 < 1 / 10 ^ 12
  · rw [if_pos hs] at hc
    cases hc
  · rw [if_neg hs] at hc
    injection hc with hc
    rw [← hc]
    dsimp only
    constructor
    · intro r c hr
      rw [PivotLU_rows_get n j hj _ _ _ _ _ (by omega), if_neg (by omega),
        DenseObj.get_swapRows, if_neg (by omega), if_neg (by omega)]
    · rw [PivotLU_rows_get n j hj _ _ _ _ _ (by omega), if_neg (by omega),
        DenseObj.get_swapRows, if_pos rfl, ← hp.2.2.1]
      exact not_lt.mp hs

/-- After the first `j` columns of `PivotLU` every pivot `(t, t)` with `t < j`
is at least `1e-12` in absolute value. -/
theorem PivotLU_fold_diag (n : Nat) (A0 : DenseObj K) :
    ∀ j, j ≤ n → ∀ st, (List.range j).foldlM (PivotLU_column n) (A0, List.range n) = .ok st →
      ∀ t, t < j → (1 : K) / 10 ^ 12 ≤ |st.1.get t t| := by
  intro j
  induction j with
  | zero =>
    intro _ st _ t ht
    omega
  | succ j ih =>
    intro hj st h t ht
    rw [List.range_succ, List.foldlM_append] at h
    cases hprev : (List.range j).foldlM (PivotLU_column n) (A0, List.range n) with
    | error e =>
      rw [hprev] at h
      cases h
    | ok s =>
      rw [hprev] at h
      have hcol : PivotLU_column n s j = .ok st := by
        simp only [List.foldlM_cons, List.foldlM_nil] at h
        cases hc : PivotLU_column n s j with
        | error e =>
          rw [show (Except.ok s >>= fun b => PivotLU_column n b j >>= fun b => pure b) =
            (PivotLU_column n s j >>= fun b => pure b) from rfl, hc] at h
          cases h
        | ok s' =>
          rw [show (Except.ok s >>= fun b => PivotLU_column n b j >>= fun b => pure b) =
            (PivotLU_column n s j >>= fun b => pure b) from rfl, hc] at h
          exact h
      obtain ⟨k1, k2⟩ := PivotLU_column_keeps (show j < n by omega) hcol
      by_cases htj : t = j
      · rw [htj]
        exact k2
      · rw [k1 t t (by omega)]
        exact ih (by omega) s hprev t (by omega)

/-- The only exception `PivotLU` throws on a square matrix is the runtime error
of the singularity test. -/
theorem PivotLU_error_kind (A : DenseObj K) (hsq : A.getRows = A.getCols) (e : Error)
    (h : PivotLU A = .error e) :
    e = .runtime_error "Matrix is singular or nearly singular and cannot be decomposed." := by
  unfold PivotLU at h
  rw [if_neg (not_not.mpr hsq)] at h
  refine foldlM_error (fun e => e = .runtime_error
    "Matrix is singular or nearly singular and cannot be decomposed.") _ ?_ _ _ e h
  intro s j e1 he
  unfold PivotLU_column at he
  simp only [] at he
  generalize (if (PivotLU_pivot s.1 A.getRows j).1 ≠ j then
      (s.1.swapRows j (PivotLU_pivot s.1 A.getRows j).1,
        swap_entries s.2 j (PivotLU_pivot s.1 A.getRows j).1) else s) = st1 at he
  by_cases hs : |st1.1.get j j| < 1 / 10 ^ 12
  · rw [if_pos hs] at he
    injection he with he
    exact he.symm
  · rw [if_neg hs] at he
    cases he

/-- A unit lower triangular matrix times an upper triangular matrix with non-zero
diagonal has a non-zero determinant. -/
theorem det_lower_unit_mul_upper (n : Nat) (B : DenseObj K) (hd : ∀ t, t < n → B.get t t ≠ 0) :
    ((Matrix.of fun (i t : Fin n) => lower_unit B i t) *
      (Matrix.of fun (t k : Fin n) => upper B t k)).det ≠ 0 := by
  rw [Matrix.det_mul]
  have hL : (Matrix.of fun (i t : Fin n) => lower_unit B i t).det = 1 := by
    rw [Matrix.det_of_lowerTriangular]
    · apply Finset.prod_eq_one
      intro i _
      simp [lower_unit]
    · intro i t hit
      have hlt : (i : Nat) < (t : Nat) := hit
      simp only [Matrix.of_apply, lower_unit]
      rw [if_neg (by omega), if_neg (by omega)]
  have hU : (Matrix.of fun (t k : Fin n) => upper B t k).det ≠ 0 := by
    rw [Matrix.det_of_upperTriangular]
    · rw [Finset.prod_ne_zero_iff]
      intro i _
      simp only [Matrix.of_apply, upper, le_refl, if_true]
      exact hd i i.2
    · intro t k hkt
      have hlt : (k : Nat) < (t : Nat) := hkt
      simp only [Matrix.of_apply, upper]
      rw [if_neg (by omega)]
  rw [hL, one_mul]
  exact hU

/-- A matrix whose rows are rows of a matrix of determinant zero has determinant
zero. -/
theorem det_rows_of_singular (n : Nat) (M N : Matrix (Fin n) (Fin n) K) (p : Fin n → Fin n)
    (hrows : ∀ i k, N i k = M (p i) k) (hM : M.det = 0) : N.det = 0 := by
  obtain ⟨v, hv, hMv⟩ := Matrix.exists_mulVec_eq_zero_iff.mpr hM
  apply Matrix.exists_mulVec_eq_zero_iff.mp
  refine ⟨v, hv, ?_⟩
  funext i
  have := congrFun hMv (p i)
  simp only [Matrix.mulVec, Matrix.dotProduct, Pi.zero_apply] at this ⊢
  rw [← this]
  apply Finset.sum_congr rfl
  intro k _
  rw [hrows]

/-- Whenever `PivotLU` returns normally on an `n x n` matrix, the determinant of
the original matrix is not zero. -/
theorem PivotLU_ok_det (A : DenseObj K) (n : Nat) (hr : A.getRows = n)
    (r : DenseObj K × List Nat) (h : PivotLU A = .ok r) : (A.toMatrix n n).det ≠ 0 := by
  obtain ⟨hsq, hperm, hid⟩ := PivotLU_identity A r h
  rw [hr] at hperm hid
  have hdiag : ∀ t, t < n → r.1.get t t ≠ 0 := by
    intro t ht h0
    have hfold := h
    unfold PivotLU at hfold
    rw [if_neg (not_not.mpr hsq), hr] at hfold
    have := PivotLU_fold_diag n A n (le_refl _) r hfold t ht
    rw [h0, abs_zero] at this
    have hpos : (0 : K) < 1 / 10 ^ 12 := by positivity
    exact absurd this (not_le.mpr hpos)
  have hplt : ∀ i, i < n → r.2.getD i 0 < n := by
    intro i hi
    have hlen : r.2.length = n := by rw [hperm.length_eq, List.length_range]
    have hmem : r.2.getD i 0 ∈ r.2 := getD_mem r.2 i 0 (by omega)
    exact List.mem_range.mp (hperm.subset hmem)
  intro hdet
  apply det_lower_unit_mul_upper n r.1 hdiag
  by_cases hn : n = 0
  · subst hn
    rw [Matrix.det_isEmpty] at hdet
    exact absurd hdet one_ne_zero
  · have hpos : 0 < n := Nat.pos_of_ne_zero hn
    refine det_rows_of_singular n (A.toMatrix n n) _
      (fun i => ⟨r.2.getD i 0, hplt i i.2⟩) ?_ hdet
    intro i k
    rw [Matrix.mul_apply, DenseObj.toMatrix_apply]
    have := hid i k i.2 k.2
    rw [← this, ← Fin.sum_univ_eq_sum_range (fun t => lower_unit r.1 i t * upper r.1 t k) n]
    rfl

/-- C32. In exact arithmetic, on every square `n x n` dense matrix `A` whose
determinant is zero, `PivotLU` raises the runtime error of its singularity test,
at some column `j < n` (the last one included) where the largest pivot candidate
is below `1e-12`; and whenever `PivotLU` returns normally, the original `A` is
invertible. -/
theorem PivotLU_rejects_singular (A : DenseObj K) (n : Nat) (hr : A.getRows = n)
    (hc : A.getCols = n) :
    ((A.toMatrix n n).det = 0 →
      PivotLU A = .error (.runtime_error
        "Matrix is singular or nearly singular and cannot be decomposed.") ∧
      ∃ j, j < n ∧ ∃ st, (List.range j).foldlM (PivotLU_column n) (A, List.range n) = .ok st ∧
        (PivotLU_pivot st.1 n j).2 < 1 / 10 ^ 12) ∧
    (∀ r, PivotLU A = .ok r → IsUnit (A.toMatrix n n)) := by
  constructor
  · intro hdet
    have herr : PivotLU A = .error (.runtime_error
        "Matrix is singular or nearly singular and cannot be decomposed.") := by
      cases hres : PivotLU A with
      | error e => rw [PivotLU_error_kind A (by rw [hr, hc]) e hres]
      | ok r => exact absurd hdet (PivotLU_ok_det A n hr r hres)
    refine ⟨herr, ?_⟩
    unfold PivotLU at herr
    rw [if_neg (by rw [hr, hc]; exact fun h => h rfl), hr] at herr
    obtain ⟨j, hj, st, h1, h2⟩ := (foldlM_range_error_iff _ _ _ n).mp herr
    refine ⟨j, hj, st, h1, ?_⟩
    rw [PivotLU_column_eq n st j hj] at h2
    by_contra hcon
    rw [if_neg hcon] at h2
    cases h2
  · intro r h
    rw [Matrix.isUnit_iff_isUnit_det, isUnit_iff_ne_zero]
    exact PivotLU_ok_det A n hr r h

end SingularLU

/-- Instance of `PivotLU_rejects_singular`: the matrix `[[1,2],[2,4]]` has
determinant zero and `PivotLU` raises the runtime error on it. -/
theorem PivotLU_rejects_singular_witness :
    ((DenseObj.of_rows 2 2 [[(1 : ℚ), 2], [2, 4]]).toMatrix 2 2).det = 0 ∧
    PivotLU (DenseObj.of_rows 2 2 [[(1 : ℚ), 2], [2, 4]]) = .error (.runtime_error
      "Matrix is singular or nearly singular and cannot be decomposed.") := by
  have hdet : ((DenseObj.of_rows 2 2 [[(1 : ℚ), 2], [2, 4]]).toMatrix 2 2).det = 0 := by
    rw [Matrix.det_fin_two]
    simp [DenseObj.toMatrix, DenseObj.of_rows, DenseObj.get]
    norm_num
  exact ⟨hdet, ((PivotLU_rejects_singular (DenseObj.of_rows 2 2 [[(1 : ℚ), 2], [2, 4]]) 2
    rfl rfl).1 hdet).1⟩

/-! ## Stored zeros -/

section StoredZeros

variable {α : Type}

theorem foldlM_ok_invariant {σ ι : Type} (Q : σ → Prop) (f : σ → ι → Except Error σ)
    (hf : ∀ s i s', Q s → f s i = .ok s' → Q s') :
    ∀ (l : List ι) (s s' : σ), Q s → l.foldlM f s = .ok s' → Q s' := by
  intro l
  induction l with
  | nil =>
    intro s s' hQ h
    injection h with h
    rw [← h]
    exact hQ
  | cons a l ih =>
    intro s s' hQ h
    rw [List.foldlM_cons] at h
    cases hfa : f s a with
    | error e =>
      rw [hfa] at h
      cases h
    | ok s1 =>
      rw [hfa] at h
      exact ih s1 s' (hf s a s1 hQ hfa) h

theorem new_no_stored_zeros [Zero α] (rows cols : Nat) :
    no_stored_zeros (SparseMatrixCSC.new rows cols : SparseMatrixCSC α) ∧
    index_in_range (SparseMatrixCSC.new rows cols : SparseMatrixCSC α) := by
  constructor
  · intro v hv
    simp [SparseMatrixCSC.new] at hv
  · intro t ht
    simp [SparseMatrixCSC.new] at ht

theorem addValue_no_stored_zeros [Zero α] [DecidableEq α] (A B : SparseMatrixCSC α)
    (row col : Nat) (value : α) (h : A.addValue row col value = .ok B)
    (hA : no_stored_zeros A ∧ index_in_range A) : no_stored_zeros B ∧ index_in_range B := by
  unfold SparseMatrixCSC.addValue at h
  by_cases hr : col ≥ A._m ∨ row ≥ A._n
  · rw [if_pos hr] at h
    cases h
  · rw [if_neg hr] at h
    by_cases hv : value = 0
    · rw [if_pos hv] at h
      injection h with h
      rw [← h]
      exact hA
    · rw [if_neg hv] at h
      injection h with h
      rw [← h]
      constructor
      · intro v hmem
        rcases List.mem_append.mp hmem with hm | hm
        · exact hA.1 v hm
        · rw [List.mem_singleton] at hm
          rw [hm]
          exact hv
      · intro t hmem
        show t.index < (A.values ++ [value]).length
        rw [List.length_append, List.length_singleton]
        rcases List.mem_append.mp hmem with hm | hm
        · exact Nat.lt_succ_of_lt (hA.2 t hm)
        · rw [List.mem_singleton] at hm
          rw [hm]
          exact Nat.lt_succ_self _

theorem finalize_values_mem [Zero α] (temp : List α) (P : α → Prop) :
    ∀ (ts : List row_col_idx) (i : Nat) (vs : List α), (∀ v ∈ vs, P v) →
      (∀ t ∈ ts, P (temp.getD t.index 0)) →
      ∀ v ∈ SparseMatrixCSC.finalize_values temp ts i vs, P v := by
  intro ts
  induction ts with
  | nil =>
    intro i vs hvs _ v hv
    exact hvs v hv
  | cons t ts ih =>
    intro i vs hvs hts v hv
    simp only [SparseMatrixCSC.finalize_values] at hv
    refine ih (i + 1) _ ?_ (fun t' ht' => hts t' (List.mem_cons_of_mem _ ht')) v hv
    intro w hw
    rcases List.mem_or_eq_of_mem_set hw with hw | hw
    · exact hvs w hw
    · rw [hw]
      exact hts t (List.mem_cons_self _ _)

theorem finalize_no_stored_zeros [Zero α] (A : SparseMatrixCSC α)
    (hA : no_stored_zeros A ∧ index_in_range A) :
    no_stored_zeros A.finalize ∧ index_in_range A.finalize := by
  constructor
  · intro v hv
    refine finalize_values_mem A.values (fun v => v ≠ 0)
      (std_sort row_col_idx.lt A.row_indices_idx) 0 A.values hA.1 ?_ v hv
    intro t ht
    have hmem : t ∈ A.row_indices_idx := (std_sort_perm _ _).subset ht
    exact hA.1 _ (getD_mem A.values t.index 0 (hA.2 t hmem))
  · intro t ht
    have hmem : t ∈ A.row_indices_idx := (std_sort_perm _ _).subset ht
    show t.index < (SparseMatrixCSC.finalize_values A.values
      (std_sort row_col_idx.lt A.row_indices_idx) 0 A.values).length
    rw [finalize_values_length]
    exact hA.2 t hmem

/-- Inserting the non-zero entries of a map keeps the stored values non-zero. -/
theorem addValue_entries_no_stored_zeros [Zero α] [DecidableEq α] (g : Nat × α → Nat × Nat)
    (entries : List (Nat × α)) (A B : SparseMatrixCSC α)
    (h : entries.foldlM (fun (result : SparseMatrixCSC α) entry =>
      if entry.2 ≠ 0 then result.addValue (g entry).1 (g entry).2 entry.2 else pure result) A
        = .ok B)
    (hA : no_stored_zeros A ∧ index_in_range A) : no_stored_zeros B ∧ index_in_range B := by
  refine foldlM_ok_invariant (fun M => no_stored_zeros M ∧ index_in_range M) _ ?_ entries A B hA h
  intro s entry s' hs hstep
  by_cases hz : entry.2 ≠ 0
  · rw [if_pos hz] at hstep
    exact addValue_no_stored_zeros s s' _ _ _ hstep hs
  · rw [if_neg hz] at hstep
    injection hstep with hstep
    rw [← hstep]
    exact hs

theorem Operator_no_stored_zeros [Zero α] [DecidableEq α] (A B R : SparseMatrixCSC α)
    (operation : α → α → α) (h : A.Operator B operation = .ok R) :
    no_stored_zeros R ∧ index_in_range R := by
  unfold SparseMatrixCSC.Operator at h
  by_cases hs : A._n ≠ B._n ∨ A._m ≠ B._m
  · rw [if_pos hs] at h
    cases h
  · rw [if_neg hs] at h
    cases hfold : (List.range A._m).foldlM (fun result col =>
        (SparseMatrixCSC.Operator_accumulate B operation col
          (SparseMatrixCSC.Operator_accumulate A operation col [])).foldlM
          (fun (result : SparseMatrixCSC α) entry =>
            if entry.2 ≠ 0 then result.addValue entry.1 col entry.2 else pure result) result)
        (SparseMatrixCSC.new A._n A._m) with
    | error e =>
      have h' : ((Except.error e : Except Error (SparseMatrixCSC α)) >>= fun result =>
          pure result.finalize) = .ok R := by
        rw [← hfold]; exact h
      cases h'
    | ok M =>
      have h' : (Except.ok M.finalize : Except Error (SparseMatrixCSC α)) = .ok R := by
        have : ((Except.ok M : Except Error (SparseMatrixCSC α)) >>= fun result =>
            pure result.finalize) = .ok R := by
          rw [← hfold]; exact h
        exact this
      injection h' with h'
      rw [← h']
      apply finalize_no_stored_zeros
      refine foldlM_ok_invariant (fun M => no_stored_zeros M ∧ index_in_range M) _ ?_ _ _ M
        (new_no_stored_zeros A._n A._m) hfold
      intro s col s' hs' hstep
      exact addValue_entries_no_stored_zeros (fun entry => (entry.1, col)) _ s s' hstep hs'

theorem mul_no_stored_zeros [CommRing α] [DecidableEq α] (A B R : SparseMatrixCSC α)
    (h : A.mul B = .ok R) : no_stored_zeros R ∧ index_in_range R := by
  unfold SparseMatrixCSC.mul at h
  by_cases hs : A._m ≠ B._n
  · rw [if_pos hs] at h
    cases h
  · rw [if_neg hs] at h
    cases hfold : (List.range A._n).foldlM (fun result row =>
        (((SparseMatrixCSC.mul_rows A B).getD row []).foldl (fun temp_map entry =>
          SparseMatrixCSC.umap_set temp_map entry.1
            (SparseMatrixCSC.umap_at temp_map entry.1 + entry.2)) []).foldlM
          (fun (result : SparseMatrixCSC α) entry =>
            if entry.2 ≠ 0 then result.addValue row entry.1 entry.2 else pure result) result)
        (SparseMatrixCSC.new A._n B._m) with
    | error e =>
      have h' : ((Except.error e : Except Error (SparseMatrixCSC α)) >>= fun result =>
          pure result.finalize) = .ok R := by
        rw [← hfold]; exact h
      cases h'
    | ok M =>
      have h' : (Except.ok M.finalize : Except Error (SparseMatrixCSC α)) = .ok R := by
        have : ((Except.ok M : Except Error (SparseMatrixCSC α)) >>= fun result =>
            pure result.finalize) = .ok R := by
          rw [← hfold]; exact h
        exact this
      injection h' with h'
      rw [← h']
      apply finalize_no_stored_zeros
      refine foldlM_ok_invariant (fun M => no_stored_zeros M ∧ index_in_range M) _ ?_ _ _ M
        (new_no_stored_zeros A._n B._m) hfold
      intro s row s' hs' hstep
      exact addValue_entries_no_stored_zeros (fun entry => (row, entry.1)) _ s s' hstep hs'

end StoredZeros

section StoredZerosClaim

variable {α : Type}

/-- Every slot of the transposed storage lies in the block of some row. -/
theorem exists_row_block (R : List Nat) (n p : Nat) (hR : ∀ x ∈ R, x < n) (hp : p < R.length) :
    ∃ r, row_start R r ≤ p ∧ p < row_start R (r + 1) := by
  have key : ∀ r, p < row_start R r → ∃ r', row_start R r' ≤ p ∧ p < row_start R (r' + 1) := by
    intro r
    induction r with
    | zero =>
      intro h
      rw [row_start_zero] at h
      omega
    | succ r ih =>
      intro h
      by_cases hle : row_start R r ≤ p
      · exact ⟨r, hle, h⟩
      · exact ih (by omega)
  exact key n (by rw [row_start_eq_length R n hR]; exact hp)

theorem Transpose_no_stored_zeros [Zero α] (A : SparseMatrixCSC α) (hA : CSC A)
    (h : no_stored_zeros A) : no_stored_zeros A.Transpose ∧ index_in_range A.Transpose := by
  obtain ⟨_, _, _, s4, s5, _⟩ := Transpose_storage A hA
  constructor
  · intro v hv
    obtain ⟨p, hp, e⟩ := exists_getD_of_mem 0 hv
    rw [s4] at hp
    have hlen : A.row_indices.length = A.values.length := hA.2.2.2.2.1
    obtain ⟨r, h1, h2⟩ := exists_row_block A.row_indices A._n p hA.row_mem_lt
      (by rw [hlen]; exact hp)
    obtain ⟨i, hi, _, hpos⟩ := exists_transpose_pos A.row_indices r p h1 h2
    rw [hlen] at hi
    obtain ⟨c, hc, c1, c2⟩ := hA.exists_col i hi
    have := (s5 i hi c hc c1 c2).2
    rw [hpos, e] at this
    rw [this]
    exact h _ (getD_mem A.values i 0 hi)
  · intro t ht
    exact absurd ht (List.not_mem_nil t)

theorem mul_assign_scalar_no_stored_zeros [Field α] (A : SparseMatrixCSC α) (scalar : α)
    (hA : no_stored_zeros A) :
    no_stored_zeros (A.mul_assign_scalar scalar) ↔ scalar ≠ 0 ∨ A.values = [] := by
  constructor
  · intro h
    by_contra hcon
    rw [not_or, not_not] at hcon
    obtain ⟨v, hv⟩ := List.exists_mem_of_ne_nil _ hcon.2
    apply h (v * scalar) (List.mem_map.mpr ⟨v, hv, rfl⟩)
    rw [hcon.1, mul_zero]
  · intro h v hv
    obtain ⟨e, he, hev⟩ := List.mem_map.mp hv
    rcases h with h | h
    · rw [← hev]
      exact mul_ne_zero (hA e he) h
    · rw [h] at he
      exact absurd he (List.not_mem_nil e)

theorem mul_assign_scalar_index_in_range [Mul α] (A : SparseMatrixCSC α) (scalar : α)
    (hA : index_in_range A) : index_in_range (A.mul_assign_scalar scalar) := by
  intro t ht
  show t.index < (A.values.map (fun e => e * scalar)).length
  rw [List.length_map]
  exact hA t ht

variable [Field α] [DecidableEq α]

/-- C31. Scalar multiplication stores zeros: after `operator*=` (and so after
`operator*`) the stored values of a matrix without stored zeros are free of
zeros exactly when the scalar is not zero or nothing is stored; a `1 x 1`
matrix holding `5` holds the stored value `0` after multiplication by `0`. The
other operations keep `values` free of zeros, together with the fact that every
staged triplet points to a slot of `values`: the constructor, `addValue` for
every value, `finalize`, `A + B`, `A - B`, `A * B`, multiplication by a non-zero
scalar, and `Transpose` of a matrix in valid compressed-column storage (on a
matrix still staged, `Transpose` fills `values` with zeros). -/
theorem mul_scalar_zero_stores_zero :
    (∀ (A : SparseMatrixCSC α) (scalar : α), no_stored_zeros A →
      (no_stored_zeros (A.mul_assign_scalar scalar) ↔ scalar ≠ 0 ∨ A.values = []) ∧
      (no_stored_zeros (A.mul_scalar scalar) ↔ scalar ≠ 0 ∨ A.values = [])) ∧
    (∃ M, build 1 1 [(0, 0, (5 : ℤ))] = .ok M ∧ no_stored_zeros M ∧
      (M.mul_assign_scalar 0).values = [0] ∧ (M.mul_scalar 0).values = [0] ∧
      ¬ no_stored_zeros (M.mul_assign_scalar 0) ∧ ¬ no_stored_zeros (M.mul_scalar 0)) ∧
    (∀ rows cols, no_stored_zeros (SparseMatrixCSC.new rows cols : SparseMatrixCSC α) ∧
      index_in_range (SparseMatrixCSC.new rows cols : SparseMatrixCSC α)) ∧
    (∀ (A B : SparseMatrixCSC α) row col value, A.addValue row col value = .ok B →
      no_stored_zeros A ∧ index_in_range A → no_stored_zeros B ∧ index_in_range B) ∧
    (∀ A : SparseMatrixCSC α, no_stored_zeros A ∧ index_in_range A →
      no_stored_zeros A.finalize ∧ index_in_range A.finalize) ∧
    (∀ A B R : SparseMatrixCSC α, A.add B = .ok R → no_stored_zeros R ∧ index_in_range R) ∧
    (∀ A B R : SparseMatrixCSC α, A.sub B = .ok R → no_stored_zeros R ∧ index_in_range R) ∧
    (∀ A B R : SparseMatrixCSC α, A.mul B = .ok R → no_stored_zeros R ∧ index_in_range R) ∧
    (∀ (A : SparseMatrixCSC α) (scalar : α), scalar ≠ 0 →
      no_stored_zeros A ∧ index_in_range A →
      no_stored_zeros (A.mul_scalar scalar) ∧ index_in_range (A.mul_scalar scalar)) ∧
    (∀ A : SparseMatrixCSC α, CSC A → no_stored_zeros A →
      no_stored_zeros A.Transpose ∧ index_in_range A.Transpose) ∧
    (∃ M, addValues 1 1 [(0, 0, (5 : ℤ))] = .ok M ∧ no_stored_zeros M ∧
      M.Transpose.values = [0]) := by
  refine ⟨fun A scalar hA => ⟨mul_assign_scalar_no_stored_zeros A scalar hA,
      mul_assign_scalar_no_stored_zeros A scalar hA⟩,
    ⟨_, rfl, by decide, rfl, rfl, by decide, by decide⟩,
    new_no_stored_zeros,
    fun A B row col value h hA => addValue_no_stored_zeros A B row col value h hA,
    finalize_no_stored_zeros,
    fun A B R h => Operator_no_stored_zeros A B R _ h,
    fun A B R h => Operator_no_stored_zeros A B R _ h,
    mul_no_stored_zeros,
    fun A scalar hs hA => ⟨(mul_assign_scalar_no_stored_zeros A scalar hA.1).mpr (Or.inl hs),
      mul_assign_scalar_index_in_range A scalar hA.2⟩,
    Transpose_no_stored_zeros,
    ⟨_, rfl, by decide, rfl⟩⟩

end StoredZerosClaim

/-! ## `Cholesky` on the sparse class: two runs -/

/-- The run of `Cholesky` on the sparse matrix `[[4,2],[2,5]]`, step by step
through `addValue`, `finalize` and the reads. -/
theorem Cholesky_sparse_run_spd :
    Cholesky_sparse Real.sqrt (1 / 2 ^ 52)
        (of_storage 2 2 [(4 : ℝ), 2, 2, 5] [0, 1, 0, 1] [0, 2, 4]) =
      .ok ⟨2, 2, [2, 1, Real.sqrt 5], [⟨0, 0, 0⟩, ⟨1, 0, 1⟩, ⟨1, 1, 2⟩],
        [0, 0, 1, 0, 1, 1, 0, 1, 1], [0, 2, 3], [0, 2, 1]⟩ := by
  have e2 : List.range 2 = [0, 1] := rfl
  have h4 : Real.sqrt 4 = 2 := by
    rw [show (4 : ℝ) = 2 ^ 2 by norm_num]
    exact Real.sqrt_sq (by norm_num)
  norm_num [Cholesky_sparse, Cholesky_sparse_column, Cholesky_sparse_entry, Cholesky_sparse_sum,
    SparseMatrixCSC.getRows, SparseMatrixCSC.getCols, of_storage, e2, List.range', List.foldlM,
    bind, Except.bind, pure, Except.pure, SparseMatrixCSC.get, SparseMatrixCSC.new,
    SparseMatrixCSC.addValue, SparseMatrixCSC.finalize, std_sort, insertion_step, linear_insert,
    row_col_idx.lt, SparseMatrixCSC.finalize_values, partial_sum, partial_sum_from, write_prefix,
    lower_bound, lower_bound_loop, h4]
  rfl

/-- The run of `Cholesky` on the sparse matrix `[[1,2],[2,1]]`. -/
theorem Cholesky_sparse_run_indefinite :
    Cholesky_sparse Real.sqrt (1 / 2 ^ 52)
        (of_storage 2 2 [(1 : ℝ), 2, 2, 1] [0, 1, 0, 1] [0, 2, 4]) =
      .ok ⟨2, 2, [1, 2, 1], [⟨0, 0, 0⟩, ⟨1, 0, 1⟩, ⟨1, 1, 2⟩], [0, 0, 1, 0, 1, 1, 0, 1, 1],
        [0, 2, 3], [0, 2, 1]⟩ := by
  have e2 : List.range 2 = [0, 1] := rfl
  norm_num [Cholesky_sparse, Cholesky_sparse_column, Cholesky_sparse_entry, Cholesky_sparse_sum,
    SparseMatrixCSC.getRows, SparseMatrixCSC.getCols, of_storage, e2, List.range', List.foldlM,
    bind, Except.bind, pure, Except.pure, SparseMatrixCSC.get, SparseMatrixCSC.new,
    SparseMatrixCSC.addValue, SparseMatrixCSC.finalize, std_sort, insertion_step, linear_insert,
    row_col_idx.lt, SparseMatrixCSC.finalize_values, partial_sum, partial_sum_from, write_prefix,
    lower_bound, lower_bound_loop]
  rfl

/-- The quadratic form of a 2 x 2 sparse matrix read through `operator()`. -/
theorem quad_form_two_sparse (A : SparseMatrixCSC ℝ) (x : Nat → ℝ) :
    quad_form 2 (fun i j => A.at i j) x =
      x 0 * A.at 0 0 * x 0 + x 0 * A.at 0 1 * x 1 + (x 1 * A.at 1 0 * x 0 + x 1 * A.at 1 1 * x 1) := by
  simp [quad_form, Finset.sum_range_succ]

/-- C10 (failing input). `A = [[4,2],[2,5]]`, in valid compressed-column storage,
is symmetric and positive definite. `Cholesky` with the sparse matrix class of
the sources returns normally on it, with the stored values `2, 1, sqrt 5`, the row
indices `0,0,1,0,1,1,0,1,1` and the column pointers `0,2,3`: every `finalize()`
has appended the rows once more. The returned `L` reads `L(0,0) = 2`,
`L(1,0) = 0`, `L(0,1) = 0`, `L(1,1) = sqrt 5`, so that entry `(1,0)` of `L * L^T`
is `0` and not `A(1,0) = 2`. -/
theorem Cholesky_sparse_wrong_factor :
    CSC (of_storage 2 2 [(4 : ℝ), 2, 2, 5] [0, 1, 0, 1] [0, 2, 4]) ∧
    ((of_storage 2 2 [(4 : ℝ), 2, 2, 5] [0, 1, 0, 1] [0, 2, 4]).get 0 0 = .ok 4 ∧
      (of_storage 2 2 [(4 : ℝ), 2, 2, 5] [0, 1, 0, 1] [0, 2, 4]).get 0 1 = .ok 2 ∧
      (of_storage 2 2 [(4 : ℝ), 2, 2, 5] [0, 1, 0, 1] [0, 2, 4]).get 1 0 = .ok 2 ∧
      (of_storage 2 2 [(4 : ℝ), 2, 2, 5] [0, 1, 0, 1] [0, 2, 4]).get 1 1 = .ok 5) ∧
    (∀ x : Nat → ℝ, (x 0 ≠ 0 ∨ x 1 ≠ 0) →
      0 < quad_form 2
        (fun i j => (of_storage 2 2 [(4 : ℝ), 2, 2, 5] [0, 1, 0, 1] [0, 2, 4]).at i j) x) ∧
    ∃ L, Cholesky_sparse Real.sqrt (1 / 2 ^ 52)
        (of_storage 2 2 [(4 : ℝ), 2, 2, 5] [0, 1, 0, 1] [0, 2, 4]) = .ok L ∧
      L.values = [2, 1, Real.sqrt 5] ∧ L.row_indices = [0, 0, 1, 0, 1, 1, 0, 1, 1] ∧
      L.col_ptr = [0, 2, 3] ∧
      L.get 0 0 = .ok 2 ∧ L.get 1 0 = .ok 0 ∧ L.get 0 1 = .ok 0 ∧
      L.get 1 1 = .ok (Real.sqrt 5) ∧
      L.at 1 0 * L.at 0 0 + L.at 1 1 * L.at 0 1 = 0 ∧
      (of_storage 2 2 [(4 : ℝ), 2, 2, 5] [0, 1, 0, 1] [0, 2, 4]).at 1 0 = 2 := by
  refine ⟨by decide, ⟨rfl, rfl, rfl, rfl⟩, ?_,
    ⟨_, Cholesky_sparse_run_spd, rfl, rfl, rfl, rfl, rfl, rfl, rfl, ?_, rfl⟩⟩
  · intro x hx
    rw [quad_form_two_sparse]
    have a00 : (of_storage 2 2 [(4 : ℝ), 2, 2, 5] [0, 1, 0, 1] [0, 2, 4]).at 0 0 = 4 := rfl
    have a01 : (of_storage 2 2 [(4 : ℝ), 2, 2, 5] [0, 1, 0, 1] [0, 2, 4]).at 0 1 = 2 := rfl
    have a10 : (of_storage 2 2 [(4 : ℝ), 2, 2, 5] [0, 1, 0, 1] [0, 2, 4]).at 1 0 = 2 := rfl
    have a11 : (of_storage 2 2 [(4 : ℝ), 2, 2, 5] [0, 1, 0, 1] [0, 2, 4]).at 1 1 = 5 := rfl
    rw [a00, a01, a10, a11]
    have e : x 0 * 4 * x 0 + x 0 * 2 * x 1 + (x 1 * 2 * x 0 + x 1 * 5 * x 1) =
        (2 * x 0 + x 1) ^ 2 + 4 * x 1 ^ 2 := by ring
    rw [e]
    by_cases h1 : x 1 = 0
    · have h0 : x 0 ≠ 0 := by
        rcases hx with h | h
        · exact h
        · exact absurd h1 h
      rw [h1]
      have : 0 < (2 * x 0) ^ 2 := by positivity
      simpa using this
    · have : 0 < 4 * x 1 ^ 2 := by positivity
      have h2 : 0 ≤ (2 * x 0 + x 1) ^ 2 := sq_nonneg _
      linarith
  · have l10 : (⟨2, 2, [2, 1, Real.sqrt 5], [⟨0, 0, 0⟩, ⟨1, 0, 1⟩, ⟨1, 1, 2⟩],
        [0, 0, 1, 0, 1, 1, 0, 1, 1], [0, 2, 3], [0, 2, 1]⟩ : SparseMatrixCSC ℝ).at 1 0 = 0 := rfl
    have l01 : (⟨2, 2, [2, 1, Real.sqrt 5], [⟨0, 0, 0⟩, ⟨1, 0, 1⟩, ⟨1, 1, 2⟩],
        [0, 0, 1, 0, 1, 1, 0, 1, 1], [0, 2, 3], [0, 2, 1]⟩ : SparseMatrixCSC ℝ).at 0 1 = 0 := rfl
    rw [l10, l01]
    ring

/-- C26 (failing input). `A = [[1,2],[2,1]]`, in valid compressed-column storage, is
symmetric and not positive definite: its quadratic form is `-2` at `(1, -1)`.
`Cholesky` with the sparse matrix class of the sources returns normally on it:
the multiplier `2` stored for `L(1,0)` reads `0` after the repeated `finalize()`,
the pivot computed for column `1` is `1 - 0 = 1`, positive, and no exception is
raised; the returned `L` reads as the identity. -/
theorem Cholesky_sparse_accepts_non_SPD :
    CSC (of_storage 2 2 [(1 : ℝ), 2, 2, 1] [0, 1, 0, 1] [0, 2, 4]) ∧
    ((of_storage 2 2 [(1 : ℝ), 2, 2, 1] [0, 1, 0, 1] [0, 2, 4]).get 0 0 = .ok 1 ∧
      (of_storage 2 2 [(1 : ℝ), 2, 2, 1] [0, 1, 0, 1] [0, 2, 4]).get 0 1 = .ok 2 ∧
      (of_storage 2 2 [(1 : ℝ), 2, 2, 1] [0, 1, 0, 1] [0, 2, 4]).get 1 0 = .ok 2 ∧
      (of_storage 2 2 [(1 : ℝ), 2, 2, 1] [0, 1, 0, 1] [0, 2, 4]).get 1 1 = .ok 1) ∧
    quad_form 2 (fun i j => (of_storage 2 2 [(1 : ℝ), 2, 2, 1] [0, 1, 0, 1] [0, 2, 4]).at i j)
      (fun i => if i = 0 then 1 else -1) = -2 ∧
    ∃ L, Cholesky_sparse Real.sqrt (1 / 2 ^ 52)
        (of_storage 2 2 [(1 : ℝ), 2, 2, 1] [0, 1, 0, 1] [0, 2, 4]) = .ok L ∧
      L.values = [1, 2, 1] ∧ L.row_indices = [0, 0, 1, 0, 1, 1, 0, 1, 1] ∧
      L.col_ptr = [0, 2, 3] ∧
      L.get 0 0 = .ok 1 ∧ L.get 1 0 = .ok 0 ∧ L.get 0 1 = .ok 0 ∧ L.get 1 1 = .ok 1 := by
  refine ⟨by decide, ⟨rfl, rfl, rfl, rfl⟩, ?_,
    ⟨_, Cholesky_sparse_run_indefinite, rfl, rfl, rfl, rfl, rfl, rfl, rfl⟩⟩
  rw [quad_form_two_sparse]
  have a00 : (of_storage 2 2 [(1 : ℝ), 2, 2, 1] [0, 1, 0, 1] [0, 2, 4]).at 0 0 = 1 := rfl
  have a01 : (of_storage 2 2 [(1 : ℝ), 2, 2, 1] [0, 1, 0, 1] [0, 2, 4]).at 0 1 = 2 := rfl
  have a10 : (of_storage 2 2 [(1 : ℝ), 2, 2, 1] [0, 1, 0, 1] [0, 2, 4]).at 1 0 = 2 := rfl
  have a11 : (of_storage 2 2 [(1 : ℝ), 2, 2, 1] [0, 1, 0, 1] [0, 2, 4]).at 1 1 = 1 := rfl
  rw [a00, a01, a10, a11]
  norm_num

end FASTSolver
